import Mathlib

/-!
Verification of the Mangle Rust implementation (compiler and execution
engine for a Datalog-style logic programming language) against its
natural-language specification.

The development shallowly embeds the core pipeline:
  * the in-memory fact store (`interpreter/src/lib.rs`, `MemStore`),
  * the physical-plan interpreter (`Interpreter::exec_op`),
  * the planner (`analysis/src/planner.rs`),
  * stratification (`analysis/src/stratification.rs`),
  * package renaming (`analysis/src/rename.rs`),
  * lowering (`analysis/src/lowering.rs`) and the driver
    (`driver/src/lib.rs`).

Rust hash maps are modelled as association lists (iteration order of a
hash map is unspecified; the list order stands for one such order).
Machine integers (`i64`) are modelled as `Int` with explicit two's
complement wrapping applied exactly where the Rust code performs
arithmetic.  Fallible code returns `Except String`.
-/

namespace Mangle

/-! ## Association-list model of `HashMap` / `FxHashMap`

`alGet` is `HashMap::get`, `alInsert` is `HashMap::insert` (replaces the
value of an existing key, otherwise appends), `alEntryOrDefault`
mirrors `entry(k).or_default()`. -/

def alGet {K V : Type} [DecidableEq K] (m : List (K × V)) (k : K) : Option V :=
  match m with
  | [] => none
  | (k', v) :: rest => if k' = k then some v else alGet rest k

def alInsert {K V : Type} [DecidableEq K] (m : List (K × V)) (k : K) (v : V) :
    List (K × V) :=
  match m with
  | [] => [(k, v)]
  | (k', v') :: rest =>
    if k' = k then (k', v) :: rest else (k', v') :: alInsert rest k v

/-- `entry(k).or_default()` for a map whose values default to `d`:
returns the map with the key materialized. -/
def alEntryOrDefault {K V : Type} [DecidableEq K] (m : List (K × V)) (k : K) (d : V) :
    List (K × V) :=
  match alGet m k with
  | some _ => m
  | none => m ++ [(k, d)]

/-- Update the value at key `k`, materializing it with default `d` first. -/
def alUpdate {K V : Type} [DecidableEq K] (m : List (K × V)) (k : K) (d : V)
    (f : V → V) : List (K × V) :=
  match m with
  | [] => [(k, f d)]
  | (k', v') :: rest =>
    if k' = k then (k', f v') :: rest else (k', v') :: alUpdate rest k d f

/-- Insert into an `FxHashSet` of numeric ids modelled as a
duplicate-free list (insertion order). -/
def nsInsert (l : List Nat) (x : Nat) : List Nat :=
  if x ∈ l then l else l ++ [x]

/-! ## Values (`interpreter/src/lib.rs`, `enum Value`) -/

/-- Runtime values of the interpreter: `Number(i64)`, `String(String)`, `Null`. -/
inductive Value where
  | number (n : Int)
  | string (s : String)
  | null
deriving DecidableEq, Repr

/-- Two's-complement wrapping into the `i64` range, applied where Rust
performs `i64` arithmetic. -/
def wrap64 (n : Int) : Int :=
  (n + 2 ^ 63) % 2 ^ 64 - 2 ^ 63

abbrev Tuple := List Value

abbrev Relation := List Tuple

/-! ## `MemStore` (`interpreter/src/lib.rs`)

Three buckets per relation (`stable`, `delta`, `next_delta`) plus
secondary indexes `(relation, col_idx) -> { value -> [row_indices] }`
over the stable and delta buckets. -/

structure MemStore where
  stable : List (String × Relation)
  delta : List (String × Relation)
  next_delta : List (String × Relation)
  stable_indexes : List ((String × Nat) × List (Value × List Nat))
  delta_indexes : List ((String × Nat) × List (Value × List Nat))
deriving DecidableEq, Repr

namespace MemStore

def new : MemStore := ⟨[], [], [], [], []⟩

/-- `create_relation`: `self.stable.entry(relation.to_string()).or_default();` -/
def create_relation (st : MemStore) (relation : String) : MemStore :=
  { st with stable := alEntryOrDefault st.stable relation [] }

/-- `scan`: chained iteration over the stable and delta buckets.  Note the
code returns `Ok` unconditionally. -/
def scan (st : MemStore) (relation : String) : Except String (List Tuple) :=
  Except.ok ((alGet st.stable relation).getD [] ++ (alGet st.delta relation).getD [])

/-- `scan_delta`: only the delta bucket, empty iterator when the relation
is absent. -/
def scan_delta (st : MemStore) (relation : String) : Except String (List Tuple) :=
  match alGet st.delta relation with
  | some tuples => Except.ok tuples
  | none => Except.ok []

/-- `scan_next_delta`: only the next-delta bucket. -/
def scan_next_delta (st : MemStore) (relation : String) : Except String (List Tuple) :=
  match alGet st.next_delta relation with
  | some tuples => Except.ok tuples
  | none => Except.ok []

/-- Rows of `table` selected by a row-index list (`table[i].clone()`).
Out-of-range indices cannot occur for indexes maintained by the store;
they contribute nothing here. -/
def rowsAt (table : Relation) (idxs : List Nat) : List Tuple :=
  idxs.filterMap fun i => table[i]?

/-- `scan_index`: stable-index hits followed by delta-index hits. -/
def scan_index (st : MemStore) (relation : String) (col_idx : Nat) (key : Value) :
    Except String (List Tuple) :=
  let fromStable :=
    match alGet st.stable_indexes (relation, col_idx) with
    | some idx_map =>
      match alGet idx_map key with
      | some row_indices =>
        match alGet st.stable relation with
        | some table => rowsAt table row_indices
        | none => []
      | none => []
    | none => []
  let fromDelta :=
    match alGet st.delta_indexes (relation, col_idx) with
    | some idx_map =>
      match alGet idx_map key with
      | some row_indices =>
        match alGet st.delta relation with
        | some table => rowsAt table row_indices
        | none => []
      | none => []
    | none => []
  Except.ok (fromStable ++ fromDelta)

/-- `scan_delta_index`: delta-index hits only. -/
def scan_delta_index (st : MemStore) (relation : String) (col_idx : Nat) (key : Value) :
    Except String (List Tuple) :=
  match alGet st.delta_indexes (relation, col_idx) with
  | some idx_map =>
    match alGet idx_map key with
    | some row_indices =>
      match alGet st.delta relation with
      | some table => Except.ok (rowsAt table row_indices)
      | none => Except.ok []
    | none => Except.ok []
  | none => Except.ok []

/-- Membership test of a tuple in one bucket map, mirroring
`self.bucket.get(relation).is_some_and(|v| v.contains(&tuple))`. -/
def bucketContains (bucket : List (String × Relation)) (relation : String)
    (tuple : Tuple) : Bool :=
  match alGet bucket relation with
  | some v => tuple ∈ v
  | none => false

/-- `insert`: append to the next-delta bucket iff the tuple is absent from
the stable, delta and next-delta buckets of the relation; the returned
`bool` says whether it was new. -/
def insert (st : MemStore) (relation : String) (tuple : Tuple) :
    Except String (Bool × MemStore) :=
  if bucketContains st.stable relation tuple
      || bucketContains st.delta relation tuple
      || bucketContains st.next_delta relation tuple then
    Except.ok (false, st)
  else
    Except.ok
      (true,
        { st with
          next_delta := alUpdate st.next_delta relation [] (fun v => v ++ [tuple]) })

/-- One step of index maintenance:
`indexes.entry((rel, col)).or_default().entry(val).or_default().push(row_idx)`. -/
def idxAdd (indexes : List ((String × Nat) × List (Value × List Nat)))
    (rel : String) (col : Nat) (val : Value) (row : Nat) :
    List ((String × Nat) × List (Value × List Nat)) :=
  alUpdate indexes (rel, col) [] fun m => alUpdate m val [] fun l => l ++ [row]

/-- Add all columns of `tuple` (at row index `row`) to the indexes. -/
def idxAddTuple (indexes : List ((String × Nat) × List (Value × List Nat)))
    (rel : String) (tuple : Tuple) (row : Nat) :
    List ((String × Nat) × List (Value × List Nat)) :=
  (tuple.enum.foldl (fun acc (p : Nat × Value) => idxAdd acc rel p.1 p.2 row) indexes)

/-- Move the tuples of one relation from the drained delta into stable,
updating the stable indexes (`merge_deltas`, step 1, inner loop). -/
def mergeRelIntoStable (rel : String) (tuples : Relation)
    (stable : List (String × Relation))
    (sidx : List ((String × Nat) × List (Value × List Nat))) :
    List (String × Relation) × List ((String × Nat) × List (Value × List Nat)) :=
  tuples.foldl
    (fun (acc : List (String × Relation) × List ((String × Nat) × List (Value × List Nat)))
        tuple =>
      let table := (alGet acc.1 rel).getD []
      let row_idx := table.length
      let sidx' := idxAddTuple acc.2 rel tuple row_idx
      (alUpdate acc.1 rel [] (fun v => v ++ [tuple]), sidx'))
    (alEntryOrDefault stable rel [], sidx)

/-- Build the delta indexes of a delta map from scratch
(`merge_deltas`, step 2). -/
def buildDeltaIndexes (delta : List (String × Relation)) :
    List ((String × Nat) × List (Value × List Nat)) :=
  delta.foldl
    (fun acc (p : String × Relation) =>
      (p.2.enum.foldl
        (fun acc2 (q : Nat × Tuple) => idxAddTuple acc2 p.1 q.2 q.1) acc))
    []

/-- `merge_deltas`: move delta into stable (updating the stable indexes),
clear the delta indexes, move next-delta into delta and rebuild the
delta indexes. -/
def merge_deltas (st : MemStore) : MemStore :=
  let step1 :=
    st.delta.foldl
      (fun (acc : List (String × Relation) × List ((String × Nat) × List (Value × List Nat)))
          (p : String × Relation) => mergeRelIntoStable p.1 p.2 acc.1 acc.2)
      (st.stable, st.stable_indexes)
  { stable := step1.1
    delta := st.next_delta
    next_delta := []
    stable_indexes := step1.2
    delta_indexes := buildDeltaIndexes st.next_delta }

end MemStore

/-! ## Claim C5: `MemStore::insert` -/

/-- The store after a successful `insert` of `tuple` into `relation`:
only the next-delta bucket changes, by appending the tuple. -/
def insertedStore (st : MemStore) (relation : String) (tuple : Tuple) : MemStore :=
  { st with
    next_delta := alUpdate st.next_delta relation [] (fun v => v ++ [tuple]) }

/-- The tuple is absent from all three buckets of the relation. -/
def absentFromAllBuckets (st : MemStore) (relation : String) (tuple : Tuple) : Prop :=
  MemStore.bucketContains st.stable relation tuple = false ∧
  MemStore.bucketContains st.delta relation tuple = false ∧
  MemStore.bucketContains st.next_delta relation tuple = false

/-- Claim C5 (confirmed): for every relation name and tuple,
`Store::insert` appends the tuple to the next-delta bucket if and only
if the tuple is absent from all three buckets (stable, delta, and
next-delta) of that relation, and returns `true` exactly when the tuple
was so appended; when it returns `false` the store is unchanged.  (The
`Result` is always `Ok`.) -/
theorem memstore_insert_spec (st : MemStore) (relation : String) (tuple : Tuple) :
    (st.insert relation tuple =
        Except.ok (true, insertedStore st relation tuple) ↔
      absentFromAllBuckets st relation tuple) ∧
    (¬ absentFromAllBuckets st relation tuple →
      st.insert relation tuple = Except.ok (false, st)) := by
  unfold MemStore.insert insertedStore absentFromAllBuckets
  by_cases h1 : MemStore.bucketContains st.stable relation tuple
  · simp [h1]
  · by_cases h2 : MemStore.bucketContains st.delta relation tuple
    · simp [h1, h2]
    · by_cases h3 : MemStore.bucketContains st.next_delta relation tuple
      · simp [h1, h2, h3]
      · simp [h1, h2, h3]

/-- Witness for C5 at a concrete input: inserting `(1)` into relation
`"r"` of the empty store appends it to next-delta. -/
theorem memstore_insert_spec_witness :
    ¬ absentFromAllBuckets
        (insertedStore MemStore.new "r" [Value.number 1]) "r" [Value.number 1] ∧
    (insertedStore MemStore.new "r" [Value.number 1]).insert "r" [Value.number 1] =
      Except.ok (false, insertedStore MemStore.new "r" [Value.number 1]) := by
  refine ⟨?_, ?_⟩
  · intro h
    rcases h with ⟨_, _, h3⟩
    revert h3
    decide
  · exact (memstore_insert_spec _ "r" [Value.number 1]).2 (by
      intro h
      rcases h with ⟨_, _, h3⟩
      revert h3
      decide)

/-! ## Claim C6: `MemStore::scan` on an unknown relation

The `Store` trait documents: "Returns an error if the relation does not
exist", and the spec requires an error for an unknown relation.
`MemStore::scan` instead returns `Ok` with an empty iterator: the
relation lookup falls through `Option::into_iter().flatten()`. -/

/-- Claim C6 (code bug): scanning a relation that was never created and
never written on a fresh `MemStore` returns `Ok` with an empty result,
not an error, contradicting the `Store` trait documentation and the
spec. -/
theorem memstore_scan_unknown_is_ok :
    MemStore.new.scan "unknown" = Except.ok ([] : List Tuple) := rfl

/-! ## The AST and arena (`ast/src/lib.rs`)

Predicate and function symbols are arena indices into symbol tables;
plain names and variables are interner indices (`u32`).  The interner
pre-interns `"_"` at index 0 (the wildcard).  The arena is modelled as
explicit state, since `predicate_sym` can create new symbols. -/

abbrev PredicateIndex := Nat
abbrev FunctionIndex := Nat
abbrev VariableIndex := Nat

structure PredicateSym where
  name : Nat
  arity : Option Nat
deriving DecidableEq, Repr

structure FunctionSym where
  name : Nat
  arity : Option Nat
deriving DecidableEq, Repr

structure Arena where
  interner : List String
  predicate_syms : List PredicateSym
  function_syms : List FunctionSym
deriving DecidableEq, Repr

namespace Arena

/-- A fresh arena (`new_with_global_interner` on a fresh interner): only
`"_"` is interned. -/
def new : Arena := ⟨["_"], [], []⟩

/-- `Interner::intern`: index of the first occurrence, appending when
new. -/
def intern (a : Arena) (s : String) : Arena × Nat :=
  match a.interner.findIdx? (· = s) with
  | some i => (a, i)
  | none => ({ a with interner := a.interner ++ [s] }, a.interner.length)

def lookup_name (a : Arena) (i : Nat) : Option String :=
  a.interner[i]?

/-- `Arena::predicate_name`. -/
def predicate_name (a : Arena) (p : PredicateIndex) : Option String :=
  match a.predicate_syms[p]? with
  | some sym => a.lookup_name sym.name
  | none => none

/-- `Arena::predicate_arity`. -/
def predicate_arity (a : Arena) (p : PredicateIndex) : Option Nat :=
  match a.predicate_syms[p]? with
  | some sym => sym.arity
  | none => none

/-- `Arena::lookup_predicate_sym`: first symbol with the given name
index. -/
def lookup_predicate_sym (a : Arena) (name_index : Nat) : Option PredicateIndex :=
  a.predicate_syms.findIdx? (fun p => p.name = name_index)

/-- `Arena::predicate_sym`: looks the name up by interned index,
creating the symbol if no symbol has that name. -/
def predicate_sym (a : Arena) (name : String) (arity : Option Nat) :
    Arena × PredicateIndex :=
  let p := a.intern name
  match p.1.predicate_syms.findIdx? (fun q => q.name = p.2) with
  | some i => (p.1, i)
  | none =>
    ({ p.1 with predicate_syms := p.1.predicate_syms ++ [⟨p.2, arity⟩] },
      p.1.predicate_syms.length)

/-- `Arena::function_sym`. -/
def function_sym (a : Arena) (name : String) (arity : Option Nat) :
    Arena × FunctionIndex :=
  let p := a.intern name
  match p.1.function_syms.findIdx? (fun q => q.name = p.2) with
  | some i => (p.1, i)
  | none =>
    ({ p.1 with function_syms := p.1.function_syms ++ [⟨p.2, arity⟩] },
      p.1.function_syms.length)

/-- `Arena::function_name`. -/
def function_name (a : Arena) (f : FunctionIndex) : Option String :=
  match a.function_syms[f]? with
  | some sym => a.lookup_name sym.name
  | none => none

/-- `Arena::variable_sym`. -/
def variable_sym (a : Arena) (name : String) : Arena × VariableIndex :=
  a.intern name

end Arena

/-- `ast::Const`.  The `f64` payload of `Float` is an opaque bit
pattern. -/
inductive Const where
  | name (n : Nat)
  | bool (b : Bool)
  | number (n : Int)
  | float (bits : Nat)
  | string (s : String)
  | bytes (bs : List Nat)
  | list (cs : List Const)
  | map (keys : List Const) (values : List Const)
  | struct (fields : List String) (values : List Const)
deriving Repr

/-- `ast::BaseTerm`. -/
inductive BaseTerm where
  | const (c : Const)
  | var (v : VariableIndex)
  | applyFn (f : FunctionIndex) (args : List BaseTerm)
deriving Repr

/-- `ast::Atom`. -/
structure Atom where
  sym : PredicateIndex
  args : List BaseTerm
deriving Repr

/-- `ast::Term`. -/
inductive Term where
  | atom (a : Atom)
  | negAtom (a : Atom)
  | eq (l r : BaseTerm)
  | ineq (l r : BaseTerm)
deriving Repr

/-- `ast::TransformStmt`. -/
structure TransformStmt where
  var : Option String
  app : BaseTerm
deriving Repr

/-- `ast::Clause`. -/
structure Clause where
  head : Atom
  premises : List Term
  transform : List TransformStmt
deriving Repr

/-- `ast::BoundDecl`. -/
structure BoundDecl where
  base_terms : List BaseTerm
deriving Repr

/-- `ast::Constraints`. -/
structure Constraints where
  consequences : List Atom
  alternatives : List (List Atom)
deriving Repr

/-- `ast::Decl`. -/
structure Decl where
  atom : Atom
  descr : List Atom
  bounds : Option (List BoundDecl)
  constraints : Option Constraints
deriving Repr

/-- `ast::Unit` (a source unit; primed to avoid the Lean `Unit`). -/
structure Unit' where
  decls : List Decl
  clauses : List Clause
deriving Repr

/-! ## The rename pass (`analysis/src/rename.rs`) -/

/-- `find_name_desc`: the first description atom named `name` whose
first argument is a string constant. -/
def find_name_desc (arena : Arena) : List Atom → Option String
  | [] => none
  | atom :: rest =>
    if (arena.predicate_name atom.sym).getD "" = "name" then
      match atom.args.head? with
      | some (BaseTerm.const (Const.string s)) => some s
      | _ => find_name_desc arena rest
    else find_name_desc arena rest

/-- `find_package_info`: the package name (last `Package` declaration's
`name` descriptor wins; empty when absent) and the set of used package
names. -/
def find_package_info (arena : Arena) (unit : Unit') : String × List String :=
  unit.decls.foldl
    (fun (acc : String × List String) decl =>
      let pred_name := (arena.predicate_name decl.atom.sym).getD ""
      if pred_name = "Package" then
        match find_name_desc arena decl.descr with
        | some desc => (desc, acc.2)
        | none => acc
      else if pred_name = "Use" then
        match find_name_desc arena decl.descr with
        | some desc => (acc.1, if desc ∈ acc.2 then acc.2 else acc.2 ++ [desc])
        | none => acc
      else acc)
    ("", [])

/-- `find_defined_preds`: heads of declarations and clauses. -/
def find_defined_preds (unit : Unit') : List PredicateIndex :=
  let fromDecls := unit.decls.foldl (fun acc d => nsInsert acc d.atom.sym) []
  unit.clauses.foldl (fun acc c => nsInsert acc c.head.sym) fromDecls

/-- Index of the last `'.'` of a string (`str::rfind('.')`), as a
character position. -/
def rfindDot (s : String) : Option Nat :=
  ((s.toList.enum.filter (fun p => p.2 = '.')).map (fun p => p.1)).getLast?

/-- The renamer state: the arena (new predicate symbols are created in
it) and the memoization cache. -/
structure Renamer where
  arena : Arena
  pkg_name : String
  used_pkgs : List String
  defined_preds : List PredicateIndex
  cache : List (PredicateIndex × PredicateIndex)
deriving Repr

/-- `Renamer::rename_pred`: memoized retargeting of one predicate
symbol.  `None` when the symbol has no name. -/
def rename_pred (r : Renamer) (sym : PredicateIndex) :
    Option PredicateIndex × Renamer :=
  match alGet r.cache sym with
  | some new_sym => (some new_sym, r)
  | none =>
    match r.arena.predicate_name sym with
    | none => (none, r)
    | some name =>
      if name = "Package" ∨ name = "Use" then
        (some sym, { r with cache := alInsert r.cache sym sym })
      else if sym ∈ r.defined_preds then
        let new_name := r.pkg_name ++ "." ++ name
        let p := r.arena.predicate_sym new_name (r.arena.predicate_arity sym)
        (some p.2, { r with arena := p.1, cache := alInsert r.cache sym p.2 })
      else
        match rfindDot name with
        | some dot_idx =>
          let pre := String.mk (name.toList.take dot_idx)
          if pre ∈ r.used_pkgs then
            (some sym, { r with cache := alInsert r.cache sym sym })
          else
            (some sym, { r with cache := alInsert r.cache sym sym })
        | none => (some sym, { r with cache := alInsert r.cache sym sym })

/-- `Renamer::rewrite_atom`. -/
def rewrite_atom (r : Renamer) (atom : Atom) : Option Atom × Renamer :=
  match rename_pred r atom.sym with
  | (some new_sym, r') => (some { atom with sym := new_sym }, r')
  | (none, r') => (none, r')

/-- The bound-declaration rewrite inside `rewrite_decl`: a name constant
whose symbol is a locally defined predicate is re-interned with the
package prefix. -/
def rewriteBaseTermBound (r : Renamer) (t : BaseTerm) : BaseTerm × Renamer :=
  match t with
  | BaseTerm.const (Const.name name_idx) =>
    let name := (r.arena.lookup_name name_idx).getD ""
    match r.arena.lookup_predicate_sym name_idx with
    | some pred_idx =>
      if pred_idx ∈ r.defined_preds then
        let new_name := r.pkg_name ++ "." ++ name
        let p := r.arena.intern new_name
        (BaseTerm.const (Const.name p.2), { r with arena := p.1 })
      else (t, r)
    | none => (t, r)
  | _ => (t, r)

def rewriteBoundDecl (r : Renamer) (b : BoundDecl) : BoundDecl × Renamer :=
  let p :=
    b.base_terms.foldl
      (fun (acc : List BaseTerm × Renamer) t =>
        let q := rewriteBaseTermBound acc.2 t
        (acc.1 ++ [q.1], q.2))
      ([], r)
  (⟨p.1⟩, p.2)

/-- `Renamer::rewrite_decl`: `Package`/`Use` declarations are dropped;
the atom is retargeted and bound declarations rewritten. -/
def rewrite_decl (r : Renamer) (decl : Decl) : Option Decl × Renamer :=
  let pred_name := (r.arena.predicate_name decl.atom.sym).getD ""
  if pred_name = "Package" ∨ pred_name = "Use" then (none, r)
  else
    match rewrite_atom r decl.atom with
    | (none, r') => (none, r')
    | (some new_atom, r') =>
      match decl.bounds with
      | some bs =>
        let p :=
          bs.foldl
            (fun (acc : List BoundDecl × Renamer) b =>
              let q := rewriteBoundDecl acc.2 b
              (acc.1 ++ [q.1], q.2))
            ([], r')
        (some { atom := new_atom, descr := decl.descr, bounds := some p.1,
                constraints := decl.constraints }, p.2)
      | none =>
        (some { atom := new_atom, descr := decl.descr, bounds := none,
                constraints := decl.constraints }, r')

/-- `Renamer::rewrite_clause`: head and atomic premises are retargeted,
equalities and transforms are untouched. -/
def rewrite_clause (r : Renamer) (clause : Clause) : Option Clause × Renamer :=
  match rewrite_atom r clause.head with
  | (none, r') => (none, r')
  | (some head, r') =>
    let p :=
      clause.premises.foldl
        (fun (acc : Option (List Term) × Renamer) premise =>
          match acc.1 with
          | none => acc
          | some terms =>
            match premise with
            | Term.atom a =>
              match rewrite_atom acc.2 a with
              | (some a', r2) => (some (terms ++ [Term.atom a']), r2)
              | (none, r2) => (none, r2)
            | Term.negAtom a =>
              match rewrite_atom acc.2 a with
              | (some a', r2) => (some (terms ++ [Term.negAtom a']), r2)
              | (none, r2) => (none, r2)
            | t => (some (terms ++ [t]), acc.2))
        (some [], r')
    match p.1 with
    | none => (none, p.2)
    | some premises =>
      (some { head := head, premises := premises, transform := clause.transform },
        p.2)

/-- `rewrite_unit`: prefix local predicates with the package name; the
identity (on declarations, clauses, and the arena) when the package
name is empty. -/
def rewrite_unit (arena : Arena) (unit : Unit') : Unit' × Arena :=
  let info := find_package_info arena unit
  if info.1 = "" then ({ decls := unit.decls, clauses := unit.clauses }, arena)
  else
    let defined_preds := find_defined_preds unit
    let r0 : Renamer := ⟨arena, info.1, info.2, defined_preds, []⟩
    let pd :=
      unit.decls.foldl
        (fun (acc : List Decl × Renamer) decl =>
          match rewrite_decl acc.2 decl with
          | (some d, r') => (acc.1 ++ [d], r')
          | (none, r') => (acc.1, r'))
        ([], r0)
    let pc :=
      unit.clauses.foldl
        (fun (acc : List Clause × Renamer) clause =>
          match rewrite_clause acc.2 clause with
          | (some c, r') => (acc.1 ++ [c], r')
          | (none, r') => (acc.1, r'))
        ([], pd.2)
    ({ decls := pd.1, clauses := pc.1 }, pc.2.arena)

/-! ## Claim C9: rename is the identity without a package name -/

/-- Claim C9 (confirmed): for every unit whose package name is empty (in
particular when no `Package` declaration carries a `name` descriptor),
`rewrite_unit` returns the unit with its declarations and clauses
unchanged, and leaves the arena untouched. -/
theorem rename_identity_no_package (arena : Arena) (unit : Unit')
    (h : (find_package_info arena unit).1 = "") :
    rewrite_unit arena unit = ({ decls := unit.decls, clauses := unit.clauses }, arena) := by
  unfold rewrite_unit
  simp only [h, if_true]

/-- Witness for C9: a unit with one clause and no declarations has an
empty package name, and rename leaves it unchanged. -/
theorem rename_identity_no_package_witness :
    (find_package_info Arena.new
        ⟨[], [⟨⟨0, []⟩, [], []⟩]⟩).1 = "" ∧
    rewrite_unit Arena.new ⟨[], [⟨⟨0, []⟩, [], []⟩]⟩ =
      (⟨[], [⟨⟨0, []⟩, [], []⟩]⟩, Arena.new) :=
  ⟨rfl, rename_identity_no_package Arena.new ⟨[], [⟨⟨0, []⟩, [], []⟩]⟩ rfl⟩

/-! ## Stratification: the dependency graph
(`analysis/src/stratification.rs`)

Nodes are predicate indices; the edge maps carry the `negated` flag.
`EdgeMap` and `DepGraph` are `FxHashMap`s in Rust, modelled as
association lists. -/

abbrev EdgeMap := List (PredicateIndex × Bool)

abbrev DepGraph := List (PredicateIndex × EdgeMap)

/-- `Program`: extensional predicates plus the map from head predicates
to their defining clauses. -/
structure Program where
  ext_preds : List PredicateIndex
  rules : List (PredicateIndex × List Clause)
deriving Repr

/-- `Program::add_clause`. -/
def Program.add_clause (p : Program) (clause : Clause) : Program :=
  { p with rules := alUpdate p.rules clause.head.sym [] (fun v => v ++ [clause]) }

/-- `DepGraph::init_node`: `entry(src).or_default()`. -/
def init_node (g : DepGraph) (src : PredicateIndex) : DepGraph :=
  alEntryOrDefault g src []

/-- The edge-map update of `add_edge`: a negative edge always
overwrites; a positive edge is recorded only when the edge is absent or
currently positive, so a negative edge is never downgraded. -/
def addEdgeEm (dest : PredicateIndex) (negated : Bool) (edges : EdgeMap) : EdgeMap :=
  if negated then alInsert edges dest negated
  else
    match alGet edges dest with
    | none => alInsert edges dest false
    | some b => if !b then alInsert edges dest false else edges

/-- `DepGraph::add_edge`. -/
def add_edge (g : DepGraph) (src dest : PredicateIndex) (negated : Bool) : DepGraph :=
  alUpdate g src [] (addEdgeEm dest negated)

/-- The per-premise step of `make_dep_graph`: positive atoms over
non-extensional predicates give an edge that is negative exactly when
the clause's transform list is nonempty and its first transform has an
absent variable (`clause.transform[0].var` is `None`); negated atoms
always give a negative edge; other premises add nothing. -/
def depEdgesOfPremise (prog : Program) (s : PredicateIndex) (clause : Clause)
    (dep : DepGraph) (t : Term) : DepGraph :=
  match t with
  | Term.atom atom_pred =>
    if atom_pred.sym ∈ prog.ext_preds then dep
    else
      match clause.transform.head? with
      | none => add_edge dep s atom_pred.sym false
      | some t0 =>
        if t0.var.isSome then add_edge dep s atom_pred.sym false
        else add_edge dep s atom_pred.sym true
  | Term.negAtom atom_pred =>
    if atom_pred.sym ∈ prog.ext_preds then dep
    else add_edge dep s atom_pred.sym true
  | _ => dep

/-- `make_dep_graph`. -/
def make_dep_graph (prog : Program) : DepGraph :=
  prog.rules.foldl
    (fun dep (p : PredicateIndex × List Clause) =>
      p.2.foldl
        (fun dep clause => clause.premises.foldl (depEdgesOfPremise prog p.1 clause) dep)
        (init_node dep p.1))
    []

/-! ### Claim C8: edge polarity and the `do` transform -/

/-- The label of the edge `s → q` in a dependency graph. -/
def edgeLabel (g : DepGraph) (s q : PredicateIndex) : Option Bool :=
  (alGet g s).bind fun em => alGet em q

/-- The edge contribution of one premise: `(target, negated)`. -/
def premiseContrib (prog : Program) (clause : Clause) (t : Term) :
    Option (PredicateIndex × Bool) :=
  match t with
  | Term.atom a =>
    if a.sym ∈ prog.ext_preds then none
    else
      match clause.transform.head? with
      | none => some (a.sym, false)
      | some t0 => if t0.var.isSome then some (a.sym, false) else some (a.sym, true)
  | Term.negAtom a =>
    if a.sym ∈ prog.ext_preds then none else some (a.sym, true)
  | _ => none

def clauseContribs (prog : Program) (clause : Clause) :
    List (PredicateIndex × Bool) :=
  clause.premises.filterMap (premiseContrib prog clause)

/-- All edge contributions with source `s`, in program order. -/
def progContribs (prog : Program) (s : PredicateIndex) :
    List (PredicateIndex × Bool) :=
  prog.rules.foldl
    (fun acc p =>
      if p.1 = s then acc ++ p.2.flatMap (clauseContribs prog) else acc)
    []

theorem alGet_append {K V : Type} [DecidableEq K] (l1 l2 : List (K × V)) (k : K) :
    alGet (l1 ++ l2) k =
      match alGet l1 k with
      | some v => some v
      | none => alGet l2 k := by
  induction l1 with
  | nil => rfl
  | cons p rest ih =>
    obtain ⟨pk, pv⟩ := p
    by_cases h : pk = k
    · simp [alGet, h]
    · simp [alGet, h, ih]

theorem alGet_alInsert {K V : Type} [DecidableEq K] (m : List (K × V)) (k k' : K)
    (v : V) :
    alGet (alInsert m k v) k' = if k = k' then some v else alGet m k' := by
  induction m with
  | nil =>
    by_cases h : k = k' <;> simp [alInsert, alGet, h]
  | cons p rest ih =>
    obtain ⟨pk, pv⟩ := p
    by_cases h1 : pk = k
    · subst h1
      by_cases h2 : pk = k' <;> simp [alInsert, alGet, h2]
    · simp only [alInsert, if_neg h1]
      by_cases h2 : pk = k'
      · subst h2
        have hne : ¬(k = pk) := fun h => h1 h.symm
        simp [alGet, hne]
      · simp [alGet, h2, ih]

theorem alGet_alUpdate {K V : Type} [DecidableEq K] (m : List (K × V)) (k k' : K)
    (d : V) (f : V → V) :
    alGet (alUpdate m k d f) k' =
      if k = k' then some (f ((alGet m k).getD d)) else alGet m k' := by
  induction m with
  | nil =>
    by_cases h : k = k' <;> simp [alUpdate, alGet, h]
  | cons p rest ih =>
    obtain ⟨pk, pv⟩ := p
    by_cases h1 : pk = k
    · subst h1
      by_cases h2 : pk = k' <;> simp [alUpdate, alGet, h2]
    · simp only [alUpdate, if_neg h1]
      by_cases h2 : pk = k'
      · subst h2
        have hne : ¬(k = pk) := fun h => h1 h.symm
        simp [alGet, hne, h1]
      · simp [alGet, h2, ih, h1]

theorem edgeLabel_init_node (g : DepGraph) (n s q : PredicateIndex) :
    edgeLabel (init_node g n) s q = edgeLabel g s q := by
  unfold init_node alEntryOrDefault edgeLabel
  cases hg : alGet g n with
  | some em => rfl
  | none =>
    rw [alGet_append]
    cases hs : alGet g s with
    | some em => rfl
    | none =>
      simp only [alGet]
      by_cases h : n = s
      · subst h
        simp [alGet]
      · simp [h, alGet]

theorem alGet_addEdgeEm (em : EdgeMap) (dest q : PredicateIndex) (b : Bool) :
    alGet (addEdgeEm dest b em) q =
      if dest = q then some (b || decide (alGet em dest = some true))
      else alGet em q := by
  unfold addEdgeEm
  cases b with
  | true => by_cases h : dest = q <;> simp [alGet_alInsert, h]
  | false =>
    cases hd : alGet em dest with
    | none => by_cases h : dest = q <;> simp [hd, alGet_alInsert, h]
    | some bb =>
      cases bb with
      | false => by_cases h : dest = q <;> simp [hd, alGet_alInsert, h]
      | true =>
        by_cases h : dest = q
        · subst h; simp [hd]
        · simp [hd, h]

theorem edgeLabel_add_edge (g : DepGraph) (src dest s q : PredicateIndex) (b : Bool) :
    edgeLabel (add_edge g src dest b) s q =
      if src = s ∧ dest = q then
        some (b || decide (edgeLabel g src dest = some true))
      else edgeLabel g s q := by
  unfold add_edge edgeLabel
  rw [alGet_alUpdate]
  by_cases h1 : src = s
  · subst h1
    rw [if_pos rfl]
    simp only [Option.some_bind, true_and]
    rw [alGet_addEdgeEm]
    cases hg : alGet g src with
    | none =>
      by_cases h2 : dest = q <;> simp [h2, alGet]
    | some em =>
      by_cases h2 : dest = q <;> simp [h2]
  · rw [if_neg h1, if_neg (by simp [h1])]

/-- Combining an edge label with a list of later contributions. -/
def combineLabel (old : Option Bool) (l : List Bool) : Option Bool :=
  l.foldl (fun o b => some (b || decide (o = some true))) old

theorem combineLabel_append (old : Option Bool) (l1 l2 : List Bool) :
    combineLabel old (l1 ++ l2) = combineLabel (combineLabel old l1) l2 := by
  unfold combineLabel
  exact List.foldl_append ..

theorem edgeLabel_foldl_add_edge (src : PredicateIndex) :
    ∀ (L : List (PredicateIndex × Bool)) (g : DepGraph) (s q : PredicateIndex),
      edgeLabel (L.foldl (fun g p => add_edge g src p.1 p.2) g) s q =
        if src = s then
          combineLabel (edgeLabel g s q) ((L.filter (fun p => p.1 = q)).map Prod.snd)
        else edgeLabel g s q := by
  intro L
  induction L with
  | nil =>
    intro g s q
    by_cases h : src = s <;> simp [combineLabel, h]
  | cons p rest ih =>
    intro g s q
    rw [List.foldl_cons, ih, edgeLabel_add_edge]
    by_cases h : src = s
    · subst h
      rw [if_pos rfl, if_pos rfl]
      by_cases h2 : p.1 = q
      · subst h2
        rw [if_pos ⟨rfl, rfl⟩, List.filter_cons_of_pos (by simp), List.map_cons]
        rfl
      · rw [if_neg (by simp [h2]), List.filter_cons_of_neg (by simp [h2])]
    · rw [if_neg h, if_neg h, if_neg (by simp [h])]

theorem clause_fold_add_edge (prog : Program) (src : PredicateIndex) (clause : Clause) :
    ∀ (premises : List Term) (g : DepGraph),
      premises.foldl (depEdgesOfPremise prog src clause) g =
        (premises.filterMap (premiseContrib prog clause)).foldl
          (fun g p => add_edge g src p.1 p.2) g := by
  intro premises
  induction premises with
  | nil => intro g; rfl
  | cons t rest ih =>
    intro g
    rw [List.foldl_cons, List.filterMap_cons]
    cases t with
    | atom a =>
      by_cases hext : a.sym ∈ prog.ext_preds
      · rw [show depEdgesOfPremise prog src clause g (Term.atom a) = g from by
            simp [depEdgesOfPremise, hext]]
        rw [show premiseContrib prog clause (Term.atom a) = none from by
            simp [premiseContrib, hext]]
        exact ih g
      · cases h0 : clause.transform.head? with
        | none =>
          rw [show depEdgesOfPremise prog src clause g (Term.atom a) =
              add_edge g src a.sym false from by simp [depEdgesOfPremise, hext, h0]]
          rw [show premiseContrib prog clause (Term.atom a) = some (a.sym, false) from by
              simp [premiseContrib, hext, h0]]
          rw [List.foldl_cons]
          exact ih _
        | some t0 =>
          cases hv : t0.var with
          | some v =>
            rw [show depEdgesOfPremise prog src clause g (Term.atom a) =
                add_edge g src a.sym false from by
                simp [depEdgesOfPremise, hext, h0, hv]]
            rw [show premiseContrib prog clause (Term.atom a) = some (a.sym, false) from by
                simp [premiseContrib, hext, h0, hv]]
            rw [List.foldl_cons]
            exact ih _
          | none =>
            rw [show depEdgesOfPremise prog src clause g (Term.atom a) =
                add_edge g src a.sym true from by
                simp [depEdgesOfPremise, hext, h0, hv]]
            rw [show premiseContrib prog clause (Term.atom a) = some (a.sym, true) from by
                simp [premiseContrib, hext, h0, hv]]
            rw [List.foldl_cons]
            exact ih _
    | negAtom a =>
      by_cases hext : a.sym ∈ prog.ext_preds
      · rw [show depEdgesOfPremise prog src clause g (Term.negAtom a) = g from by
            simp [depEdgesOfPremise, hext]]
        rw [show premiseContrib prog clause (Term.negAtom a) = none from by
            simp [premiseContrib, hext]]
        exact ih g
      · rw [show depEdgesOfPremise prog src clause g (Term.negAtom a) =
            add_edge g src a.sym true from by simp [depEdgesOfPremise, hext]]
        rw [show premiseContrib prog clause (Term.negAtom a) = some (a.sym, true) from by
            simp [premiseContrib, hext]]
        rw [List.foldl_cons]
        exact ih _
    | eq l r =>
      rw [show depEdgesOfPremise prog src clause g (Term.eq l r) = g from rfl]
      rw [show premiseContrib prog clause (Term.eq l r) = none from rfl]
      exact ih g
    | ineq l r =>
      rw [show depEdgesOfPremise prog src clause g (Term.ineq l r) = g from rfl]
      rw [show premiseContrib prog clause (Term.ineq l r) = none from rfl]
      exact ih g

theorem clauses_fold_add_edge (prog : Program) (src : PredicateIndex) :
    ∀ (clauses : List Clause) (g : DepGraph),
      clauses.foldl
          (fun dep clause =>
            clause.premises.foldl (depEdgesOfPremise prog src clause) dep) g =
        (clauses.flatMap (clauseContribs prog)).foldl
          (fun g p => add_edge g src p.1 p.2) g := by
  intro clauses
  induction clauses with
  | nil => intro g; rfl
  | cons c rest ih =>
    intro g
    rw [List.foldl_cons, List.flatMap_cons, List.foldl_append]
    rw [clause_fold_add_edge]
    rw [ih]
    rfl

/-- The label of every edge `s → q` of the dependency graph, in terms
of the per-premise contributions `progContribs`: absent when there are
none, negative iff some contribution is negative. -/
theorem edgeLabel_make_dep_graph (prog : Program) (s q : PredicateIndex) :
    edgeLabel (make_dep_graph prog) s q =
      (let l := ((progContribs prog s).filter (fun p => p.1 = q)).map Prod.snd
       if l.isEmpty then none else some (l.any id)) := by
  have main :
      ∀ (entries : List (PredicateIndex × List Clause)) (g : DepGraph),
        edgeLabel
            (entries.foldl
              (fun dep p =>
                p.2.foldl
                  (fun dep clause =>
                    clause.premises.foldl (depEdgesOfPremise prog p.1 clause) dep)
                  (init_node dep p.1))
              g) s q =
          combineLabel (edgeLabel g s q)
            (((entries.foldl
                (fun acc p =>
                  if p.1 = s then acc ++ p.2.flatMap (clauseContribs prog) else acc)
                []).filter (fun p => p.1 = q)).map Prod.snd) := by
    intro entries
    induction entries with
    | nil => intro g; rfl
    | cons e rest ih =>
      intro g
      rw [List.foldl_cons, List.foldl_cons, ih, clauses_fold_add_edge,
        edgeLabel_foldl_add_edge]
      by_cases h : e.1 = s
      · rw [if_pos h, if_pos h, edgeLabel_init_node]
        have hacc :
            ∀ (acc : List (PredicateIndex × Bool)) (rest' : List (PredicateIndex × List Clause)),
              rest'.foldl
                  (fun acc p =>
                    if p.1 = s then acc ++ p.2.flatMap (clauseContribs prog) else acc)
                  acc =
                acc ++ rest'.foldl
                  (fun acc p =>
                    if p.1 = s then acc ++ p.2.flatMap (clauseContribs prog) else acc)
                  [] := by
          intro acc rest'
          induction rest' generalizing acc with
          | nil => simp
          | cons e2 rest2 ih2 =>
            rw [List.foldl_cons, List.foldl_cons]
            by_cases h2 : e2.1 = s
            · rw [if_pos h2, if_pos h2, ih2, ih2 (([] : List (PredicateIndex × Bool)) ++ _)]
              simp
            · rw [if_neg h2, if_neg h2, ih2]
        rw [List.nil_append, hacc (e.2.flatMap (clauseContribs prog)) rest]
        rw [List.filter_append, List.map_append, combineLabel_append]
      · rw [if_neg h, if_neg h, edgeLabel_init_node]
  have := main prog.rules []
  unfold make_dep_graph progContribs
  rw [this]
  have hnone : edgeLabel [] s q = none := rfl
  rw [hnone]
  generalize (((prog.rules.foldl
      (fun acc p =>
        if p.1 = s then acc ++ p.2.flatMap (clauseContribs prog) else acc)
      []).filter (fun p => p.1 = q)).map Prod.snd) = l
  induction l with
  | nil => rfl
  | cons b rest ih =>
    simp only [combineLabel, List.foldl_cons, List.isEmpty_cons, if_false]
    clear ih
    suffices hgen : ∀ (x : Bool) (l : List Bool),
        l.foldl (fun o b => some (b || decide (o = some true))) (some x) =
          some (x || l.any id) by
      have := hgen (b || decide ((none : Option Bool) = some true)) rest
      simp only [this]
      simp
    intro x l
    induction l generalizing x with
    | nil => simp
    | cons c rest2 ih2 =>
      rw [List.foldl_cons, ih2]
      simp [Bool.or_assoc]
      cases c <;> cases x <;> simp

/-- Claim C8 (corrected; amended claim): the final label of every edge
`s → q` of the dependency graph is determined by the per-premise
contributions: it is negative iff some contribution is negative (a
negative edge is never downgraded by a later positive addition), where
a positive intensional atom premise contributes a negative edge iff the
clause's transform list is nonempty and its FIRST transform has an
absent variable (a leading `do`), and a negated intensional premise
always contributes a negative edge.  (The original claim said "contains
any transform with an absent variable"; the code only inspects
`transform[0]`, see the counterexample.) -/
theorem make_dep_graph_edge_labels (prog : Program) (s q : PredicateIndex) :
    edgeLabel (make_dep_graph prog) s q =
      (let l := ((progContribs prog s).filter (fun p => p.1 = q)).map Prod.snd
       if l.isEmpty then none else some (l.any id)) :=
  edgeLabel_make_dep_graph prog s q

/-- The concrete program refuting C8 as stated: `p() :- q() |> let Y =
1; do 2.` where `q` is intensional (`q().` is a rule) — the clause
contains a transform with an absent variable, yet the edge `p → q` is
positive, because the code inspects only `transform[0]`. -/
def c8Prog : Program :=
  ⟨[],
    [(0,
      [⟨⟨0, []⟩, [Term.atom ⟨1, []⟩],
        [⟨some "Y", BaseTerm.const (Const.number 1)⟩,
          ⟨none, BaseTerm.const (Const.number 2)⟩]⟩]),
      (1, [⟨⟨1, []⟩, [], []⟩])]⟩

/-- Counterexample for C8: the clause for `p` contains a `do` transform
(absent variable, at position 1), predicate `q = 1` is intensional and
not extensional, yet the dependency edge `p → q` is labelled positive
(`some false`), where the claim requires negative. -/
theorem c8Counterexample :
    (∃ t ∈ (⟨some "Y", BaseTerm.const (Const.number 1)⟩ ::
        [⟨none, BaseTerm.const (Const.number 2)⟩] : List TransformStmt),
      t.var = none) ∧
    (alGet c8Prog.rules 1).isSome = true ∧
    (1 : PredicateIndex) ∉ c8Prog.ext_preds ∧
    edgeLabel (make_dep_graph c8Prog) 0 1 = some false := by
  refine ⟨⟨⟨none, BaseTerm.const (Const.number 2)⟩, ?_, rfl⟩, rfl, ?_, rfl⟩
  · exact List.mem_cons_of_mem _ (List.mem_cons_self _ _)
  · simp [c8Prog]

/-! ## Stratification: `sccs`, `sort_result`, `stratify`
(`analysis/src/stratification.rs`)

Hash sets and hash maps iterate in insertion order in this model.  The
DFS helpers `visit`, `rvisit` and `visit_stratum` recurse through the
graph; the Lean functions take a fuel argument (structural recursion),
and callers pass a fuel that exceeds the recursion depth, so the fuel
never runs out on any input the program produces. -/

/-- Successor edge map of a node (`graph.get(&node)`, absent = no
edges). -/
def edgesOf (g : DepGraph) (node : PredicateIndex) : EdgeMap :=
  (alGet g node).getD []

/-- Phase-1 DFS `visit` of `sccs`: state is `(s, seen)`;
postorder-pushes `node` onto `s` after visiting all neighbours. -/
def visit (g : DepGraph) : Nat → PredicateIndex →
    List PredicateIndex × List PredicateIndex →
    List PredicateIndex × List PredicateIndex
  | 0, _, ss => ss
  | fuel + 1, node, (s, seen) =>
    if node ∈ seen then (s, seen)
    else
      let p := (edgesOf g node).foldl (fun ss q => visit g fuel q.1 ss)
        (s, seen ++ [node])
      (p.1 ++ [node], p.2)

/-- `DepGraphExt::transpose`. -/
def transpose (g : DepGraph) : DepGraph :=
  g.foldl
    (fun rev p =>
      p.2.foldl (fun rev e => add_edge (init_node rev e.1) e.1 p.1 e.2) rev)
    []

/-- Phase-2 DFS `rvisit` of `sccs`: state is `(scc, seen)`; collects
every yet-unseen node reverse-reachable from `node`. -/
def rvisit (rev : DepGraph) : Nat → PredicateIndex →
    List PredicateIndex × List PredicateIndex →
    List PredicateIndex × List PredicateIndex
  | 0, _, ss => ss
  | fuel + 1, node, (scc, seen) =>
    if node ∈ seen then (scc, seen)
    else
      (edgesOf rev node).foldl (fun ss q => rvisit rev fuel q.1 ss)
        (scc ++ [node], seen ++ [node])

/-- The pop loop of `sccs`: `stack` is the phase-1 stack already
reversed into pop order (`while let Some(top) = s.pop()`). -/
def popLoop (rev : DepGraph) (fuel : Nat) :
    List PredicateIndex → List PredicateIndex → List (List PredicateIndex)
  | [], _ => []
  | top :: rest, seen =>
    if top ∈ seen then popLoop rev fuel rest seen
    else
      let p := rvisit rev fuel top ([], seen)
      if p.1.isEmpty then popLoop rev fuel rest p.2
      else p.1 :: popLoop rev fuel rest p.2

/-- A fuel that strictly exceeds the number of nodes of `g` (each key
and each edge entry counts once), enough for every DFS in `sccs`. -/
def graphFuel (g : DepGraph) : Nat :=
  g.foldl (fun n p => n + 1 + p.2.length) 1

/-- `DepGraphExt::sccs` (Kosaraju): phase-1 postorder over all map
entries, then reverse-DFS collection popping the stack. -/
def sccs (g : DepGraph) (fuel : Nat) : List (List PredicateIndex) :=
  let p := g.foldl (fun ss e => visit g fuel e.1 ss) ([], [])
  popLoop (transpose g) fuel p.1.reverse []

/-- The inner rotation loop of `apply_permutation_cycle_rotate`:
`current_val` travels around the cycle starting at `i`. -/
def cycleInner (perm : List Nat) :
    Nat → Nat → List PredicateIndex → Nat →
    List (List PredicateIndex) × List Bool →
    List (List PredicateIndex) × List Bool
  | 0, _, _, _, st => st
  | fuel + 1, current_idx, current_val, i, (arr, visited) =>
    let target := perm.getD current_idx 0
    let visited := visited.set current_idx true
    let next_val := arr.getD target []
    let arr := arr.set target current_val
    if target = i then (arr, visited)
    else cycleInner perm fuel target next_val i (arr, visited)

/-- `apply_permutation_cycle_rotate` over `Vec<Nodeset>`
(`T::default()` is the empty set). -/
def apply_permutation_cycle_rotate (arr0 : List (List PredicateIndex))
    (perm : List Nat) : List (List PredicateIndex) :=
  let n := arr0.length
  if n = 0 then arr0
  else
    ((List.range n).foldl
      (fun st i =>
        if st.2.getD i false then st
        else if perm.getD i 0 = i then (st.1, st.2.set i true)
        else
          let current_val := st.1.getD i []
          cycleInner perm n i current_val i (st.1.set i [], st.2))
      (arr0, List.replicate n false)).1

/-- The recursive `visit_stratum` of `sort_result`: state is
`(seen, sorted_indices)`. -/
def visit_stratum (dep : DepGraph) (strata : List (List PredicateIndex))
    (pmap : List (PredicateIndex × Nat)) :
    Nat → Nat → List Nat × List Nat → List Nat × List Nat
  | 0, _, ss => ss
  | fuel + 1, index, (seen, sorted) =>
    if index ∈ seen then (seen, sorted)
    else
      let p :=
        match strata.get? index with
        | some scc =>
          scc.foldl
            (fun ss sym =>
              (edgesOf dep sym).foldl
                (fun ss (d : PredicateIndex × Bool) =>
                  match alGet pmap d.1 with
                  | some ds => visit_stratum dep strata pmap fuel ds ss
                  | none => ss)
                ss)
            (seen ++ [index], sorted)
        | none => (seen ++ [index], sorted)
      (p.1, p.2 ++ [index])

/-- `DepGraphExt::sort_result`: topologically sorts the strata in place
(the caller discards the returned predicate map, so only the permuted
strata are returned here). -/
def sort_result (dep : DepGraph) (strata : List (List PredicateIndex))
    (pmap : List (PredicateIndex × Nat)) : List (List PredicateIndex) :=
  let n := strata.length
  let sorted :=
    ((List.range n).foldl
      (fun ss i => visit_stratum dep strata pmap (n + 1) i ss) ([], [])).2
  let permutation :=
    (List.range n).foldl
      (fun perm new_idx =>
        match sorted.get? new_idx with
        | some old_idx => perm.set old_idx new_idx
        | none => perm)
      (List.replicate n 0)
  apply_permutation_cycle_rotate strata permutation

/-- The stratum loop of `Program::stratify`: fills `pred_to_stratum`
stratum by stratum and reports the unstratifiable error when a negated
edge lands in the stratum being processed. -/
def stratifyCheck (dep : DepGraph) :
    List (Nat × List PredicateIndex) → List (PredicateIndex × Nat) →
    Except String (List (PredicateIndex × Nat))
  | [], pmap => Except.ok pmap
  | (i, c) :: rest, pmap =>
    let pmap := c.foldl (fun m sym => alInsert m sym i) pmap
    if c.any (fun sym =>
        (edgesOf dep sym).any (fun e => e.2 && (alGet pmap e.1 == some i))) then
      Except.error "program cannot be stratified"
    else stratifyCheck dep rest pmap

/-- `Program::stratify`: dependency graph, Kosaraju SCCs, the
negative-self-stratum check, then `sort_result`. -/
def stratify (prog : Program) :
    Except String (Program × List (List PredicateIndex)) :=
  let dep := make_dep_graph prog
  let strata := sccs dep (graphFuel dep)
  match stratifyCheck dep strata.enum [] with
  | Except.error e => Except.error e
  | Except.ok pmap => Except.ok (prog, sort_result dep strata pmap)

/-- `StratifiedProgram::pred_to_index`: index of the first stratum
containing `sym`. -/
def pred_to_index (strata : List (List PredicateIndex))
    (sym : PredicateIndex) : Option Nat :=
  strata.findIdx? (fun x => sym ∈ x)

/-! ## The IR container (`ir/src/lib.rs`)

`InstId`, `NameId`, `StringId` are dense indices (the `NonZeroU32`
wrapping of the Rust representation is a storage detail; we use the
0-based index directly, as `InstId::index` does). -/

abbrev InstId := Nat
abbrev NameId := Nat
abbrev StringId := Nat

/-- Instructions of the Mangle IR (`enum Inst`).  The `f64` payload of
`Float` is carried as an opaque bit pattern; no claim computes with it. -/
inductive Inst where
  | bool (b : Bool)
  | number (n : Int)
  | float (bits : Nat)
  | string (s : StringId)
  | bytes (bs : List Nat)
  | name (n : NameId)
  | list (args : List InstId)
  | map (keys : List InstId) (values : List InstId)
  | struct (fields : List NameId) (values : List InstId)
  | var (n : NameId)
  | applyFn (function : NameId) (args : List InstId)
  | atom (predicate : NameId) (args : List InstId)
  | negAtom (a : InstId)
  | eq (l : InstId) (r : InstId)
  | ineq (l : InstId) (r : InstId)
  | transform (var : Option NameId) (app : InstId)
  | rule (head : InstId) (premises : List InstId) (transform : List InstId)
  | decl (atom : InstId) (descr : List InstId) (bounds : List InstId)
      (constraints : Option InstId)
  | boundDecl (base_terms : List InstId)
  | constraints (consequences : List InstId) (alternatives : List (List InstId))
deriving DecidableEq, Repr

/-- The IR container: instruction vector plus the two interning tables.
An interner is its `vec` of strings; `intern` returns the index of the
first occurrence or appends. -/
structure Ir where
  insts : List Inst
  name_store : List String
  string_store : List String
deriving DecidableEq, Repr

namespace Ir

def new : Ir := ⟨[], [], []⟩

def add_inst (ir : Ir) (inst : Inst) : Ir × InstId :=
  ({ ir with insts := ir.insts ++ [inst] }, ir.insts.length)

/-- Rust `Ir::get` indexes the vector (panics when out of range; such an
id never occurs in the pipeline, the fallback value is arbitrary). -/
def get (ir : Ir) (id : InstId) : Inst :=
  ir.insts.getD id (Inst.bool false)

def internIn (vec : List String) (s : String) : List String × Nat :=
  match vec.findIdx? (· = s) with
  | some i => (vec, i)
  | none => (vec ++ [s], vec.length)

def intern_name (ir : Ir) (s : String) : Ir × NameId :=
  let p := internIn ir.name_store s
  ({ ir with name_store := p.1 }, p.2)

def resolve_name (ir : Ir) (id : NameId) : String :=
  ir.name_store.getD id ""

def intern_string (ir : Ir) (s : String) : Ir × StringId :=
  let p := internIn ir.string_store s
  ({ ir with string_store := p.1 }, p.2)

def resolve_string (ir : Ir) (id : StringId) : String :=
  ir.string_store.getD id ""

end Ir

/-! ## Physical plan IR (`ir/src/physical.rs`) -/

inductive Constant where
  | number (n : Int)
  | string (sid : StringId)
deriving DecidableEq, Repr

inductive Operand where
  | varOp (v : NameId)
  | constOp (c : Constant)
deriving DecidableEq, Repr

inductive Expr where
  | value (op : Operand)
  | call (function : NameId) (args : List Operand)
deriving DecidableEq, Repr

inductive CmpOp where
  | eq | neq | lt | le | gt | ge
deriving DecidableEq, Repr

inductive Condition where
  | cmp (op : CmpOp) (left : Operand) (right : Operand)
  | negation (relation : NameId) (args : List Operand)
  | call (function : NameId) (args : List Operand)
deriving DecidableEq, Repr

inductive DataSource where
  | scan (relation : NameId) (vars : List NameId)
  | scanDelta (relation : NameId) (vars : List NameId)
  | indexLookup (relation : NameId) (col_idx : Nat) (key : Operand) (vars : List NameId)
deriving DecidableEq, Repr

structure Aggregate where
  var : NameId
  func : NameId
  args : List Operand
deriving DecidableEq, Repr

inductive Op where
  | nop
  | seq (ops : List Op)
  | iterate (source : DataSource) (body : Op)
  | filter (cond : Condition) (body : Op)
  | insertOp (relation : NameId) (args : List Operand)
  | letOp (var : NameId) (expr : Expr) (body : Op)
  | groupBy (source : NameId) (vars : List NameId) (keys : List NameId)
      (aggregates : List Aggregate) (body : Op)
deriving Repr

/-! ## The interpreter (`Interpreter::exec_op` and helpers)

The variable environment `Env` mirrors `HashMap<NameId, Value>`; it is
mutated in place by the Rust code, so it is threaded through and
returned.  `exec_op` recurses through `Op::Seq` children and per-tuple
body executions, so it takes explicit fuel (structural recursion on the
fuel); on any input on which the Rust code terminates, a large enough
fuel yields the same result, and all claim statements are
fuel-generic. -/

abbrev Env := List (Nat × Value)

/-- `eval_operand`: variables from the environment ("Variable not
found" when absent), constants resolved against the IR. -/
def eval_operand (ir : Ir) (op : Operand) (env : Env) : Except String Value :=
  match op with
  | .varOp v =>
    match alGet env v with
    | some val => Except.ok val
    | none => Except.error "Variable not found"
  | .constOp c =>
    match c with
    | .number n => Except.ok (Value.number n)
    | .string sid => Except.ok (Value.string (ir.resolve_string sid))

def eval_operands (ir : Ir) (args : List Operand) (env : Env) :
    Except String (List Value) :=
  match args with
  | [] => Except.ok []
  | a :: rest =>
    match eval_operand ir a env with
    | .error e => Except.error e
    | .ok v =>
      match eval_operands ir rest env with
      | .error e => Except.error e
      | .ok vs => Except.ok (v :: vs)

/-- Discriminant rank of `Value`, giving the variant order of the derived
`PartialOrd` (`Number < String < Null`). -/
def Value.rank : Value → Nat
  | .number _ => 0
  | .string _ => 1
  | .null => 2

/-- The derived `PartialOrd`/comparison on `Value` (total here since no
floats are involved). -/
def valueLt (a b : Value) : Bool :=
  match a, b with
  | .number x, .number y => x < y
  | .string x, .string y => x < y
  | _, _ => a.rank < b.rank

def valueLe (a b : Value) : Bool :=
  valueLt a b || a = b

/-- `eval_expr`: operands, or the built-in functions `fn:plus` and
`fn:minus` on numbers (i64 arithmetic, hence `wrap64`).  Rust indexes
`vals[0]`/`vals[1]` unconditionally; a call with fewer than two
arguments panics, modelled as an error. -/
def eval_expr (ir : Ir) (expr : Expr) (env : Env) : Except String Value :=
  match expr with
  | .value op => eval_operand ir op env
  | .call function args =>
    let fn_name := ir.resolve_name function
    match eval_operands ir args env with
    | .error e => Except.error e
    | .ok vals =>
      if fn_name = "fn:plus" then
        match vals[0]?, vals[1]? with
        | some (Value.number a), some (Value.number b) =>
          Except.ok (Value.number (wrap64 (a + b)))
        | some _, some _ => Except.error "Type mismatch for fn:plus"
        | _, _ => Except.error "panic: index out of bounds"
      else if fn_name = "fn:minus" then
        match vals[0]?, vals[1]? with
        | some (Value.number a), some (Value.number b) =>
          Except.ok (Value.number (wrap64 (a - b)))
        | some _, some _ => Except.error "Type mismatch for fn:minus"
        | _, _ => Except.error "panic: index out of bounds"
      else
        Except.error ("Unknown function: " ++ fn_name)

/-- Negation scan: for each tuple (of matching length), all operand
evaluations are compared; a full match refutes the negation. -/
def negMatches (ir : Ir) (args : List Operand) (tuple : Tuple) (env : Env) :
    Except String Bool :=
  match args, tuple with
  | [], _ => Except.ok true
  | _ :: _, [] => Except.ok true
  | a :: restA, x :: restT =>
    match eval_operand ir a env with
    | .error e => Except.error e
    | .ok v =>
      if x ≠ v then Except.ok false
      else negMatches ir restA restT env

def negLoop (ir : Ir) (args : List Operand) (tuples : List Tuple) (env : Env) :
    Except String Bool :=
  match tuples with
  | [] => Except.ok true
  | t :: rest =>
    if t.length ≠ args.length then negLoop ir args rest env
    else
      match negMatches ir args t env with
      | .error e => Except.error e
      | .ok mat =>
        if mat then Except.ok false
        else negLoop ir args rest env

/-- `eval_cond`. `Condition::Call` is a TODO in the source and yields
`true`. -/
def eval_cond (ir : Ir) (st : MemStore) (cond : Condition) (env : Env) :
    Except String Bool :=
  match cond with
  | .cmp op left right =>
    match eval_operand ir left env with
    | .error e => Except.error e
    | .ok l =>
      match eval_operand ir right env with
      | .error e => Except.error e
      | .ok r =>
        match op with
        | .eq => Except.ok (l = r)
        | .neq => Except.ok (l ≠ r)
        | .lt => Except.ok (valueLt l r)
        | .le => Except.ok (valueLe l r)
        | .gt => Except.ok (valueLt r l)
        | .ge => Except.ok (valueLe r l)
  | .negation relation args =>
    let rel_name := ir.resolve_name relation
    match st.scan rel_name with
    | .error e => Except.error e
    | .ok tuples => negLoop ir args tuples env
  | .call _ _ => Except.ok true

/-- Bind `vars[i] := tuple[i]` in order (the Rust loop over
`vars.iter().enumerate()`). -/
def bindVars (vars : List NameId) (tuple : Tuple) (env : Env) : Env :=
  (vars.zip tuple).foldl (fun e p => alInsert e p.1 p.2) env

/-- `eval_aggregate`: the per-tuple rebinding of `vars` mutates the
environment, which is therefore returned. -/
def aggLoopSum (ir : Ir) (arg : Operand) (vars : List NameId)
    (group : List Tuple) (sum : Int) (env : Env) : Except String (Int × Env) :=
  match group with
  | [] => Except.ok (sum, env)
  | t :: rest =>
    let env' := bindVars vars t env
    match eval_operand ir arg env' with
    | .error e => Except.error e
    | .ok v =>
      match v with
      | .number n => aggLoopSum ir arg vars rest (wrap64 (sum + n)) env'
      | _ => aggLoopSum ir arg vars rest sum env'

def aggLoopExtreme (ir : Ir) (arg : Operand) (vars : List NameId) (isMax : Bool)
    (group : List Tuple) (acc : Option Value) (env : Env) :
    Except String (Option Value × Env) :=
  match group with
  | [] => Except.ok (acc, env)
  | t :: rest =>
    let env' := bindVars vars t env
    match eval_operand ir arg env' with
    | .error e => Except.error e
    | .ok v =>
      match acc with
      | none => aggLoopExtreme ir arg vars isMax rest (some v) env'
      | some m =>
        if (if isMax then valueLt m v else valueLt v m) then
          aggLoopExtreme ir arg vars isMax rest (some v) env'
        else
          aggLoopExtreme ir arg vars isMax rest (some m) env'

def eval_aggregate (ir : Ir) (agg : Aggregate) (group : List Tuple)
    (vars : List NameId) (env : Env) : Except String (Value × Env) :=
  let fn_name := ir.resolve_name agg.func
  if fn_name = "fn:count" then
    Except.ok (Value.number (wrap64 group.length), env)
  else if fn_name = "fn:sum" then
    match agg.args.head? with
    | none => Except.error "fn:sum requires 1 argument"
    | some arg =>
      match aggLoopSum ir arg vars group 0 env with
      | .error e => Except.error e
      | .ok (sum, env') => Except.ok (Value.number sum, env')
  else if fn_name = "fn:max" then
    match agg.args.head? with
    | none => Except.error "fn:max requires 1 argument"
    | some arg =>
      match aggLoopExtreme ir arg vars true group none env with
      | .error e => Except.error e
      | .ok (some m, env') => Except.ok (m, env')
      | .ok (none, _) => Except.error "fn:max on empty group"
  else if fn_name = "fn:min" then
    match agg.args.head? with
    | none => Except.error "fn:min requires 1 argument"
    | some arg =>
      match aggLoopExtreme ir arg vars false group none env with
      | .error e => Except.error e
      | .ok (some m, env') => Except.ok (m, env')
      | .ok (none, _) => Except.error "fn:min on empty group"
  else
    Except.error ("Unknown aggregation function: " ++ fn_name)

/-- Per-tuple loop of `Op::Iterate` (shared by the three data sources):
tuples whose length differs from the variable count are skipped, others
bind the variables and run the body, summing inserted-fact counts. -/
def iterLoop (vars : List NameId)
    (execB : Env → MemStore → Except String (Nat × Env × MemStore)) :
    List Tuple → Nat → Env → MemStore → Except String (Nat × Env × MemStore)
  | [], count, env, st => Except.ok (count, env, st)
  | tuple :: rest, count, env, st =>
    if tuple.length ≠ vars.length then iterLoop vars execB rest count env st
    else
      let env' := bindVars vars tuple env
      match execB env' st with
      | .error e => Except.error e
      | .ok (c, env2, st2) => iterLoop vars execB rest (count + c) env2 st2

/-- Sequential execution of `Op::Seq` children. -/
def seqLoop (execF : Op → Env → MemStore → Except String (Nat × Env × MemStore)) :
    List Op → Nat → Env → MemStore → Except String (Nat × Env × MemStore)
  | [], count, env, st => Except.ok (count, env, st)
  | o :: rest, count, env, st =>
    match execF o env st with
    | .error e => Except.error e
    | .ok (c, env', st') => seqLoop execF rest (count + c) env' st'

/-- Grouping phase of `Op::GroupBy`: tuples of the wrong length are
skipped; others bind `vars` (mutating the environment), project the
keys (absent keys become `Null`), and are appended to their group. -/
def buildGroups (vars keys : List NameId) :
    List Tuple → List (List Value × List Tuple) → Env →
      List (List Value × List Tuple) × Env
  | [], groups, env => (groups, env)
  | tuple :: rest, groups, env =>
    if tuple.length ≠ vars.length then buildGroups vars keys rest groups env
    else
      let env' := bindVars vars tuple env
      let key := keys.map fun k => (alGet env' k).getD Value.null
      buildGroups vars keys rest (alUpdate groups key [] (fun g => g ++ [tuple])) env'

/-- Aggregate computations of one group, binding each aggregate's
variable. -/
def aggsLoop (ir : Ir) (group : List Tuple) (vars : List NameId) :
    List Aggregate → Env → Except String Env
  | [], env => Except.ok env
  | agg :: rest, env =>
    match eval_aggregate ir agg group vars env with
    | .error e => Except.error e
    | .ok (val, env') => aggsLoop ir group vars rest (alInsert env' agg.var val)

/-- Per-group loop of `Op::GroupBy`: bind the keys, compute the
aggregates, run the body. -/
def groupLoop (ir : Ir)
    (execB : Env → MemStore → Except String (Nat × Env × MemStore))
    (keys : List NameId) (aggregates : List Aggregate) (vars : List NameId) :
    List (List Value × List Tuple) → Nat → Env → MemStore →
      Except String (Nat × Env × MemStore)
  | [], count, env, st => Except.ok (count, env, st)
  | (key, group) :: rest, count, env, st =>
    let env1 := bindVars keys key env
    match aggsLoop ir group vars aggregates env1 with
    | .error e => Except.error e
    | .ok env2 =>
      match execB env2 st with
      | .error e => Except.error e
      | .ok (c, env3, st') =>
        groupLoop ir execB keys aggregates vars rest (count + c) env3 st'

/-- `Interpreter::exec_op`, with explicit fuel decremented at each
recursive call. -/
def exec_op (ir : Ir) : Nat → Op → Env → MemStore →
    Except String (Nat × Env × MemStore)
  | 0, _, _, _ => Except.error "out of fuel"
  | fuel + 1, op, env, st =>
    match op with
    | .nop => Except.ok (0, env, st)
    | .seq ops => seqLoop (exec_op ir fuel) ops 0 env st
    | .iterate source body =>
      match source with
      | .scan relation vars =>
        let rel_name := ir.resolve_name relation
        match st.scan rel_name with
        | .error e => Except.error e
        | .ok tuples => iterLoop vars (exec_op ir fuel body) tuples 0 env st
      | .scanDelta relation vars =>
        let rel_name := ir.resolve_name relation
        match st.scan_delta rel_name with
        | .error e => Except.error e
        | .ok tuples => iterLoop vars (exec_op ir fuel body) tuples 0 env st
      | .indexLookup relation col_idx key vars =>
        let rel_name := ir.resolve_name relation
        match eval_operand ir key env with
        | .error e => Except.error e
        | .ok key_val =>
          match st.scan_index rel_name col_idx key_val with
          | .error e => Except.error e
          | .ok tuples => iterLoop vars (exec_op ir fuel body) tuples 0 env st
    | .filter cond body =>
      match eval_cond ir st cond env with
      | .error e => Except.error e
      | .ok true => exec_op ir fuel body env st
      | .ok false => Except.ok (0, env, st)
    | .insertOp relation args =>
      let rel_name := ir.resolve_name relation
      match eval_operands ir args env with
      | .error e => Except.error e
      | .ok tuple =>
        match st.insert rel_name tuple with
        | .error e => Except.error e
        | .ok (true, st') => Except.ok (1, env, st')
        | .ok (false, st') => Except.ok (0, env, st')
    | .letOp var expr body =>
      match eval_expr ir expr env with
      | .error e => Except.error e
      | .ok val => exec_op ir fuel body (alInsert env var val) st
    | .groupBy source vars keys aggregates body =>
      let rel_name := ir.resolve_name source
      match st.scan rel_name with
      | .error e => Except.error e
      | .ok tuples =>
        let all := tuples ++
          (match st.scan_next_delta rel_name with
          | .ok nd => nd
          | .error _ => [])
        let p := buildGroups vars keys all [] env
        groupLoop ir (exec_op ir fuel body) keys aggregates vars p.1 0 p.2 st

/-! ## Claim C10: mis-shaped tuples are silently skipped -/

/-- The variable list of a data source. -/
def DataSource.varsOf : DataSource → List NameId
  | .scan _ vars => vars
  | .scanDelta _ vars => vars
  | .indexLookup _ _ _ vars => vars

/-- The store read performed by `Op::Iterate` for each source kind
(including the key evaluation of an index lookup). -/
def sourceScan (ir : Ir) (st : MemStore) (env : Env) :
    DataSource → Except String (List Tuple)
  | .scan relation _ => st.scan (ir.resolve_name relation)
  | .scanDelta relation _ => st.scan_delta (ir.resolve_name relation)
  | .indexLookup relation col_idx key _ =>
    match eval_operand ir key env with
    | .error e => Except.error e
    | .ok key_val => st.scan_index (ir.resolve_name relation) col_idx key_val

theorem iterLoop_filter (vars : List NameId)
    (execB : Env → MemStore → Except String (Nat × Env × MemStore))
    (tuples : List Tuple) (count : Nat) (env : Env) (st : MemStore) :
    iterLoop vars execB tuples count env st =
      iterLoop vars execB (tuples.filter fun t => t.length == vars.length)
        count env st := by
  induction tuples generalizing count env st with
  | nil => rfl
  | cons t rest ih =>
    by_cases h : t.length = vars.length
    · simp only [iterLoop, h, ne_eq, not_true_eq_false, if_false, List.filter,
        h, beq_self_eq_true]
      cases execB (bindVars vars t env) st with
      | error e => rfl
      | ok r => exact ih _ _ _
    · have hb : (List.length t == vars.length) = false := by simpa using h
      simp only [iterLoop, h, ne_eq, not_false_eq_true, if_true, List.filter, hb]
      exact ih _ _ _

theorem buildGroups_filter (vars keys : List NameId) (tuples : List Tuple)
    (groups : List (List Value × List Tuple)) (env : Env) :
    buildGroups vars keys tuples groups env =
      buildGroups vars keys (tuples.filter fun t => t.length == vars.length)
        groups env := by
  induction tuples generalizing groups env with
  | nil => rfl
  | cons t rest ih =>
    by_cases h : t.length = vars.length
    · simp only [buildGroups, h, ne_eq, not_true_eq_false, if_false, List.filter,
        beq_self_eq_true]
      exact ih _ _
    · have hb : (List.length t == vars.length) = false := by simpa using h
      simp only [buildGroups, h, ne_eq, not_false_eq_true, if_true, List.filter, hb]
      exact ih _ _

/-- Claim C10 (confirmed): during execution of an `Iterate` operation
(over `Scan`, `ScanDelta`, or `IndexLookup` sources) and of a `GroupBy`
operation, every tuple returned by the store whose length differs from
the number of variables in the plan node is silently skipped: running
the operation is the same as running it on the length-filtered tuple
list, so a mis-shaped tuple produces no variable bindings, no
insertions, and no error. -/
theorem exec_op_skips_misshaped_tuples (fuel : Nat) (ir : Ir) (env : Env)
    (st : MemStore) :
    (∀ (src : DataSource) (body : Op),
      exec_op ir (fuel + 1) (Op.iterate src body) env st =
        match sourceScan ir st env src with
        | .error e => Except.error e
        | .ok tuples =>
          iterLoop src.varsOf (exec_op ir fuel body)
            (tuples.filter fun t => t.length == src.varsOf.length) 0 env st) ∧
    (∀ (source : NameId) (vars keys : List NameId)
        (aggregates : List Aggregate) (body : Op),
      exec_op ir (fuel + 1) (Op.groupBy source vars keys aggregates body) env st =
        match st.scan (ir.resolve_name source) with
        | .error e => Except.error e
        | .ok tuples =>
          let all := tuples ++
            (match st.scan_next_delta (ir.resolve_name source) with
            | .ok nd => nd
            | .error _ => [])
          let p := buildGroups vars keys
            (all.filter fun t => t.length == vars.length) [] env
          groupLoop ir (exec_op ir fuel body) keys aggregates vars p.1 0 p.2 st) := by
  constructor
  · intro src body
    cases src with
    | scan relation vars =>
      simp only [exec_op, sourceScan, DataSource.varsOf]
      cases (st.scan (ir.resolve_name relation)) with
      | error e => rfl
      | ok tuples => exact iterLoop_filter _ _ _ _ _ _
    | scanDelta relation vars =>
      simp only [exec_op, sourceScan, DataSource.varsOf]
      cases (st.scan_delta (ir.resolve_name relation)) with
      | error e => rfl
      | ok tuples => exact iterLoop_filter _ _ _ _ _ _
    | indexLookup relation col_idx key vars =>
      simp only [exec_op, sourceScan, DataSource.varsOf]
      cases heq : eval_operand ir key env with
      | error e => simp [heq]
      | ok key_val =>
        simp only [heq]
        cases h2 : st.scan_index (ir.resolve_name relation) col_idx key_val with
        | error e => simp [h2]
        | ok tuples =>
          simp only [h2]
          exact iterLoop_filter _ _ _ _ _ _
  · intro source vars keys aggregates body
    simp only [exec_op]
    cases (st.scan (ir.resolve_name source)) with
    | error e => rfl
    | ok tuples =>
      simp only []
      rw [buildGroups_filter]

/-! ## The planner (`analysis/src/planner.rs`)

The Rust planner is written in continuation-passing style over a
`&mut Ir` (only the interning tables ever change; `insts` is read-only
during planning).  The embedding threads the `Ir` explicitly.  The
closures of `with_eval`/`inst_to_expr` wrap the continuation's
operation in a deterministic stack of `Let` nodes, so they are
translated as functions returning an `(Op → Op)` wrapper together with
the operand/expression and the updated `Ir`.  Expression flattening
recurses through instruction ids, so it takes fuel. -/

/-- Ascending sort of `NameId`s (`Vec::sort`), insertion sort so that it
evaluates by kernel reduction. -/
def insertSorted (x : Nat) : List Nat → List Nat
  | [] => [x]
  | y :: rest => if x ≤ y then x :: y :: rest else y :: insertSorted x rest

def sortNats : List Nat → List Nat
  | [] => []
  | x :: rest => insertSorted x (sortNats rest)

/-- `Planner::fresh_var`: interns `"$<prefix>_<ir.insts.len()>"`.  The
instruction count never changes during planning, so repeated calls with
the same prefix yield the same name (and `NameId`). -/
def fresh_var (ir : Ir) (pre : String) : Ir × NameId :=
  ir.intern_name ("$" ++ pre ++ "_" ++ toString ir.insts.length)

/-- Argument-list evaluation of `with_eval_args`, parameterized by the
single-instruction evaluator. -/
def with_eval_args (evalOne : InstId → Ir → Except String ((Op → Op) × Operand × Ir)) :
    List InstId → Ir → Except String ((Op → Op) × List Operand × Ir)
  | [], ir => Except.ok (id, [], ir)
  | a :: rest, ir =>
    match evalOne a ir with
    | .error e => Except.error e
    | .ok (w, op, ir1) =>
      match with_eval_args evalOne rest ir1 with
      | .error e => Except.error e
      | .ok (w2, ops, ir2) => Except.ok (w ∘ w2, op :: ops, ir2)

/-- `Planner::with_eval`: an operand for a variable or Number/String
constant; a function application is flattened into `Let` wrappers
around a fresh `$call` variable; anything else is "Unsupported
expression in evaluation". -/
def with_eval : Nat → InstId → Ir → Except String ((Op → Op) × Operand × Ir)
  | 0, _, _ => Except.error "out of fuel"
  | fuel + 1, inst, ir =>
    match ir.get inst with
    | .var v => Except.ok (id, Operand.varOp v, ir)
    | .string s => Except.ok (id, Operand.constOp (Constant.string s), ir)
    | .number n => Except.ok (id, Operand.constOp (Constant.number n), ir)
    | .applyFn function args =>
      match with_eval_args (with_eval fuel) args ir with
      | .error e => Except.error e
      | .ok (w, ops, ir1) =>
        let p := fresh_var ir1 "call"
        Except.ok
          (fun inner => w (Op.letOp p.2 (Expr.call function ops) inner),
            Operand.varOp p.2, p.1)
    | _ => Except.error "Unsupported expression in evaluation"

/-- `Planner::inst_to_expr`. -/
def inst_to_expr (fuel : Nat) (inst : InstId) (ir : Ir) :
    Except String ((Op → Op) × Expr × Ir) :=
  match ir.get inst with
  | .applyFn function args =>
    match with_eval_args (with_eval fuel) args ir with
    | .error e => Except.error e
    | .ok (w, ops, ir1) => Except.ok (w, Expr.call function ops, ir1)
  | _ =>
    match with_eval fuel inst ir with
    | .error e => Except.error e
    | .ok (w, op, ir1) => Except.ok (w, Expr.value op, ir1)

/-- `Planner::wrap_eval_check`: filter comparing `target` with the
evaluated instruction. -/
def wrap_eval_check (fuel : Nat) (inst : InstId) (target : Operand) (body : Op)
    (ir : Ir) : Except String (Op × Ir) :=
  match with_eval fuel inst ir with
  | .error e => Except.error e
  | .ok (w, op, ir1) =>
    Except.ok (w (Op.filter (Condition.cmp CmpOp.eq target op) body), ir1)

/-- `Planner::wrap_eq_check`. -/
def wrap_eq_check (fuel : Nat) (l r : InstId) (body : Op) (ir : Ir) :
    Except String (Op × Ir) :=
  match with_eval fuel l ir with
  | .error e => Except.error e
  | .ok (wl, op_l, ir1) =>
    match with_eval fuel r ir1 with
    | .error e => Except.error e
    | .ok (wr, op_r, ir2) =>
      Except.ok
        (wl (wr (Op.filter (Condition.cmp CmpOp.eq op_l op_r) body)), ir2)

/-- The index-lookup selection of `plan_join_sequence`: the first
argument that is an already-bound variable or a Number/String constant
(later candidates are ignored by the `is_none` guards). -/
def findIndexLookup (ir : Ir) (bound : List NameId) (args : List InstId) :
    Option (Nat × Operand) :=
  args.enum.foldl
    (fun acc (p : Nat × InstId) =>
      match acc with
      | some _ => acc
      | none =>
        match ir.get p.2 with
        | .var v => if v ∈ bound then some (p.1, Operand.varOp v) else none
        | .number n => some (p.1, Operand.constOp (Constant.number n))
        | .string s => some (p.1, Operand.constOp (Constant.string s))
        | _ => none)
    none

/-- The scan-variable construction of `plan_join_sequence`: an unbound
variable argument is bound in place, every other argument gets a fresh
`$scan` variable (`new_bindings` coincides with `scan_vars`). -/
def mkScanVars (ir : Ir) (bound : List NameId) (args : List InstId) :
    Ir × List NameId :=
  args.foldl
    (fun (acc : Ir × List NameId) arg =>
      match acc.1.get arg with
      | .var v =>
        if v ∉ bound then (acc.1, acc.2 ++ [v])
        else
          let p := fresh_var acc.1 "scan"
          (p.1, acc.2 ++ [p.2])
      | _ =>
        let p := fresh_var acc.1 "scan"
        (p.1, acc.2 ++ [p.2]))
    (ir, [])

/-- `Planner::apply_constraints`, processing `args.iter().enumerate()`
in reverse order (the list argument is the reversed enumeration). -/
def applyConstraintsRev (fuel : Nat) (scan_vars : List NameId) :
    List (Nat × InstId) → Op → Ir → Except String (Op × Ir)
  | [], body, ir => Except.ok (body, ir)
  | (i, arg) :: rest, body, ir =>
    let scan_var := scan_vars.getD i 0
    match ir.get arg with
    | .var v =>
      if v = scan_var then applyConstraintsRev fuel scan_vars rest body ir
      else
        applyConstraintsRev fuel scan_vars rest
          (Op.filter
            (Condition.cmp CmpOp.eq (Operand.varOp scan_var) (Operand.varOp v))
            body)
          ir
    | _ =>
      match wrap_eval_check fuel arg (Operand.varOp scan_var) body ir with
      | .error e => Except.error e
      | .ok (body', ir1) => applyConstraintsRev fuel scan_vars rest body' ir1

def apply_constraints (fuel : Nat) (args : List InstId) (scan_vars : List NameId)
    (body : Op) (ir : Ir) : Except String (Op × Ir) :=
  applyConstraintsRev fuel scan_vars args.enum.reverse body ir

/-- `Planner::plan_join_sequence`.  `dp` is the optional delta
predicate; the continuation receives the `Ir` and the bound-variable
set and produces an operation together with extra data `κ`
(the Rust code communicates this via closure captures). -/
def plan_join_sequence {κ : Type} (fuel : Nat) (dp : Option NameId) :
    List InstId → List NameId → (Ir → List NameId → Except String (Op × Ir × κ)) →
      Ir → Except String (Op × Ir × κ)
  | [], bound, k, ir => k ir bound
  | current :: rest, bound, k, ir =>
    match ir.get current with
    | .atom predicate args =>
      let index_lookup := findIndexLookup ir bound args
      let p := mkScanVars ir bound args
      let scan_vars := p.2
      let bound' := scan_vars.foldl nsInsert bound
      match plan_join_sequence fuel dp rest bound' k p.1 with
      | .error e => Except.error e
      | .ok (body, ir2, x) =>
        match apply_constraints fuel args scan_vars body ir2 with
        | .error e => Except.error e
        | .ok (wrapped_body, ir3) =>
          let source :=
            match index_lookup with
            | some (col_idx, key) =>
              DataSource.indexLookup predicate col_idx key scan_vars
            | none =>
              if some predicate = dp then DataSource.scanDelta predicate scan_vars
              else DataSource.scan predicate scan_vars
          Except.ok (Op.iterate source wrapped_body, ir3, x)
    | .eq l r =>
      match plan_join_sequence fuel dp rest bound k ir with
      | .error e => Except.error e
      | .ok (body, ir2, x) =>
        match wrap_eq_check fuel l r body ir2 with
        | .error e => Except.error e
        | .ok (op, ir3) => Except.ok (op, ir3, x)
    | _ => Except.error "Unsupported premise type"

/-- `Planner::plan_transforms_sequence`: a chain of `Let` nodes for the
`let`-transforms, ending in the continuation. -/
def plan_transforms_sequence {κ : Type} (fuel : Nat) :
    List InstId → List NameId → (Ir → List NameId → Except String (Op × Ir × κ)) →
      Ir → Except String (Op × Ir × κ)
  | [], bound, k, ir => k ir bound
  | t :: rest, bound, k, ir =>
    match ir.get t with
    | .transform (some var) app =>
      match inst_to_expr fuel app ir with
      | .error e => Except.error e
      | .ok (w, expr, ir1) =>
        let bound' := nsInsert bound var
        match plan_transforms_sequence fuel rest bound' k ir1 with
        | .error e => Except.error e
        | .ok (body, ir2, x) => Except.ok (w (Op.letOp var expr body), ir2, x)
    | _ => Except.error "Unexpected transform in sequence"

/-- `Planner::get_transform_app_args`. -/
def get_transform_app_args (ir : Ir) (t_id : InstId) : Except String (List InstId) :=
  match ir.get t_id with
  | .transform _ app =>
    match ir.get app with
    | .applyFn _ args => Except.ok args
    | _ => Except.error "Invalid transform structure"
  | _ => Except.error "Invalid transform structure"

/-- `Planner::try_parse_aggregate`. -/
def try_parse_aggregate (ir : Ir) (t_id : InstId) : Except String (Option Aggregate) :=
  match ir.get t_id with
  | .transform (some var) app =>
    match ir.get app with
    | .applyFn function args =>
      let func_name := ir.resolve_name function
      if func_name = "fn:sum" ∨ func_name = "fn:count" ∨ func_name = "fn:max" ∨
          func_name = "fn:min" ∨ func_name = "fn:collect" then
        match
          args.foldr
            (fun arg acc =>
              match acc with
              | .error e => Except.error e
              | .ok ops =>
                match ir.get arg with
                | .var v => Except.ok (Operand.varOp v :: ops)
                | .number n =>
                  Except.ok (Operand.constOp (Constant.number n) :: ops)
                | _ => Except.error "Complex expressions in aggregates not supported yet")
            (Except.ok []) with
        | .error e => Except.error e
        | .ok op_args =>
          Except.ok (some { var := var, func := function, args := op_args })
      else Except.ok none
    | _ => Except.ok none
  | _ => Except.ok none

/-- Split the aggregation block's tail into aggregates and plain lets
(the loop over `rest` in `plan_block_k`). -/
def partitionAggs (ir : Ir) :
    List InstId → Except String (List Aggregate × List InstId)
  | [] => Except.ok ([], [])
  | t :: rest =>
    match try_parse_aggregate ir t with
    | .error e => Except.error e
    | .ok (some agg) =>
      match partitionAggs ir rest with
      | .error e => Except.error e
      | .ok (aggs, lets) => Except.ok (agg :: aggs, lets)
    | .ok none =>
      match partitionAggs ir rest with
      | .error e => Except.error e
      | .ok (aggs, lets) => Except.ok (aggs, t :: lets)

/-- Extract group-by keys, which must be variables. -/
def groupKeys (ir : Ir) : List InstId → Except String (List NameId)
  | [] => Except.ok []
  | k :: rest =>
    match ir.get k with
    | .var v =>
      match groupKeys ir rest with
      | .error e => Except.error e
      | .ok vs => Except.ok (v :: vs)
    | _ => Except.error "GroupBy keys must be variables"

/-- `Planner::plan_block_k`: an aggregation block (starting with a `do`
statement) becomes a `GroupBy` whose body plans the remaining lets and
the continuation.  An empty block would panic on `block[0]` in Rust. -/
def plan_block_k {κ : Type} (fuel : Nat) (source_rel : NameId)
    (source_vars : List NameId) (block : List InstId)
    (k : Ir → List NameId → Except String (Op × Ir × κ)) (ir : Ir) :
    Except String (Op × Ir × κ) :=
  match block with
  | [] => Except.error "panic: empty aggregation block"
  | do_stmt :: rest =>
    match get_transform_app_args ir do_stmt with
    | .error e => Except.error e
    | .ok keys_insts =>
      match groupKeys ir keys_insts with
      | .error e => Except.error e
      | .ok keys =>
        match partitionAggs ir rest with
        | .error e => Except.error e
        | .ok (aggregates, lets) =>
          let inner_vars :=
            (aggregates.map Aggregate.var).foldl nsInsert
              (keys.foldl nsInsert [])
          match plan_transforms_sequence fuel lets inner_vars k ir with
          | .error e => Except.error e
          | .ok (body, ir1, x) =>
            Except.ok
              (Op.groupBy source_rel source_vars keys aggregates body, ir1, x)

/-- `Planner::plan_head_insert`. -/
def plan_head_insert (fuel : Nat) (head : InstId) (ir : Ir) :
    Except String (Op × Ir × Unit) :=
  match ir.get head with
  | .atom predicate args =>
    match with_eval_args (with_eval fuel) args ir with
    | .error e => Except.error e
    | .ok (w, ops, ir1) => Except.ok (w (Op.insertOp predicate ops), ir1, ())
  | _ => Except.error "Head must be an atom"

/-- `Planner::split_transforms`: a `do` statement (transform with absent
variable) starts a new block containing it. -/
def split_transforms (ir : Ir) (transforms : List InstId) : List (List InstId) :=
  let p :=
    transforms.foldl
      (fun (acc : List (List InstId) × List InstId) t =>
        match ir.get t with
        | .transform none _ => (acc.1 ++ [acc.2], [t])
        | _ => (acc.1, acc.2 ++ [t]))
      ([], [])
  p.1 ++ [p.2]

/-- The materialization continuation of a non-final block: capture the
bound variables, sorted, and insert them into the temporary relation. -/
def materializeK (temp_rel : NameId) (ir : Ir) (v : List NameId) :
    Except String (Op × Ir × List NameId) :=
  let sorted_vars := sortNats v
  Except.ok
    (Op.insertOp temp_rel (sorted_vars.map Operand.varOp), ir, sorted_vars)

/-- The loop of `plan_rule` over aggregation blocks after the first
(each starts with a `do`). -/
def planKBlocks (fuel : Nat) (head : InstId) :
    List (List InstId) → NameId × List NameId → List Op → Ir →
      Except String (List Op × Ir)
  | [], _, ops, ir => Except.ok (ops, ir)
  | [block], src, ops, ir =>
    match plan_block_k fuel src.1 src.2 block
        (fun ir2 _ => plan_head_insert fuel head ir2) ir with
    | .error e => Except.error e
    | .ok (op, ir1, _) => Except.ok (ops ++ [op], ir1)
  | block :: rest, src, ops, ir =>
    let p := fresh_var ir "temp_grp"
    match plan_block_k fuel src.1 src.2 block (materializeK p.2) p.1 with
    | .error e => Except.error e
    | .ok (op, ir1, next_vars) =>
      planKBlocks fuel head rest (p.2, next_vars) (ops ++ [op]) ir1

/-! ### Planning never mutates the instruction vector

`fresh_var` only interns names, so `Ir.insts` is invariant across all
planner operations; instruction lookups therefore agree across the
threaded `Ir` states. -/

theorem fresh_var_insts (ir : Ir) (pre : String) :
    (fresh_var ir pre).1.insts = ir.insts := rfl

theorem get_congr_of_insts {ir1 ir2 : Ir} (h : ir1.insts = ir2.insts) (i : InstId) :
    ir1.get i = ir2.get i := by
  unfold Ir.get
  rw [h]

theorem with_eval_args_insts
    {evalOne : InstId → Ir → Except String ((Op → Op) × Operand × Ir)}
    (hEval : ∀ a ir r, evalOne a ir = Except.ok r → r.2.2.insts = ir.insts) :
    ∀ (l : List InstId) (ir : Ir) r,
      with_eval_args evalOne l ir = Except.ok r → r.2.2.insts = ir.insts := by
  intro l
  induction l with
  | nil =>
    intro ir r h
    simp only [with_eval_args] at h
    cases h
    rfl
  | cons a rest ih =>
    intro ir r h
    simp only [with_eval_args] at h
    split at h
    · cases h
    · rename_i w op ir1 heq1
      split at h
      · cases h
      · rename_i w2 ops ir2 heq2
        cases h
        exact (ih ir1 _ heq2).trans (hEval a ir _ heq1)

theorem with_eval_insts (fuel : Nat) :
    ∀ (inst : InstId) (ir : Ir) r,
      with_eval fuel inst ir = Except.ok r → r.2.2.insts = ir.insts := by
  induction fuel with
  | zero => intro inst ir r h; cases h
  | succ fuel ih =>
    intro inst ir r h
    simp only [with_eval] at h
    split at h
    · cases h; rfl
    · cases h; rfl
    · cases h; rfl
    · rename_i f args heq
      split at h
      · cases h
      · rename_i w ops ir1 heq1
        cases h
        exact with_eval_args_insts ih args ir _ heq1
    · cases h

theorem wrap_eval_check_insts (fuel : Nat) (inst : InstId) (target : Operand)
    (body : Op) (ir : Ir) (r : Op × Ir)
    (h : wrap_eval_check fuel inst target body ir = Except.ok r) :
    r.2.insts = ir.insts := by
  unfold wrap_eval_check at h
  split at h
  · cases h
  · rename_i w op ir1 heq
    cases h
    exact with_eval_insts fuel inst ir _ heq

theorem applyConstraintsRev_insts (fuel : Nat) (scan_vars : List NameId) :
    ∀ (l : List (Nat × InstId)) (body : Op) (ir : Ir) (r : Op × Ir),
      applyConstraintsRev fuel scan_vars l body ir = Except.ok r →
        r.2.insts = ir.insts := by
  intro l
  induction l with
  | nil =>
    intro body ir r h
    simp only [applyConstraintsRev] at h
    cases h
    rfl
  | cons p rest ih =>
    intro body ir r h
    obtain ⟨i, arg⟩ := p
    simp only [applyConstraintsRev] at h
    split at h
    · split at h
      · exact ih _ _ _ h
      · exact ih _ _ _ h
    · split at h
      · cases h
      · rename_i body' ir1 heq
        exact (ih _ _ _ h).trans (wrap_eval_check_insts fuel arg _ body ir _ heq)

/-- Success of `with_eval` pins the instruction kind: a variable, a
`String` or `Number` constant, or a function application.  Every other
instruction kind (including `Bool`, `Float`, `Bytes`, `Name`, and
composite constants) is "Unsupported expression in evaluation". -/
def argKindOk (ir : Ir) (a : InstId) : Prop :=
  match ir.get a with
  | .var _ => True
  | .string _ => True
  | .number _ => True
  | .applyFn _ _ => True
  | _ => False

theorem argKindOk_congr {ir1 ir2 : Ir} (h : ir1.insts = ir2.insts) (a : InstId) :
    argKindOk ir1 a ↔ argKindOk ir2 a := by
  unfold argKindOk
  rw [get_congr_of_insts h]

theorem with_eval_ok_kind (fuel : Nat) (inst : InstId) (ir : Ir) r
    (h : with_eval fuel inst ir = Except.ok r) : argKindOk ir inst := by
  cases fuel with
  | zero => cases h
  | succ fuel =>
    simp only [with_eval] at h
    unfold argKindOk
    split at h
    · trivial
    · trivial
    · trivial
    · trivial
    · cases h

theorem applyConstraintsRev_kinds (fuel : Nat) (scan_vars : List NameId) :
    ∀ (l : List (Nat × InstId)) (body : Op) (ir : Ir) (r : Op × Ir),
      applyConstraintsRev fuel scan_vars l body ir = Except.ok r →
        ∀ p ∈ l, argKindOk ir p.2 := by
  intro l
  induction l with
  | nil => intro body ir r _ p hp; cases hp
  | cons q rest ih =>
    intro body ir r h p hp
    obtain ⟨i, arg⟩ := q
    simp only [applyConstraintsRev] at h
    rcases List.mem_cons.mp hp with hp | hp
    · subst hp
      split at h
      · rename_i v heq
        unfold argKindOk
        rw [heq]
        trivial
      · split at h
        · cases h
        · rename_i body' ir1 heq2
          unfold wrap_eval_check at heq2
          split at heq2
          · cases heq2
          · rename_i w op ir1' heq3
            exact with_eval_ok_kind fuel arg ir _ heq3
    · split at h
      · split at h
        · exact ih _ _ _ h p hp
        · exact ih _ _ _ h p hp
      · split at h
        · cases h
        · rename_i body' ir1 heq2
          have e1 := wrap_eval_check_insts fuel arg _ body ir _ heq2
          exact (argKindOk_congr e1 p.2).mp (ih _ _ _ h p hp)

theorem mkScanVars_insts (ir : Ir) (bound : List NameId) (args : List InstId) :
    (mkScanVars ir bound args).1.insts = ir.insts := by
  unfold mkScanVars
  suffices h : ∀ (l : List InstId) (acc : Ir × List NameId),
      (l.foldl
          (fun (acc : Ir × List NameId) arg =>
            match acc.1.get arg with
            | .var v =>
              if v ∉ bound then (acc.1, acc.2 ++ [v])
              else
                let p := fresh_var acc.1 "scan"
                (p.1, acc.2 ++ [p.2])
            | _ =>
              let p := fresh_var acc.1 "scan"
              (p.1, acc.2 ++ [p.2])) acc).1.insts = acc.1.insts by
    exact h args (ir, [])
  intro l
  induction l with
  | nil => intro acc; rfl
  | cons a rest ih =>
    intro acc
    rw [List.foldl_cons, ih]
    cases acc.1.get a <;> simp only [] <;> try rfl
    split <;> rfl

theorem wrap_eq_check_insts (fuel : Nat) (l r : InstId) (body : Op) (ir : Ir)
    (res : Op × Ir) (h : wrap_eq_check fuel l r body ir = Except.ok res) :
    res.2.insts = ir.insts := by
  unfold wrap_eq_check at h
  split at h
  · cases h
  · rename_i wl op_l ir1 heq1
    split at h
    · cases h
    · rename_i wr op_r ir2 heq2
      cases h
      exact (with_eval_insts fuel r ir1 _ heq2).trans (with_eval_insts fuel l ir _ heq1)

theorem plan_join_sequence_insts {κ : Type} (fuel : Nat) (dp : Option NameId) :
    ∀ (premises : List InstId) (bound : List NameId)
      (k : Ir → List NameId → Except String (Op × Ir × κ)) (ir : Ir) r,
      (∀ ir2 v r2, k ir2 v = Except.ok r2 → r2.2.1.insts = ir2.insts) →
      plan_join_sequence fuel dp premises bound k ir = Except.ok r →
        r.2.1.insts = ir.insts := by
  intro premises
  induction premises with
  | nil =>
    intro bound k ir r hk h
    exact hk ir bound r h
  | cons current rest ih =>
    intro bound k ir r hk h
    simp only [plan_join_sequence] at h
    split at h
    · rename_i predicate args heq0
      split at h
      · cases h
      · rename_i body ir2 x heq1
        split at h
        · cases h
        · rename_i wrapped ir3 heq2
          cases h
          have e3 : ir3.insts = ir2.insts := by
            unfold apply_constraints at heq2
            exact applyConstraintsRev_insts fuel _ _ _ _ _ heq2
          have e2 := ih _ _ _ _ hk heq1
          have e1 := mkScanVars_insts ir bound args
          exact e3.trans (e2.trans e1)
    · split at h
      · cases h
      · rename_i body ir2 x heq1
        split at h
        · cases h
        · rename_i op ir3 heq2
          cases h
          exact (wrap_eq_check_insts fuel _ _ body ir2 _ heq2).trans
            (ih _ _ _ _ hk heq1)
    · cases h

/-! ### Claim C7: index-key selection for positive atom premises -/

/-- The claim-level notion of an index candidate: an argument whose
instruction is an already-bound variable or a constant.  In every
successfully planned atom premise the constant kinds are exactly
`Number` and `String` (see `argKindOk`), matching the selection code. -/
def indexCandidate (ir : Ir) (bound : List NameId) (a : InstId) : Option Operand :=
  match ir.get a with
  | .var v => if v ∈ bound then some (Operand.varOp v) else none
  | .number n => some (Operand.constOp (Constant.number n))
  | .string s => some (Operand.constOp (Constant.string s))
  | _ => none

/-- Leftmost index candidate, starting at position `i`. -/
def firstCandidateFrom (ir : Ir) (bound : List NameId) :
    Nat → List InstId → Option (Nat × Operand)
  | _, [] => none
  | i, a :: rest =>
    match indexCandidate ir bound a with
    | some op => some (i, op)
    | none => firstCandidateFrom ir bound (i + 1) rest

theorem findIndexLookup_foldl_some (ir : Ir) (bound : List NameId)
    (l : List (Nat × InstId)) (x : Nat × Operand) :
    (l.foldl
      (fun acc (p : Nat × InstId) =>
        match acc with
        | some _ => acc
        | none =>
          match ir.get p.2 with
          | .var v => if v ∈ bound then some (p.1, Operand.varOp v) else none
          | .number n => some (p.1, Operand.constOp (Constant.number n))
          | .string s => some (p.1, Operand.constOp (Constant.string s))
          | _ => none)
      (some x)) = some x := by
  induction l with
  | nil => rfl
  | cons p rest ih => exact ih

theorem findIndexLookup_eq_firstCandidate (ir : Ir) (bound : List NameId)
    (args : List InstId) :
    findIndexLookup ir bound args = firstCandidateFrom ir bound 0 args := by
  unfold findIndexLookup
  rw [show args.enum = args.enumFrom 0 from rfl]
  suffices h : ∀ (l : List InstId) (i : Nat),
      ((l.enumFrom i).foldl
        (fun acc (p : Nat × InstId) =>
          match acc with
          | some _ => acc
          | none =>
            match ir.get p.2 with
            | .var v => if v ∈ bound then some (p.1, Operand.varOp v) else none
            | .number n => some (p.1, Operand.constOp (Constant.number n))
            | .string s => some (p.1, Operand.constOp (Constant.string s))
            | _ => none)
        none) = firstCandidateFrom ir bound i l by
    exact h args 0
  intro l
  induction l with
  | nil => intro i; rfl
  | cons a rest ih =>
    intro i
    rw [List.enumFrom_cons, List.foldl_cons]
    unfold firstCandidateFrom indexCandidate
    cases hget : ir.get a <;> simp only []
    case var v =>
      by_cases hv : v ∈ bound
      · simp only [hv, if_true]
        exact findIndexLookup_foldl_some ir bound _ _
      · simp only [hv, if_false]
        exact ih (i + 1)
    case number n => exact findIndexLookup_foldl_some ir bound _ _
    case string s => exact findIndexLookup_foldl_some ir bound _ _
    all_goals exact ih (i + 1)

theorem firstCandidateFrom_none (ir : Ir) (bound : List NameId) :
    ∀ (args : List InstId) (i : Nat),
      firstCandidateFrom ir bound i args = none →
        ∀ a ∈ args, indexCandidate ir bound a = none := by
  intro args
  induction args with
  | nil => intro i _ a ha; cases ha
  | cons b rest ih =>
    intro i h a ha
    unfold firstCandidateFrom at h
    cases hc : indexCandidate ir bound b with
    | some op => rw [hc] at h; cases h
    | none =>
      rw [hc] at h
      rcases List.mem_cons.mp ha with rfl | ha
      · exact hc
      · exact ih (i + 1) h a ha

theorem firstCandidateFrom_some (ir : Ir) (bound : List NameId) :
    ∀ (args : List InstId) (i col : Nat) (key : Operand),
      firstCandidateFrom ir bound i args = some (col, key) →
        ∃ pre a post, args = pre ++ a :: post ∧ col = i + pre.length ∧
          indexCandidate ir bound a = some key ∧
          ∀ b ∈ pre, indexCandidate ir bound b = none := by
  intro args
  induction args with
  | nil => intro i col key h; cases h
  | cons b rest ih =>
    intro i col key h
    unfold firstCandidateFrom at h
    cases hc : indexCandidate ir bound b with
    | some op =>
      rw [hc] at h
      cases h
      exact ⟨[], b, rest, rfl, by simp, hc, by intro x hx; cases hx⟩
    | none =>
      rw [hc] at h
      obtain ⟨pre, a, post, hsplit, hcol, hcand, hpre⟩ := ih (i + 1) col key h
      refine ⟨b :: pre, a, post, by simp [hsplit], by simp [hcol]; omega, hcand, ?_⟩
      intro x hx
      rcases List.mem_cons.mp hx with rfl | hx
      · exact hc
      · exact hpre x hx

/-- The data source chosen by `plan_join_sequence` for a positive atom
premise. -/
def chosenSource (ir : Ir) (bound : List NameId) (dp : Option NameId)
    (predicate : NameId) (args : List InstId) : DataSource :=
  match findIndexLookup ir bound args with
  | some (col_idx, key) =>
    DataSource.indexLookup predicate col_idx key (mkScanVars ir bound args).2
  | none =>
    if some predicate = dp then DataSource.scanDelta predicate (mkScanVars ir bound args).2
    else DataSource.scan predicate (mkScanVars ir bound args).2

theorem mem_enumFrom_of_mem {α : Type} (a : α) :
    ∀ (l : List α) (j : Nat), a ∈ l → ∃ i, (i, a) ∈ l.enumFrom j := by
  intro l
  induction l with
  | nil => intro j h; cases h
  | cons b rest ih =>
    intro j h
    rcases List.mem_cons.mp h with rfl | h
    · exact ⟨j, by rw [List.enumFrom_cons]; exact List.mem_cons_self _ _⟩
    · obtain ⟨i, hi⟩ := ih (j + 1) h
      exact ⟨i, by rw [List.enumFrom_cons]; exact List.mem_cons_of_mem _ hi⟩

/-- Claim C7 (confirmed): for a positive atom premise of a successfully
planned rule block, the planner chooses as index key the first
(leftmost) argument whose instruction is an already-bound variable or a
constant; when such an argument exists it emits `Iterate` with an
`IndexLookup` source on that column, otherwise `ScanDelta` when the
atom's predicate equals the planner's configured delta predicate, and
otherwise a full `Scan`.  The final conjunct shows that in a successful
plan every argument is a variable, a `Number`/`String` constant, or a
function application, so `indexCandidate` captures exactly "already
bound variable or constant". -/
theorem planner_index_key_selection {κ : Type} (fuel : Nat) (dp : Option NameId)
    (current : InstId) (rest : List InstId) (bound : List NameId)
    (k : Ir → List NameId → Except String (Op × Ir × κ)) (ir : Ir)
    (predicate : NameId) (args : List InstId) (r : Op × Ir × κ)
    (hatom : ir.get current = Inst.atom predicate args)
    (hk : ∀ ir2 v r2, k ir2 v = Except.ok r2 → r2.2.1.insts = ir2.insts)
    (hok : plan_join_sequence fuel dp (current :: rest) bound k ir = Except.ok r) :
    (∃ body, r.1 = Op.iterate (chosenSource ir bound dp predicate args) body) ∧
    (∀ col key, findIndexLookup ir bound args = some (col, key) →
      ∃ pre a post, args = pre ++ a :: post ∧ col = pre.length ∧
        indexCandidate ir bound a = some key ∧
        ∀ b ∈ pre, indexCandidate ir bound b = none) ∧
    (findIndexLookup ir bound args = none →
      ∀ a ∈ args, indexCandidate ir bound a = none) ∧
    (∀ a ∈ args, argKindOk ir a) := by
  simp only [plan_join_sequence, hatom] at hok
  split at hok
  · cases hok
  · rename_i body ir2 x heq1
    split at hok
    · cases hok
    · rename_i wrapped ir3 heq2
      cases hok
      refine ⟨⟨wrapped, rfl⟩, ?_, ?_, ?_⟩
      · intro col key hfind
        rw [findIndexLookup_eq_firstCandidate] at hfind
        obtain ⟨pre, a, post, hsplit, hcol, hcand, hpre⟩ :=
          firstCandidateFrom_some ir bound args 0 col key hfind
        exact ⟨pre, a, post, hsplit, by omega, hcand, hpre⟩
      · intro hfind
        rw [findIndexLookup_eq_firstCandidate] at hfind
        exact firstCandidateFrom_none ir bound args 0 hfind
      · intro a ha
        have e2 : ir2.insts = ir.insts := by
          have := plan_join_sequence_insts fuel dp rest _ k _ _ hk heq1
          exact this.trans (mkScanVars_insts ir bound args)
        unfold apply_constraints at heq2
        have hkinds := applyConstraintsRev_kinds fuel _ _ _ _ _ heq2
        obtain ⟨i, hi⟩ := mem_enumFrom_of_mem a args 0 ha
        have : argKindOk ir2 a :=
          hkinds (i, a) (List.mem_reverse.mpr hi)
        exact (argKindOk_congr e2 a).mp this

/-- Concrete IR for the C7 witness: instructions `Var X`, `Number 7`,
`Atom p(7, X)`. -/
def c7Ir : Ir := ⟨[Inst.var 0, Inst.number 7, Inst.atom 1 [1, 0]], ["X", "p"], []⟩

/-- Trivial continuation for the C7 witness. -/
def c7K : Ir → List NameId → Except String (Op × Ir × Unit) :=
  fun ir2 _ => Except.ok (Op.nop, ir2, ())

/-- The plan computed for the premise `p(7, X)` with no bound variables:
an index lookup on column 0 with key `7`, plus the equality filter on
the fresh `$scan` column variable. -/
def c7Res : Op × Ir × Unit :=
  (Op.iterate
      (DataSource.indexLookup 1 0 (Operand.constOp (Constant.number 7)) [2, 0])
      (Op.filter
        (Condition.cmp CmpOp.eq (Operand.varOp 2)
          (Operand.constOp (Constant.number 7)))
        Op.nop),
    ⟨[Inst.var 0, Inst.number 7, Inst.atom 1 [1, 0]], ["X", "p", "$scan_3"], []⟩,
    ())

/-- Witness for C7: the selection theorem applied to the concrete
premise `p(7, X)`. -/
theorem planner_index_key_selection_witness :
    (∃ body, c7Res.1 = Op.iterate (chosenSource c7Ir [] none 1 [1, 0]) body) ∧
    (∀ col key, findIndexLookup c7Ir [] [1, 0] = some (col, key) →
      ∃ pre a post, ([1, 0] : List InstId) = pre ++ a :: post ∧ col = pre.length ∧
        indexCandidate c7Ir [] a = some key ∧
        ∀ b ∈ pre, indexCandidate c7Ir [] b = none) ∧
    (findIndexLookup c7Ir [] [1, 0] = none →
      ∀ a ∈ ([1, 0] : List InstId), indexCandidate c7Ir [] a = none) ∧
    (∀ a ∈ ([1, 0] : List InstId), argKindOk c7Ir a) :=
  planner_index_key_selection 5 none 2 [] [] c7K c7Ir 1 [1, 0] c7Res rfl
    (by intro ir2 v r2 h; cases h; rfl) rfl

/-- `Planner::plan_rule`. -/
def plan_rule (fuel : Nat) (dp : Option NameId) (rule_id : InstId) (ir : Ir) :
    Except String (Op × Ir) :=
  match ir.get rule_id with
  | .rule head premises transform =>
    match split_transforms ir transform with
    | [] => Except.error "panic: no blocks"
    | block0 :: restBlocks =>
      match restBlocks with
      | [] =>
        match
          plan_join_sequence fuel dp premises []
            (fun ir2 vars =>
              plan_transforms_sequence fuel block0 vars
                (fun ir3 _ => plan_head_insert fuel head ir3) ir2)
            ir with
        | .error e => Except.error e
        | .ok (op, ir1, _) => Except.ok (op, ir1)
      | _ :: _ =>
        let p := fresh_var ir "temp_grp"
        match
          plan_join_sequence fuel dp premises []
            (fun ir2 vars =>
              plan_transforms_sequence fuel block0 vars (materializeK p.2) ir2)
            p.1 with
        | .error e => Except.error e
        | .ok (op0, ir1, captured) =>
          match planKBlocks fuel head restBlocks (p.2, captured) [op0] ir1 with
          | .error e => Except.error e
          | .ok (ops, ir2) =>
            match ops with
            | [single] => Except.ok (single, ir2)
            | _ => Except.ok (Op.seq ops, ir2)
  | _ => Except.error "Not a rule"

/-! ### Planning only appends to the name store

Besides leaving `Ir.insts` untouched, planning only ever interns new
names (`fresh_var`), so the name store of the output `Ir` extends the
input's: existing `NameId`s keep resolving to the same strings. -/

/-- `b` is `a` with the same instructions and possibly more interned
names. -/
def irExt (a b : Ir) : Prop :=
  b.insts = a.insts ∧ ∃ ext, b.name_store = a.name_store ++ ext

theorem irExt_refl (a : Ir) : irExt a a :=
  ⟨rfl, [], by simp⟩

theorem irExt_trans {a b c : Ir} (h1 : irExt a b) (h2 : irExt b c) :
    irExt a c := by
  obtain ⟨e1, x1, hx1⟩ := h1
  obtain ⟨e2, x2, hx2⟩ := h2
  exact ⟨e2.trans e1, x1 ++ x2, by rw [hx2, hx1, List.append_assoc]⟩

theorem intern_name_ext (ir : Ir) (s : String) : irExt ir (ir.intern_name s).1 := by
  unfold Ir.intern_name Ir.internIn
  cases h : ir.name_store.findIdx? (· = s) with
  | some i => exact ⟨rfl, [], by simp⟩
  | none => exact ⟨rfl, [s], rfl⟩

theorem fresh_var_ext (ir : Ir) (pre : String) : irExt ir (fresh_var ir pre).1 :=
  intern_name_ext ir _

theorem resolve_name_ext {a b : Ir} (h : irExt a b) {p : NameId}
    (hp : p < a.name_store.length) : b.resolve_name p = a.resolve_name p := by
  obtain ⟨_, ext, hns⟩ := h
  unfold Ir.resolve_name
  rw [hns, List.getD, List.getD]
  rw [show (a.name_store ++ ext).get? p = a.name_store.get? p from by
    rw [List.get?_eq_getElem?, List.get?_eq_getElem?, List.getElem?_append_left hp]]

theorem with_eval_args_ext
    {evalOne : InstId → Ir → Except String ((Op → Op) × Operand × Ir)}
    (hEval : ∀ a ir r, evalOne a ir = Except.ok r → irExt ir r.2.2) :
    ∀ (l : List InstId) (ir : Ir) r,
      with_eval_args evalOne l ir = Except.ok r → irExt ir r.2.2 := by
  intro l
  induction l with
  | nil =>
    intro ir r h
    simp only [with_eval_args] at h
    cases h
    exact irExt_refl _
  | cons a rest ih =>
    intro ir r h
    simp only [with_eval_args] at h
    split at h
    · cases h
    · rename_i w op ir1 heq1
      split at h
      · cases h
      · rename_i w2 ops ir2 heq2
        cases h
        exact irExt_trans (hEval a ir (w, op, ir1) heq1) (ih ir1 (w2, ops, ir2) heq2)

theorem with_eval_ext (fuel : Nat) :
    ∀ (inst : InstId) (ir : Ir) r,
      with_eval fuel inst ir = Except.ok r → irExt ir r.2.2 := by
  induction fuel with
  | zero => intro inst ir r h; cases h
  | succ fuel ih =>
    intro inst ir r h
    simp only [with_eval] at h
    split at h
    · cases h; exact irExt_refl _
    · cases h; exact irExt_refl _
    · cases h; exact irExt_refl _
    · rename_i f args heq
      split at h
      · cases h
      · rename_i w ops ir1 heq1
        cases h
        exact irExt_trans (with_eval_args_ext ih args ir _ heq1)
          (fresh_var_ext ir1 "call")
    · cases h

theorem inst_to_expr_ext (fuel : Nat) (inst : InstId) (ir : Ir) r
    (h : inst_to_expr fuel inst ir = Except.ok r) : irExt ir r.2.2 := by
  unfold inst_to_expr at h
  split at h
  · split at h
    · cases h
    · rename_i w ops ir1 heq
      cases h
      exact with_eval_args_ext (with_eval_ext fuel) _ ir _ heq
  · split at h
    · cases h
    · rename_i w op ir1 heq
      cases h
      exact with_eval_ext fuel inst ir _ heq

theorem wrap_eval_check_ext (fuel : Nat) (inst : InstId) (target : Operand)
    (body : Op) (ir : Ir) (r : Op × Ir)
    (h : wrap_eval_check fuel inst target body ir = Except.ok r) :
    irExt ir r.2 := by
  unfold wrap_eval_check at h
  split at h
  · cases h
  · rename_i w op ir1 heq
    cases h
    exact with_eval_ext fuel inst ir _ heq

theorem wrap_eq_check_ext (fuel : Nat) (l r : InstId) (body : Op) (ir : Ir)
    (res : Op × Ir) (h : wrap_eq_check fuel l r body ir = Except.ok res) :
    irExt ir res.2 := by
  unfold wrap_eq_check at h
  split at h
  · cases h
  · rename_i wl op_l ir1 heq1
    split at h
    · cases h
    · rename_i wr op_r ir2 heq2
      cases h
      exact irExt_trans (with_eval_ext fuel l ir _ heq1)
        (with_eval_ext fuel r ir1 _ heq2)

theorem applyConstraintsRev_ext (fuel : Nat) (scan_vars : List NameId) :
    ∀ (l : List (Nat × InstId)) (body : Op) (ir : Ir) (r : Op × Ir),
      applyConstraintsRev fuel scan_vars l body ir = Except.ok r →
        irExt ir r.2 := by
  intro l
  induction l with
  | nil =>
    intro body ir r h
    simp only [applyConstraintsRev] at h
    cases h
    exact irExt_refl _
  | cons p rest ih =>
    intro body ir r h
    obtain ⟨i, arg⟩ := p
    simp only [applyConstraintsRev] at h
    split at h
    · split at h
      · exact ih _ _ _ h
      · exact ih _ _ _ h
    · split at h
      · cases h
      · rename_i body' ir1 heq
        exact irExt_trans (wrap_eval_check_ext fuel arg _ body ir _ heq)
          (ih _ _ _ h)

theorem mkScanVars_ext (ir : Ir) (bound : List NameId) (args : List InstId) :
    irExt ir (mkScanVars ir bound args).1 := by
  unfold mkScanVars
  suffices h : ∀ (l : List InstId) (acc : Ir × List NameId),
      irExt acc.1
        (l.foldl
          (fun (acc : Ir × List NameId) arg =>
            match acc.1.get arg with
            | .var v =>
              if v ∉ bound then (acc.1, acc.2 ++ [v])
              else
                let p := fresh_var acc.1 "scan"
                (p.1, acc.2 ++ [p.2])
            | _ =>
              let p := fresh_var acc.1 "scan"
              (p.1, acc.2 ++ [p.2])) acc).1 by
    exact h args (ir, [])
  intro l
  induction l with
  | nil => intro acc; exact irExt_refl _
  | cons a rest ih =>
    intro acc
    rw [List.foldl_cons]
    refine irExt_trans ?_ (ih _)
    cases acc.1.get a
    case var v =>
      simp only []
      split
      · exact irExt_refl _
      · exact fresh_var_ext _ _
    all_goals exact fresh_var_ext _ _

theorem plan_join_sequence_ext {κ : Type} (fuel : Nat) (dp : Option NameId) :
    ∀ (premises : List InstId) (bound : List NameId)
      (k : Ir → List NameId → Except String (Op × Ir × κ)) (ir : Ir) r,
      (∀ ir2 v r2, k ir2 v = Except.ok r2 → irExt ir2 r2.2.1) →
      plan_join_sequence fuel dp premises bound k ir = Except.ok r →
        irExt ir r.2.1 := by
  intro premises
  induction premises with
  | nil =>
    intro bound k ir r hk h
    exact hk ir bound r h
  | cons current rest ih =>
    intro bound k ir r hk h
    simp only [plan_join_sequence] at h
    split at h
    · rename_i predicate args heq0
      split at h
      · cases h
      · rename_i body ir2 x heq1
        split at h
        · cases h
        · rename_i wrapped ir3 heq2
          cases h
          refine irExt_trans (mkScanVars_ext ir bound args) ?_
          refine irExt_trans (ih _ _ _ _ hk heq1) ?_
          unfold apply_constraints at heq2
          exact applyConstraintsRev_ext fuel _ _ _ _ _ heq2
    · split at h
      · cases h
      · rename_i body ir2 x heq1
        split at h
        · cases h
        · rename_i op ir3 heq2
          cases h
          exact irExt_trans (ih _ _ _ _ hk heq1)
            (wrap_eq_check_ext fuel _ _ body ir2 _ heq2)
    · cases h

theorem plan_transforms_sequence_ext {κ : Type} (fuel : Nat) :
    ∀ (transforms : List InstId) (bound : List NameId)
      (k : Ir → List NameId → Except String (Op × Ir × κ)) (ir : Ir) r,
      (∀ ir2 v r2, k ir2 v = Except.ok r2 → irExt ir2 r2.2.1) →
      plan_transforms_sequence fuel transforms bound k ir = Except.ok r →
        irExt ir r.2.1 := by
  intro transforms
  induction transforms with
  | nil =>
    intro bound k ir r hk h
    exact hk ir bound r h
  | cons t rest ih =>
    intro bound k ir r hk h
    simp only [plan_transforms_sequence] at h
    split at h
    · rename_i var app heq0
      split at h
      · cases h
      · rename_i w expr ir1 heq1
        split at h
        · cases h
        · rename_i body ir2 x heq2
          cases h
          exact irExt_trans (inst_to_expr_ext fuel app ir (w, expr, ir1) heq1)
            (ih _ k ir1 (body, ir2, x) hk heq2)
    · cases h

theorem plan_head_insert_ext (fuel : Nat) (head : InstId) (ir : Ir) r
    (h : plan_head_insert fuel head ir = Except.ok r) : irExt ir r.2.1 := by
  unfold plan_head_insert at h
  split at h
  · split at h
    · cases h
    · rename_i w ops ir1 heq
      cases h
      exact with_eval_args_ext (with_eval_ext fuel) _ ir _ heq
  · cases h

theorem plan_block_k_ext {κ : Type} (fuel : Nat) (source_rel : NameId)
    (source_vars : List NameId) (block : List InstId)
    (k : Ir → List NameId → Except String (Op × Ir × κ)) (ir : Ir) r
    (hk : ∀ ir2 v r2, k ir2 v = Except.ok r2 → irExt ir2 r2.2.1)
    (h : plan_block_k fuel source_rel source_vars block k ir = Except.ok r) :
    irExt ir r.2.1 := by
  unfold plan_block_k at h
  split at h
  · cases h
  · rename_i do_stmt rest
    split at h
    · cases h
    · split at h
      · cases h
      · split at h
        · cases h
        · rename_i aggregates lets heq2
          dsimp only [] at h
          split at h
          · cases h
          · rename_i body ir1 x heq3
            cases h
            exact plan_transforms_sequence_ext fuel _ _ k ir (body, ir1, x) hk heq3

theorem planKBlocks_ext (fuel : Nat) (head : InstId) :
    ∀ (blocks : List (List InstId)) (src : NameId × List NameId)
      (ops : List Op) (ir : Ir) r,
      planKBlocks fuel head blocks src ops ir = Except.ok r → irExt ir r.2 := by
  intro blocks
  induction blocks with
  | nil =>
    intro src ops ir r h
    simp only [planKBlocks] at h
    cases h
    exact irExt_refl _
  | cons block rest ih =>
    intro src ops ir r h
    cases rest with
    | nil =>
      simp only [planKBlocks] at h
      split at h
      · cases h
      · rename_i op ir1 x heq
        cases h
        exact plan_block_k_ext fuel _ _ _ _ _ _
          (fun ir2 v r2 h2 => plan_head_insert_ext fuel head ir2 r2 h2) heq
    | cons b2 rest2 =>
      simp only [planKBlocks] at h
      split at h
      · cases h
      · rename_i op ir1 next_vars heq
        refine irExt_trans (fresh_var_ext ir "temp_grp") ?_
        refine irExt_trans ?_ (ih _ _ _ _ h)
        exact plan_block_k_ext fuel _ _ _ _ _ _
          (fun ir2 v r2 h2 => by cases h2; exact irExt_refl _) heq

theorem plan_rule_ext (fuel : Nat) (dp : Option NameId) (rule_id : InstId)
    (ir : Ir) r (h : plan_rule fuel dp rule_id ir = Except.ok r) :
    irExt ir r.2 := by
  unfold plan_rule at h
  split at h
  · rename_i head premises transform heq0
    split at h
    · cases h
    · rename_i block0 restBlocks heqS
      split at h
      · split at h
        · cases h
        · rename_i op ir1 x heq
          cases h
          refine plan_join_sequence_ext fuel dp _ _ _ _ (op, ir1, x) ?_ heq
          intro ir2 v r2 h2
          refine plan_transforms_sequence_ext fuel _ _ _ _ r2 ?_ h2
          intro ir3 v3 r3 h3
          exact plan_head_insert_ext fuel head ir3 r3 h3
      · dsimp only [] at h
        split at h
        · cases h
        · rename_i op0 ir1 captured heq1
          split at h
          · cases h
          · rename_i ops ir2 heq2
            have e1 : irExt ir ir1 := by
              refine irExt_trans (fresh_var_ext ir "temp_grp") ?_
              refine plan_join_sequence_ext fuel dp _ _ _ _ (op0, ir1, captured) ?_ heq1
              intro ir2' v r2 h2
              refine plan_transforms_sequence_ext fuel _ _ _ _ r2 ?_ h2
              intro ir3 v3 r3 h3
              cases h3
              exact irExt_refl _
            have e2 : irExt ir1 ir2 := planKBlocks_ext fuel head _ _ _ _ (ops, ir2) heq2
            split at h
            · cases h
              exact irExt_trans e1 e2
            · cases h
              exact irExt_trans e1 e2
  · cases h

/-! ## Lowering (`analysis/src/lowering.rs`)

`LoweringContext` owns the output `Ir` and the per-scope variable
cache; the state is `(ir, vars)`.  `lower_const` and `lower_base_term`
recurse through nested terms; the fuel argument exceeds any term's
depth on real input. -/

abbrev LowState := Ir × List (VariableIndex × InstId)

/-- `LoweringContext::lower_const`. -/
def lower_const (arena : Arena) : Nat → Const → LowState → LowState × InstId
  | 0, _, st => (st, 0)
  | fuel + 1, c, (ir, vars) =>
    match c with
    | .name n =>
      let s := (arena.lookup_name n).getD "unknown_name"
      let p := ir.intern_name s
      let q := p.1.add_inst (Inst.name p.2)
      ((q.1, vars), q.2)
    | .bool b =>
      let q := ir.add_inst (Inst.bool b); ((q.1, vars), q.2)
    | .number n =>
      let q := ir.add_inst (Inst.number n); ((q.1, vars), q.2)
    | .float f =>
      let q := ir.add_inst (Inst.float f); ((q.1, vars), q.2)
    | .string s =>
      let p := ir.intern_string s
      let q := p.1.add_inst (Inst.string p.2)
      ((q.1, vars), q.2)
    | .bytes bs =>
      let q := ir.add_inst (Inst.bytes bs); ((q.1, vars), q.2)
    | .list l =>
      let p := l.foldl
        (fun (acc : LowState × List InstId) c0 =>
          let r := lower_const arena fuel c0 acc.1
          (r.1, acc.2 ++ [r.2]))
        ((ir, vars), [])
      let q := p.1.1.add_inst (Inst.list p.2)
      ((q.1, p.1.2), q.2)
    | .map keys values =>
      let pk := keys.foldl
        (fun (acc : LowState × List InstId) c0 =>
          let r := lower_const arena fuel c0 acc.1
          (r.1, acc.2 ++ [r.2]))
        ((ir, vars), [])
      let pv := values.foldl
        (fun (acc : LowState × List InstId) c0 =>
          let r := lower_const arena fuel c0 acc.1
          (r.1, acc.2 ++ [r.2]))
        (pk.1, [])
      let q := pv.1.1.add_inst (Inst.map pk.2 pv.2)
      ((q.1, pv.1.2), q.2)
    | .struct fields values =>
      let pf := fields.foldl
        (fun (acc : Ir × List NameId) s =>
          let r := acc.1.intern_name s
          (r.1, acc.2 ++ [r.2]))
        (ir, [])
      let pv := values.foldl
        (fun (acc : LowState × List InstId) c0 =>
          let r := lower_const arena fuel c0 acc.1
          (r.1, acc.2 ++ [r.2]))
        ((pf.1, vars), [])
      let q := pv.1.1.add_inst (Inst.struct pf.2 pv.2)
      ((q.1, pv.1.2), q.2)

/-- `LoweringContext::lower_base_term`. -/
def lower_base_term (arena : Arena) : Nat → BaseTerm → LowState →
    LowState × InstId
  | 0, _, st => (st, 0)
  | fuel + 1, t, (ir, vars) =>
    match t with
    | .const c => lower_const arena fuel c (ir, vars)
    | .var v =>
      match alGet vars v with
      | some id => ((ir, vars), id)
      | none =>
        let name_str :=
          if v = 0 then "_" else (arena.lookup_name v).getD "unknown_var"
        let p := ir.intern_name name_str
        let q := p.1.add_inst (Inst.var p.2)
        let vars' := if v ≠ 0 then alInsert vars v q.2 else vars
        ((q.1, vars'), q.2)
    | .applyFn f args =>
      let fs := (arena.function_name f).getD "unknown_fn"
      let p := ir.intern_name fs
      let r := args.foldl
        (fun (acc : LowState × List InstId) a =>
          let r := lower_base_term arena fuel a acc.1
          (r.1, acc.2 ++ [r.2]))
        ((p.1, vars), [])
      let q := r.1.1.add_inst (Inst.applyFn p.2 r.2)
      ((q.1, r.1.2), q.2)

/-- `LoweringContext::lower_atom`. -/
def lower_atom (arena : Arena) (fuel : Nat) (atom : Atom) (st : LowState) :
    LowState × InstId :=
  let predicate_name := (arena.predicate_name atom.sym).getD "unknown_pred"
  let p := st.1.intern_name predicate_name
  let r := atom.args.foldl
    (fun (acc : LowState × List InstId) a =>
      let r := lower_base_term arena fuel a acc.1
      (r.1, acc.2 ++ [r.2]))
    ((p.1, st.2), [])
  let q := r.1.1.add_inst (Inst.atom p.2 r.2)
  ((q.1, r.1.2), q.2)

/-- `LoweringContext::lower_term`. -/
def lower_term (arena : Arena) (fuel : Nat) (t : Term) (st : LowState) :
    LowState × InstId :=
  match t with
  | .atom a => lower_atom arena fuel a st
  | .negAtom a =>
    let r := lower_atom arena fuel a st
    let q := r.1.1.add_inst (Inst.negAtom r.2)
    ((q.1, r.1.2), q.2)
  | .eq l r =>
    let pl := lower_base_term arena fuel l st
    let pr := lower_base_term arena fuel r pl.1
    let q := pr.1.1.add_inst (Inst.eq pl.2 pr.2)
    ((q.1, pr.1.2), q.2)
  | .ineq l r =>
    let pl := lower_base_term arena fuel l st
    let pr := lower_base_term arena fuel r pl.1
    let q := pr.1.1.add_inst (Inst.ineq pl.2 pr.2)
    ((q.1, pr.1.2), q.2)

/-- `LoweringContext::lower_transform`. -/
def lower_transform (arena : Arena) (fuel : Nat) (t : TransformStmt)
    (st : LowState) : LowState × InstId :=
  match t.var with
  | some s =>
    let p := st.1.intern_name s
    let r := lower_base_term arena fuel t.app (p.1, st.2)
    let q := r.1.1.add_inst (Inst.transform (some p.2) r.2)
    ((q.1, r.1.2), q.2)
  | none =>
    let r := lower_base_term arena fuel t.app st
    let q := r.1.1.add_inst (Inst.transform none r.2)
    ((q.1, r.1.2), q.2)

/-- `LoweringContext::lower_clause` (clears the variable cache). -/
def lower_clause (arena : Arena) (fuel : Nat) (clause : Clause) (ir : Ir) :
    Ir × InstId :=
  let st : LowState := (ir, [])
  let ph := lower_atom arena fuel clause.head st
  let pp := clause.premises.foldl
    (fun (acc : LowState × List InstId) t =>
      let r := lower_term arena fuel t acc.1
      (r.1, acc.2 ++ [r.2]))
    (ph.1, [])
  let pt := clause.transform.foldl
    (fun (acc : LowState × List InstId) t =>
      let r := lower_transform arena fuel t acc.1
      (r.1, acc.2 ++ [r.2]))
    (pp.1, [])
  let q := pt.1.1.add_inst (Inst.rule ph.2 pp.2 pt.2)
  (q.1, q.2)

/-- `LoweringContext::lower_bound_decl`. -/
def lower_bound_decl (arena : Arena) (fuel : Nat) (b : BoundDecl)
    (st : LowState) : LowState × InstId :=
  let p := b.base_terms.foldl
    (fun (acc : LowState × List InstId) t =>
      let r := lower_base_term arena fuel t acc.1
      (r.1, acc.2 ++ [r.2]))
    (st, [])
  let q := p.1.1.add_inst (Inst.boundDecl p.2)
  ((q.1, p.1.2), q.2)

/-- `LoweringContext::lower_constraints`. -/
def lower_constraints (arena : Arena) (fuel : Nat) (c : Constraints)
    (st : LowState) : LowState × InstId :=
  let pc := c.consequences.foldl
    (fun (acc : LowState × List InstId) a =>
      let r := lower_atom arena fuel a acc.1
      (r.1, acc.2 ++ [r.2]))
    (st, [])
  let pa := c.alternatives.foldl
    (fun (acc : LowState × List (List InstId)) alt =>
      let r := alt.foldl
        (fun (acc2 : LowState × List InstId) a =>
          let r2 := lower_atom arena fuel a acc2.1
          (r2.1, acc2.2 ++ [r2.2]))
        (acc.1, [])
      (r.1, acc.2 ++ [r.2]))
    (pc.1, [])
  let q := pa.1.1.add_inst (Inst.constraints pc.2 pa.2)
  ((q.1, pa.1.2), q.2)

/-- `LoweringContext::lower_decl` (clears the variable cache). -/
def lower_decl (arena : Arena) (fuel : Nat) (decl : Decl) (ir : Ir) :
    Ir × InstId :=
  let st : LowState := (ir, [])
  let pa := lower_atom arena fuel decl.atom st
  let pd := decl.descr.foldl
    (fun (acc : LowState × List InstId) a =>
      let r := lower_atom arena fuel a acc.1
      (r.1, acc.2 ++ [r.2]))
    (pa.1, [])
  let pb :=
    match decl.bounds with
    | some bs =>
      bs.foldl
        (fun (acc : LowState × List InstId) b =>
          let r := lower_bound_decl arena fuel b acc.1
          (r.1, acc.2 ++ [r.2]))
        (pd.1, [])
    | none => (pd.1, [])
  let pc :=
    match decl.constraints with
    | some c =>
      let r := lower_constraints arena fuel c pb.1
      (r.1, some r.2)
    | none => (pb.1, none)
  let q := pc.1.1.add_inst (Inst.decl pa.2 pd.2 pb.2 pc.2)
  (q.1, q.2)

/-- `LoweringContext::lower_unit`: declarations first, then clauses. -/
def lower_unit (arena : Arena) (fuel : Nat) (unit : Unit') : Ir :=
  let ir := unit.decls.foldl (fun ir d => (lower_decl arena fuel d ir).1) Ir.new
  unit.clauses.foldl (fun ir c => (lower_clause arena fuel c ir).1) ir

/-! ## The driver (`driver/src/lib.rs`)

`compile` minus the parser: the input is the already-parsed `Unit'`.
`execute` returns, besides the final store and the updated `Ir`, the
sum of the per-plan insertion counts that `Interpreter::execute`
reports (the number of facts inserted during the run). -/

/-- `driver::compile` from the parsed unit: rename, assemble the
`Program` with its extensional predicates, stratify, lower. -/
def compile (fuel : Nat) (arena : Arena) (unit0 : Unit') :
    Except String (Arena × Ir × Program × List (List PredicateIndex)) :=
  let ru := rewrite_unit arena unit0
  let unit := ru.1
  let arena := ru.2
  let st := unit.clauses.foldl
    (fun (st : Program × List PredicateIndex × List PredicateIndex) clause =>
      let prog := st.1.add_clause clause
      let idb := nsInsert st.2.2 clause.head.sym
      let all := nsInsert st.2.1 clause.head.sym
      let all := clause.premises.foldl
        (fun all t =>
          match t with
          | Term.atom a => nsInsert all a.sym
          | Term.negAtom a => nsInsert all a.sym
          | _ => all)
        all
      (prog, all, idb))
    (⟨[], []⟩, [], [])
  let ext := st.2.1.filter (fun p => p ∉ st.2.2)
  let prog : Program := { st.1 with ext_preds := ext }
  match stratify prog with
  | Except.error e => Except.error e
  | Except.ok (prog, strata) =>
    Except.ok (arena, lower_unit arena fuel unit, prog, strata)

/-- The stratum's predicate-name set (`stratum_pred_names`). -/
def stratumPredNames (arena : Arena) (stratum : List PredicateIndex) :
    List String :=
  stratum.foldl
    (fun ns pred =>
      match arena.predicate_name pred with
      | some name => if name ∈ ns then ns else ns ++ [name]
      | none => ns)
    []

/-- The stratum's rule instructions: every `Inst::Rule` whose head
atom's predicate name is in the stratum. -/
def ruleIds (ir : Ir) (names : List String) : List InstId :=
  ir.insts.enum.filterMap
    (fun p =>
      match p.2 with
      | Inst.rule head _ _ =>
        match ir.get head with
        | Inst.atom predicate _ =>
          if ir.resolve_name predicate ∈ names then some p.1 else none
        | _ => none
      | _ => none)

/-- The recursion check: some rule of the stratum has a positive atom
premise over a predicate of the stratum. -/
def stratumIsRecursive (ir : Ir) (names : List String)
    (rule_ids : List InstId) : Bool :=
  rule_ids.any
    (fun rid =>
      match ir.get rid with
      | Inst.rule _ premises _ =>
        premises.any
          (fun pr =>
            match ir.get pr with
            | Inst.atom predicate _ => ir.resolve_name predicate ∈ names
            | _ => false)
      | _ => false)

/-- `StratumPlan` of the driver. -/
inductive StratumPlan where
  | nonRecursive (ops : List Op)
  | recursive (initial_ops : List Op) (delta_plans : List Op)
deriving Repr

/-- Plan each rule with a fresh `Planner` (the `Ir` threads through:
`plan_rule` interns names into it). -/
def planOps (fuel : Nat) (dp : Option NameId) :
    List InstId → Ir → Except String (List Op × Ir)
  | [], ir => Except.ok ([], ir)
  | rid :: rest, ir =>
    match plan_rule fuel dp rid ir with
    | Except.error e => Except.error e
    | Except.ok (op, ir) =>
      match planOps fuel dp rest ir with
      | Except.error e => Except.error e
      | Except.ok (ops, ir) => Except.ok (op :: ops, ir)

/-- The delta plans of one rule: one per positive atom premise
occurrence whose predicate name is in the stratum, planned with that
occurrence's predicate as the delta predicate. -/
def planDeltasForRule (fuel : Nat) (names : List String) (rid : InstId) :
    List InstId → Ir → Except String (List Op × Ir)
  | [], ir => Except.ok ([], ir)
  | pr :: rest, ir =>
    match ir.get pr with
    | Inst.atom predicate _ =>
      if ir.resolve_name predicate ∈ names then
        match plan_rule fuel (some predicate) rid ir with
        | Except.error e => Except.error e
        | Except.ok (op, ir) =>
          match planDeltasForRule fuel names rid rest ir with
          | Except.error e => Except.error e
          | Except.ok (ops, ir) => Except.ok (op :: ops, ir)
      else planDeltasForRule fuel names rid rest ir
    | _ => planDeltasForRule fuel names rid rest ir

/-- The delta plans of a recursive stratum (the rule loop; a rule whose
instruction is not `Inst::Rule` is skipped, `continue` in the code). -/
def planDeltas (fuel : Nat) (names : List String) :
    List InstId → Ir → Except String (List Op × Ir)
  | [], ir => Except.ok ([], ir)
  | rid :: rest, ir =>
    match ir.get rid with
    | Inst.rule _ premises _ =>
      match planDeltasForRule fuel names rid premises ir with
      | Except.error e => Except.error e
      | Except.ok (ops, ir) =>
        match planDeltas fuel names rest ir with
        | Except.error e => Except.error e
        | Except.ok (ops2, ir) => Except.ok (ops ++ ops2, ir)
    | _ => planDeltas fuel names rest ir

/-- The pre-planning pass of `driver::execute`: one optional
`StratumPlan` per stratum. -/
def planStrata (fuel : Nat) (arena : Arena) :
    List (List PredicateIndex) → Ir →
    Except String (List (Option StratumPlan) × Ir)
  | [], ir => Except.ok ([], ir)
  | stratum :: rest, ir =>
    let names := stratumPredNames arena stratum
    let rule_ids := ruleIds ir names
    if rule_ids.isEmpty then
      match planStrata fuel arena rest ir with
      | Except.error e => Except.error e
      | Except.ok (plans, ir) => Except.ok (none :: plans, ir)
    else if stratumIsRecursive ir names rule_ids then
      match planOps fuel none rule_ids ir with
      | Except.error e => Except.error e
      | Except.ok (initial_ops, ir) =>
        match planDeltas fuel names rule_ids ir with
        | Except.error e => Except.error e
        | Except.ok (delta_plans, ir) =>
          match planStrata fuel arena rest ir with
          | Except.error e => Except.error e
          | Except.ok (plans, ir) =>
            Except.ok (some (StratumPlan.recursive initial_ops delta_plans) :: plans, ir)
    else
      match planOps fuel none rule_ids ir with
      | Except.error e => Except.error e
      | Except.ok (ops, ir) =>
        match planStrata fuel arena rest ir with
        | Except.error e => Except.error e
        | Except.ok (plans, ir) =>
          Except.ok (some (StratumPlan.nonRecursive ops) :: plans, ir)

/-- EDB initialisation: `create_relation` for every extensional
predicate that has a name. -/
def createExtRelations (arena : Arena) (prog : Program) (st : MemStore) :
    MemStore :=
  prog.ext_preds.foldl
    (fun st pred =>
      match arena.predicate_name pred with
      | some name => st.create_relation name
      | none => st)
    st

/-- Run a list of plans, each by `Interpreter::execute` (fresh
environment), summing the insertion counts. -/
def runOps (ir : Ir) (efuel : Nat) :
    List Op → MemStore → Except String (Nat × MemStore)
  | [], st => Except.ok (0, st)
  | op :: rest, st =>
    match exec_op ir efuel op [] st with
    | Except.error e => Except.error e
    | Except.ok (c, _, st) =>
      match runOps ir efuel rest st with
      | Except.error e => Except.error e
      | Except.ok (c2, st) => Except.ok (c + c2, st)

/-- The semi-naive loop of a recursive stratum: run all delta plans;
stop when no plan inserted anything, else `merge_deltas` and repeat. -/
def deltaLoop (ir : Ir) (efuel : Nat) (delta_plans : List Op) :
    Nat → MemStore → Except String (Nat × MemStore)
  | 0, _ => Except.error "out of fuel"
  | lfuel + 1, st =>
    match runOps ir efuel delta_plans st with
    | Except.error e => Except.error e
    | Except.ok (changes, st) =>
      if changes = 0 then Except.ok (0, st)
      else
        match deltaLoop ir efuel delta_plans lfuel st.merge_deltas with
        | Except.error e => Except.error e
        | Except.ok (c, st) => Except.ok (changes + c, st)

/-- The stratum execution loop of `driver::execute` (`merge_deltas`
after every stratum, empty strata included). -/
def execStrata (ir : Ir) (efuel dfuel : Nat) :
    List (Option StratumPlan) → MemStore → Except String (Nat × MemStore)
  | [], st => Except.ok (0, st)
  | plan :: rest, st =>
    let step : Except String (Nat × MemStore) :=
      match plan with
      | none => Except.ok (0, st)
      | some (StratumPlan.nonRecursive ops) => runOps ir efuel ops st
      | some (StratumPlan.recursive initial_ops delta_plans) =>
        match runOps ir efuel initial_ops st with
        | Except.error e => Except.error e
        | Except.ok (c, st) =>
          match deltaLoop ir efuel delta_plans dfuel st.merge_deltas with
          | Except.error e => Except.error e
          | Except.ok (c2, st) => Except.ok (c + c2, st)
    match step with
    | Except.error e => Except.error e
    | Except.ok (c, st) =>
      match execStrata ir efuel dfuel rest st.merge_deltas with
      | Except.error e => Except.error e
      | Except.ok (c2, st) => Except.ok (c + c2, st)

/-- `driver::execute`: pre-plan all strata, initialise EDB relations,
run the strata.  Returns the `Ir` as mutated by planning, the total
number of facts inserted, and the final store. -/
def execute (pfuel efuel dfuel : Nat) (arena : Arena) (prog : Program)
    (strata : List (List PredicateIndex)) (ir : Ir) (store : MemStore) :
    Except String (Ir × Nat × MemStore) :=
  match planStrata pfuel arena strata ir with
  | Except.error e => Except.error e
  | Except.ok (plans, ir) =>
    match execStrata ir efuel dfuel plans (createExtRelations arena prog store) with
    | Except.error e => Except.error e
    | Except.ok (c, st) => Except.ok (ir, c, st)

/-! ## Claim C1: fixed point of `execute`

The program

```
p(1).  p(2) :- p(1).  q(X, Y) :- p(X), p(Y).  p(3) :- q(0, 0).
```

compiles into a single recursive stratum `{p, q}`.  The semi-naive
loop marks the delta *predicate*, not the premise occurrence, so the
delta plan for `q(X, Y) :- p(X), p(Y)` scans the delta set for *both*
occurrences of `p` and never joins a delta fact with an older one.
The first run converges with `q = {(1,1), (2,2)}`; a second `execute`
on the same ir and store inserts the missing facts `q(1,2)` and
`q(2,1)`. -/

/-- The arena holding `p/1`, `q/2` and the variables `X`, `Y`, as the
parser would intern them. -/
def c1Arena : Arena :=
  ⟨["_", "p", "q", "X", "Y"], [⟨1, some 1⟩, ⟨2, some 2⟩], []⟩

/-- The parsed unit of the program above (`p = 0`, `q = 1`, `X = 3`,
`Y = 4`). -/
def c1Unit : Unit' :=
  ⟨[],
    [⟨⟨0, [BaseTerm.const (Const.number 1)]⟩, [], []⟩,
      ⟨⟨0, [BaseTerm.const (Const.number 2)]⟩,
        [Term.atom ⟨0, [BaseTerm.const (Const.number 1)]⟩], []⟩,
      ⟨⟨1, [BaseTerm.var 3, BaseTerm.var 4]⟩,
        [Term.atom ⟨0, [BaseTerm.var 3]⟩, Term.atom ⟨0, [BaseTerm.var 4]⟩], []⟩,
      ⟨⟨0, [BaseTerm.const (Const.number 3)]⟩,
        [Term.atom ⟨1, [BaseTerm.const (Const.number 0),
          BaseTerm.const (Const.number 0)]⟩], []⟩]⟩

/-- Compile the program, run `execute` twice (the second run on the ir
and store the first one produced), and report the two insertion counts
and the contents of the stable `q` relation after each run. -/
def c1Observed : Option (Nat × Nat × List Tuple × List Tuple) :=
  match compile 32 c1Arena c1Unit with
  | Except.error _ => none
  | Except.ok (arena, ir, prog, strata) =>
    match execute 32 32 32 arena prog strata ir MemStore.new with
    | Except.error _ => none
    | Except.ok (ir1, cnt1, st1) =>
      match execute 32 32 32 arena prog strata ir1 st1 with
      | Except.error _ => none
      | Except.ok (_, cnt2, st2) =>
        some (cnt1, cnt2,
          (alGet st1.stable "q").getD [], (alGet st2.stable "q").getD [])

/-- Claim C1 (refuted; code bug): the program compiles, both runs of
`execute` terminate without error, but the second run on the first
run's ir and store inserts 2 new facts (`q(1,2)` and `q(2,1)`), which
the first run's semi-naive loop missed: its fixed point is not closed
under `q(X, Y) :- p(X), p(Y)`. -/
theorem driver_execute_not_idempotent :
    c1Observed =
      some (4, 2,
        [[Value.number 1, Value.number 1], [Value.number 2, Value.number 2]],
        [[Value.number 1, Value.number 1], [Value.number 2, Value.number 2],
          [Value.number 1, Value.number 2], [Value.number 2, Value.number 1]]) :=
  rfl

/-! ## Claim C4: delta plans of a recursive stratum

`execute` builds the delta plans per positive-atom premise
*occurrence*, not per `(rule, predicate)` pair: the rule
`q(X, Y) :- p(X), p(Y)` contributes two (identical) delta plans for
the single pair `(rule, p)`.  And since `plan_join_sequence` marks the
delta *predicate*, a delta plan has one `ScanDelta` source per
occurrence of that predicate without an index candidate — 0 when the
premise has a bound/constant argument (an `IndexLookup` is emitted
instead), 2 in the rule above — never "exactly one" by construction. -/

/-- Every atom instruction's predicate id is inside the name store (all
compiler-produced `Ir`s satisfy this; it makes name resolution stable
under planning). -/
def atomPredsInRangeB (ir : Ir) : Bool :=
  ir.insts.all
    (fun i =>
      match i with
      | Inst.atom p _ => decide (p < ir.name_store.length)
      | _ => true)

theorem get_atom_range {ir : Ir} {pr : InstId} {predicate : NameId}
    {args : List InstId} (hwf : atomPredsInRangeB ir = true)
    (h : ir.get pr = Inst.atom predicate args) :
    predicate < ir.name_store.length := by
  unfold Ir.get at h
  rw [List.getD] at h
  cases hg : ir.insts.get? pr with
  | none => rw [hg] at h; cases h
  | some i =>
    rw [hg] at h
    simp only [Option.getD] at h
    have hmem : i ∈ ir.insts := List.get?_mem hg
    have hall := List.all_eq_true.mp hwf i hmem
    rw [h] at hall
    simpa using hall

/-- The `(rule, delta predicate)` occurrence list of the delta-plan
loop: one entry per positive atom premise occurrence whose predicate
name belongs to the stratum. -/
def recursiveOccurrences (ir : Ir) (names : List String) (rids : List InstId) :
    List (InstId × NameId) :=
  rids.flatMap
    (fun rid =>
      match ir.get rid with
      | Inst.rule _ premises _ =>
        premises.filterMap
          (fun pr =>
            match ir.get pr with
            | Inst.atom predicate _ =>
              if ir.resolve_name predicate ∈ names then some (rid, predicate)
              else none
            | _ => none)
      | _ => [])

/-- `DeltaPlansAre fuel ir pairs ops ir'`: `ops` are exactly the
`plan_rule` outputs for the `(rule, delta predicate)` pairs in order,
threading the `Ir`. -/
inductive DeltaPlansAre (fuel : Nat) : Ir → List (InstId × NameId) → List Op → Ir → Prop where
  | nil (ir : Ir) : DeltaPlansAre fuel ir [] [] ir
  | cons {ir ir1 ir2 : Ir} {rid : InstId} {d : NameId} {op : Op}
      {pairs : List (InstId × NameId)} {ops : List Op}
      (h : plan_rule fuel (some d) rid ir = Except.ok (op, ir1))
      (rest : DeltaPlansAre fuel ir1 pairs ops ir2) :
      DeltaPlansAre fuel ir ((rid, d) :: pairs) (op :: ops) ir2

theorem DeltaPlansAre_length {fuel : Nat} :
    ∀ {ir : Ir} {pairs : List (InstId × NameId)} {ops : List Op} {ir' : Ir},
      DeltaPlansAre fuel ir pairs ops ir' → ops.length = pairs.length := by
  intro ir pairs ops ir' h
  induction h with
  | nil => rfl
  | cons _ _ ih => simp [ih]

theorem DeltaPlansAre_append {fuel : Nat} :
    ∀ {ir ir1 ir2 : Ir} {p1 p2 : List (InstId × NameId)} {o1 o2 : List Op},
      DeltaPlansAre fuel ir p1 o1 ir1 → DeltaPlansAre fuel ir1 p2 o2 ir2 →
      DeltaPlansAre fuel ir (p1 ++ p2) (o1 ++ o2) ir2 := by
  intro ir ir1 ir2 p1 p2 o1 o2 h1 h2
  induction h1 with
  | nil => simpa using h2
  | cons h _ ih => exact DeltaPlansAre.cons h (ih h2)

theorem planDeltasForRule_pairs (fuel : Nat) (names : List String) (rid : InstId)
    (ir0 : Ir) (hwf : atomPredsInRangeB ir0 = true) :
    ∀ (premises : List InstId) (ir : Ir), irExt ir0 ir →
      ∀ (ops : List Op) (ir' : Ir),
        planDeltasForRule fuel names rid premises ir = Except.ok (ops, ir') →
        DeltaPlansAre fuel ir
          (premises.filterMap
            (fun pr =>
              match ir0.get pr with
              | Inst.atom predicate _ =>
                if ir0.resolve_name predicate ∈ names then some (rid, predicate)
                else none
              | _ => none))
          ops ir' ∧ irExt ir0 ir' := by
  intro premises
  induction premises with
  | nil =>
    intro ir hext ops ir' h
    simp only [planDeltasForRule] at h
    cases h
    exact ⟨DeltaPlansAre.nil _, hext⟩
  | cons pr rest ih =>
    intro ir hext ops ir' h
    have hget : ir.get pr = ir0.get pr := get_congr_of_insts hext.1 pr
    simp only [planDeltasForRule] at h
    rw [hget] at h
    rw [List.filterMap_cons]
    split at h
    · rename_i predicate args heqa0
      have hrange : predicate < ir0.name_store.length := get_atom_range hwf heqa0
      have hres : ir.resolve_name predicate = ir0.resolve_name predicate :=
        resolve_name_ext hext hrange
      split at h
      · rename_i hmem
        rw [hres] at hmem
        rw [if_pos hmem]
        split at h
        · cases h
        · rename_i op ir1 heqp
          split at h
          · cases h
          · rename_i ops2 ir2 heqr
            cases h
            have hext1 : irExt ir0 ir1 :=
              irExt_trans hext (plan_rule_ext fuel (some predicate) rid ir (op, ir1) heqp)
            obtain ⟨hd, hext2⟩ := ih ir1 hext1 _ _ heqr
            exact ⟨DeltaPlansAre.cons heqp hd, hext2⟩
      · rename_i hmem
        rw [hres] at hmem
        rw [if_neg hmem]
        exact ih ir hext ops ir' h
    · rename_i hne
      exact ih ir hext ops ir' h

theorem planDeltas_pairs (fuel : Nat) (names : List String) (ir0 : Ir)
    (hwf : atomPredsInRangeB ir0 = true) :
    ∀ (rids : List InstId) (ir : Ir), irExt ir0 ir →
      ∀ (ops : List Op) (ir' : Ir),
        planDeltas fuel names rids ir = Except.ok (ops, ir') →
        DeltaPlansAre fuel ir (recursiveOccurrences ir0 names rids) ops ir' ∧
          irExt ir0 ir' := by
  intro rids
  induction rids with
  | nil =>
    intro ir hext ops ir' h
    simp only [planDeltas] at h
    cases h
    exact ⟨DeltaPlansAre.nil _, hext⟩
  | cons rid rest ih =>
    intro ir hext ops ir' h
    have hget : ir.get rid = ir0.get rid := get_congr_of_insts hext.1 rid
    simp only [planDeltas] at h
    rw [hget] at h
    unfold recursiveOccurrences
    rw [List.flatMap_cons]
    split at h
    · rename_i hd premises tr heqr0
      split at h
      · cases h
      · rename_i ops1 ir1 heq1
        split at h
        · cases h
        · rename_i ops2 ir2 heq2
          cases h
          obtain ⟨d1, hext1⟩ :=
            planDeltasForRule_pairs fuel names rid ir0 hwf premises ir hext ops1 ir1 heq1
          obtain ⟨d2, hext2⟩ := ih ir1 hext1 _ _ heq2
          rw [show (recursiveOccurrences ir0 names rest) =
              rest.flatMap
                (fun rid =>
                  match ir0.get rid with
                  | Inst.rule _ premises _ =>
                    premises.filterMap
                      (fun pr =>
                        match ir0.get pr with
                        | Inst.atom predicate _ =>
                          if ir0.resolve_name predicate ∈ names then
                            some (rid, predicate)
                          else none
                        | _ => none)
                  | _ => []) from rfl] at d2
          exact ⟨DeltaPlansAre_append d1 d2, hext2⟩
    · rename_i hne
      exact ih ir hext ops ir' h

/-- Claim C4 (corrected; amended claim): for a recursive stratum the
delta plans are exactly one `plan_rule` invocation per `(rule, positive
atom premise occurrence over a stratum predicate)` — the occurrence's
predicate configured as the delta predicate — so a predicate occurring
twice in one rule yields two delta plans, and the number of plans
equals the number of occurrences, not the number of `(rule, predicate)`
pairs.  (Inside each such plan a premise reads through `ScanDelta` iff
it has no index-candidate argument and its predicate is the delta
predicate — see the C7 theorem — so a delta plan can have zero or
several `ScanDelta` sources; see the counterexample for both.) -/
theorem execute_delta_plans_per_occurrence (fuel : Nat) (names : List String)
    (rids : List InstId) (ir : Ir) (ops : List Op) (ir' : Ir)
    (hwf : atomPredsInRangeB ir = true)
    (h : planDeltas fuel names rids ir = Except.ok (ops, ir')) :
    DeltaPlansAre fuel ir (recursiveOccurrences ir names rids) ops ir' ∧
      ops.length = (recursiveOccurrences ir names rids).length := by
  obtain ⟨d, _⟩ := planDeltas_pairs fuel names ir hwf rids ir (irExt_refl ir) ops ir' h
  exact ⟨d, DeltaPlansAre_length d⟩

/-- A one-rule recursive program `p(X) :- p(X)` in IR form, for the
witness. -/
def c4WitIr : Ir :=
  ⟨[Inst.var 0, Inst.atom 1 [0], Inst.atom 1 [0], Inst.rule 1 [2] []],
    ["X", "p"], []⟩

theorem execute_delta_plans_per_occurrence_witness :
    DeltaPlansAre 8 c4WitIr (recursiveOccurrences c4WitIr ["p"] [3])
        [Op.iterate (DataSource.scanDelta 1 [0]) (Op.insertOp 1 [Operand.varOp 0])]
        c4WitIr ∧
      [Op.iterate (DataSource.scanDelta 1 [0])
          (Op.insertOp 1 [Operand.varOp 0])].length =
        (recursiveOccurrences c4WitIr ["p"] [3]).length :=
  execute_delta_plans_per_occurrence 8 ["p"] [3] c4WitIr
    [Op.iterate (DataSource.scanDelta 1 [0]) (Op.insertOp 1 [Operand.varOp 0])]
    c4WitIr (by decide) rfl

/-- `ScanDelta` sources of a data source / plan. -/
def countScanDeltaSrc : DataSource → Nat
  | DataSource.scanDelta _ _ => 1
  | _ => 0

def countScanDelta : Nat → Op → Nat
  | 0, _ => 0
  | fuel + 1, op =>
    match op with
    | Op.nop => 0
    | Op.seq ops => ops.foldl (fun n o => n + countScanDelta fuel o) 0
    | Op.iterate source body => countScanDeltaSrc source + countScanDelta fuel body
    | Op.filter _ body => countScanDelta fuel body
    | Op.insertOp _ _ => 0
    | Op.letOp _ _ body => countScanDelta fuel body
    | Op.groupBy _ _ _ _ body => countScanDelta fuel body

def dedupPairs (l : List (InstId × NameId)) : List (InstId × NameId) :=
  l.foldl (fun acc p => if p ∈ acc then acc else acc ++ [p]) []

/-- For the C1 program's recursive stratum: the number of distinct
`(rule, recursive-premise-predicate)` pairs, the number of delta plans
built, and each delta plan's count of `ScanDelta` sources. -/
def c4Observed : Option (Nat × Nat × List Nat) :=
  match compile 32 c1Arena c1Unit with
  | Except.error _ => none
  | Except.ok (arena, ir, _, strata) =>
    match planStrata 32 arena strata ir with
    | Except.error _ => none
    | Except.ok (plans, _) =>
      match strata, plans with
      | [stratum], [some (StratumPlan.recursive _ delta_plans)] =>
        let names := stratumPredNames arena stratum
        let rids := ruleIds ir names
        some ((dedupPairs (recursiveOccurrences ir names rids)).length,
          delta_plans.length, delta_plans.map (countScanDelta 32))
      | _, _ => none

/-- Counterexample for C4 as stated: on the C1 program there are 3
distinct `(rule, recursive-premise-predicate)` pairs but 4 delta plans
(the rule `q(X, Y) :- p(X), p(Y)` is planned twice for the pair with
`p`), and the per-plan `ScanDelta` counts are 0, 2, 2 and 0 — no delta
plan has "exactly one premise reading through ScanDelta". -/
theorem c4Counterexample : c4Observed = some (3, 4, [0, 2, 2, 0]) := rfl

/-! ## Correctness of `sccs` and `stratify` (claims C2 and C3)

Graph-theoretic notions over the dependency graph: an edge is an entry
of a node's edge map, reachability its reflexive-transitive closure,
and a strongly connected component an equivalence class of mutual
reachability.  The development below proves that the Kosaraju
implementation (`visit`/`rvisit`/`popLoop`) computes exactly these
classes, that the error check of `stratify` fires precisely on a
negative edge inside one class, and that `sort_result` orders the
classes topologically. -/

/-- A graph edge: `b` appears in `a`'s edge map. -/
def Edge (g : DepGraph) (a b : PredicateIndex) : Prop :=
  ∃ e ∈ edgesOf g a, e.1 = b

/-- Reachability along edges. -/
def Reach (g : DepGraph) : PredicateIndex → PredicateIndex → Prop :=
  Relation.ReflTransGen (Edge g)

/-- Mutual reachability: the SCC equivalence. -/
def MutReach (g : DepGraph) (a b : PredicateIndex) : Prop :=
  Reach g a b ∧ Reach g b a

/-- A negative edge of the dependency graph. -/
def NegEdge (g : DepGraph) (a b : PredicateIndex) : Prop :=
  edgeLabel g a b = some true

/-- Restricted reachability: each step's target avoids `avoid`. -/
def RReach (g : DepGraph) (avoid : List PredicateIndex) :
    PredicateIndex → PredicateIndex → Prop :=
  Relation.ReflTransGen (fun a b => Edge g a b ∧ b ∉ avoid)

/-- All nodes of the graph, with multiplicity: every key and every
edge target. -/
def nodesList (g : DepGraph) : List PredicateIndex :=
  g.flatMap (fun p => p.1 :: p.2.map Prod.fst)

theorem reach_trans {g : DepGraph} {a b c : PredicateIndex}
    (h1 : Reach g a b) (h2 : Reach g b c) : Reach g a c :=
  Relation.ReflTransGen.trans h1 h2

theorem reach_of_edge {g : DepGraph} {a b : PredicateIndex} (h : Edge g a b) :
    Reach g a b :=
  Relation.ReflTransGen.single h

theorem mutReach_refl (g : DepGraph) (a : PredicateIndex) : MutReach g a a :=
  ⟨Relation.ReflTransGen.refl, Relation.ReflTransGen.refl⟩

theorem mutReach_symm {g : DepGraph} {a b : PredicateIndex}
    (h : MutReach g a b) : MutReach g b a :=
  ⟨h.2, h.1⟩

theorem mutReach_trans {g : DepGraph} {a b c : PredicateIndex}
    (h1 : MutReach g a b) (h2 : MutReach g b c) : MutReach g a c :=
  ⟨reach_trans h1.1 h2.1, reach_trans h2.2 h1.2⟩

theorem rreach_reach {g : DepGraph} {avoid : List PredicateIndex}
    {a b : PredicateIndex} (h : RReach g avoid a b) : Reach g a b := by
  induction h with
  | refl => exact Relation.ReflTransGen.refl
  | tail _ hstep ih => exact Relation.ReflTransGen.tail ih hstep.1

theorem alGet_mem {K V : Type} [DecidableEq K] :
    ∀ {m : List (K × V)} {k : K} {v : V}, alGet m k = some v → (k, v) ∈ m := by
  intro m
  induction m with
  | nil => intro k v h; cases h
  | cons p rest ih =>
    intro k v h
    obtain ⟨pk, pv⟩ := p
    unfold alGet at h
    by_cases hk : pk = k
    · rw [if_pos hk] at h
      cases h
      subst hk
      exact List.mem_cons_self _ _
    · rw [if_neg hk] at h
      exact List.mem_cons_of_mem _ (ih h)

theorem alGet_isSome_iff {K V : Type} [DecidableEq K] :
    ∀ {m : List (K × V)} {k : K},
      (alGet m k).isSome = true ↔ ∃ e ∈ m, e.1 = k := by
  intro m
  induction m with
  | nil => intro k; simp [alGet]
  | cons p rest ih =>
    intro k
    obtain ⟨pk, pv⟩ := p
    unfold alGet
    by_cases hk : pk = k
    · rw [if_pos hk]
      subst hk
      simp
    · rw [if_neg hk]
      rw [ih]
      constructor
      · rintro ⟨e, he, hek⟩
        exact ⟨e, List.mem_cons_of_mem _ he, hek⟩
      · rintro ⟨e, he, hek⟩
        rcases List.mem_cons.mp he with he | he
        · subst he; exact absurd hek hk
        · exact ⟨e, he, hek⟩

/-- An edge source is a key of the map. -/
theorem edge_src_isSome {g : DepGraph} {a b : PredicateIndex}
    (h : Edge g a b) : (alGet g a).isSome = true := by
  obtain ⟨e, he, _⟩ := h
  unfold edgesOf at he
  cases hg : alGet g a with
  | none => rw [hg] at he; cases he
  | some em => rfl

theorem key_mem_nodesList {g : DepGraph} {a : PredicateIndex}
    (h : (alGet g a).isSome = true) : a ∈ nodesList g := by
  obtain ⟨em, hem⟩ := Option.isSome_iff_exists.mp h
  have := alGet_mem hem
  unfold nodesList
  exact List.mem_flatMap.mpr ⟨(a, em), this, List.mem_cons_self _ _⟩

theorem edge_tgt_mem_nodesList {g : DepGraph} {a b : PredicateIndex}
    (h : Edge g a b) : b ∈ nodesList g := by
  obtain ⟨e, he, heb⟩ := h
  unfold edgesOf at he
  cases hg : alGet g a with
  | none => rw [hg] at he; cases he
  | some em =>
    rw [hg] at he
    have hmem := alGet_mem hg
    unfold nodesList
    refine List.mem_flatMap.mpr ⟨(a, em), hmem, ?_⟩
    exact List.mem_cons_of_mem _ (heb ▸ List.mem_map_of_mem Prod.fst he)

/-- Unseen-node count, the fuel measure of the DFS. -/
def unseenCount (g : DepGraph) (seen : List PredicateIndex) : Nat :=
  ((nodesList g).filter (fun x => x ∉ seen)).length

theorem unseenCount_mono {g : DepGraph} {seen seen' : List PredicateIndex}
    (h : ∀ x ∈ seen, x ∈ seen') : unseenCount g seen' ≤ unseenCount g seen := by
  unfold unseenCount
  induction nodesList g with
  | nil => simp
  | cons a l ih =>
    simp only [List.filter_cons]
    by_cases ha' : a ∈ seen'
    · have ha : (decide (a ∉ seen') : Bool) = false := by simp [ha']
      rw [ha]
      by_cases hb : a ∈ seen
      · have : (decide (a ∉ seen) : Bool) = false := by simp [hb]
        rw [this]
        exact ih
      · have : (decide (a ∉ seen) : Bool) = true := by simp [hb]
        rw [this]
        exact Nat.le_succ_of_le ih
    · have ha : (decide (a ∉ seen') : Bool) = true := by simp [ha']
      have hb : a ∉ seen := fun hc => ha' (h a hc)
      have hb' : (decide (a ∉ seen) : Bool) = true := by simp [hb]
      rw [ha, hb']
      simpa using ih

theorem filter_notmem_append_le {α : Type} [DecidableEq α] (seen : List α)
    (node : α) :
    ∀ l : List α,
      (l.filter (fun x => x ∉ seen ++ [node])).length ≤
        (l.filter (fun x => x ∉ seen)).length := by
  intro l
  induction l with
  | nil => simp
  | cons a l ih =>
    simp only [List.filter_cons]
    by_cases hc : a ∈ seen
    · have h1 : (decide (a ∉ seen ++ [node]) : Bool) = false := by
        simp [List.mem_append_left _ hc]
      have h2 : (decide (a ∉ seen) : Bool) = false := by simp [hc]
      rw [h1, h2]
      exact ih
    · have h2 : (decide (a ∉ seen) : Bool) = true := by simp [hc]
      rw [h2]
      by_cases hd : a = node
      · have h1 : (decide (a ∉ seen ++ [node]) : Bool) = false := by simp [hd]
        rw [h1]
        exact Nat.le_succ_of_le ih
      · have h1 : (decide (a ∉ seen ++ [node]) : Bool) = true := by simp [hc, hd]
        rw [h1]
        simpa using ih

/-- The running invariant of the phase-1 DFS.  `G` is the (ghost) list
of grey nodes: discovered but not yet finished. -/
structure Inv (g : DepGraph) (s seen G : List PredicateIndex) : Prop where
  nodup : s.Nodup
  seen_nodup : seen.Nodup
  seen_eq : ∀ x, x ∈ seen ↔ x ∈ s ∨ x ∈ G
  grey_not_s : ∀ x ∈ G, x ∉ s
  clos : ∀ u ∈ s, ∀ v, Edge g u v → v ∈ seen
  snodes : ∀ x ∈ seen, x ∈ nodesList g

/-- The footprint of the DFS call that discovered `d`: entry stack
`s0` and entry seen-set `seen0`; `t` are the nodes finished during the
call (`tseen` the same set in discovery order), and `d` itself is
pushed last.  Everything reachable from `d` avoiding `seen0` is
discovered inside the call, and everything discovered inside is
reachable from `d`. -/
def CallFact (g : DepGraph) (sF seenF : List PredicateIndex)
    (d : PredicateIndex) : Prop :=
  ∃ s0 seen0 t tseen,
    (∃ r, sF = s0 ++ t ++ [d] ++ r) ∧
    (∃ r, seenF = seen0 ++ [d] ++ tseen ++ r) ∧
    d ∉ seen0 ∧
    (∀ x ∈ s0, x ∈ seen0) ∧
    (∀ x, x ∈ t ↔ x ∈ tseen) ∧
    (∀ y, RReach g seen0 d y → y = d ∨ y ∈ tseen) ∧
    (∀ y ∈ tseen, Reach g d y)

theorem callFact_lift {g : DepGraph} {s1 seen1 s2 seen2 : List PredicateIndex}
    {d : PredicateIndex} (h : CallFact g s1 seen1 d)
    (hs : ∃ r, s2 = s1 ++ r) (hseen : ∃ r, seen2 = seen1 ++ r) :
    CallFact g s2 seen2 d := by
  obtain ⟨s0, seen0, t, tseen, ⟨r1, hr1⟩, ⟨r2, hr2⟩, rest⟩ := h
  obtain ⟨q1, hq1⟩ := hs
  obtain ⟨q2, hq2⟩ := hseen
  exact ⟨s0, seen0, t, tseen, ⟨r1 ++ q1, by rw [hq1, hr1]; simp⟩,
    ⟨r2 ++ q2, by rw [hq2, hr2]; simp⟩, rest⟩

theorem unseenCount_lt {g : DepGraph} {seen : List PredicateIndex}
    {node : PredicateIndex} (hmem : node ∈ nodesList g) (hnew : node ∉ seen) :
    unseenCount g (seen ++ [node]) < unseenCount g seen := by
  unfold unseenCount
  have main : ∀ l : List PredicateIndex, node ∈ l →
      (l.filter (fun x => x ∉ seen ++ [node])).length <
        (l.filter (fun x => x ∉ seen)).length := by
    intro l
    induction l with
    | nil => intro h; cases h
    | cons a l ih =>
      intro hmem2
      simp only [List.filter_cons]
      rcases List.mem_cons.mp hmem2 with ha | ha
      · have h1 : (decide (a ∉ seen ++ [node]) : Bool) = false := by
          simp [← ha]
        have h2 : (decide (a ∉ seen) : Bool) = true := by
          rw [← ha]; simp [hnew]
        rw [h1, h2]
        exact Nat.lt_succ_of_le (filter_notmem_append_le seen node l)
      · by_cases hc : a ∈ seen
        · have h1 : (decide (a ∉ seen ++ [node]) : Bool) = false := by
            simp [List.mem_append_left _ hc]
          have h2 : (decide (a ∉ seen) : Bool) = false := by simp [hc]
          rw [h1, h2]
          exact ih ha
        · by_cases hd : a = node
          · have h1 : (decide (a ∉ seen ++ [node]) : Bool) = false := by
              simp [hd]
            have h2 : (decide (a ∉ seen) : Bool) = true := by simp [hc]
            rw [h1, h2]
            exact Nat.lt_succ_of_le (Nat.le_of_lt (ih ha))
          · have h1 : (decide (a ∉ seen ++ [node]) : Bool) = true := by
              simp [hc, hd]
            have h2 : (decide (a ∉ seen) : Bool) = true := by simp [hc]
            rw [h1, h2]
            simpa using ih ha
  exact main (nodesList g) hmem

/-- The specification of the phase-1 DFS `visit`: the stack and seen
set only grow, the invariant is preserved (with the same grey list),
the node is marked, new nodes are reachable from it, and every newly
discovered node carries a `CallFact`. -/
theorem visit_spec (g : DepGraph) :
    ∀ (fuel : Nat) (node : PredicateIndex) (s seen G : List PredicateIndex),
      unseenCount g seen < fuel →
      node ∈ nodesList g →
      Inv g s seen G →
      (∀ x ∈ G, Reach g x node) →
      ∃ s' seen', visit g fuel node (s, seen) = (s', seen') ∧
        (∃ t, s' = s ++ t) ∧
        (∃ t, seen' = seen ++ t) ∧
        node ∈ seen' ∧
        Inv g s' seen' G ∧
        (∀ x ∈ seen', x ∉ seen → Reach g node x) ∧
        (∀ d ∈ seen', d ∉ seen → CallFact g s' seen' d) := by
  intro fuel
  induction fuel with
  | zero =>
    intro node s seen G hfuel
    exact absurd hfuel (Nat.not_lt_zero _)
  | succ fuel ih =>
    intro node s seen G hfuel hnode hInv hG
    by_cases hseen : node ∈ seen
    · refine ⟨s, seen, by simp [visit, hseen], ⟨[], by simp⟩, ⟨[], by simp⟩,
        hseen, hInv, ?_, ?_⟩
      · intro x hx hx2; exact absurd hx hx2
      · intro d hd hd2; exact absurd hd hd2
    · -- the discovery branch
      have hnodeG : node ∉ G := fun hc => hseen ((hInv.seen_eq node).mpr (Or.inr hc))
      have hInv1 : Inv g s (seen ++ [node]) (G ++ [node]) := by
        refine ⟨hInv.nodup, ?_, ?_, ?_, ?_, ?_⟩
        · rw [List.nodup_append]
          exact ⟨hInv.seen_nodup, List.nodup_singleton _,
            fun x hx hx2 => hseen ((List.mem_singleton.mp hx2) ▸ hx)⟩
        · intro x
          constructor
          · intro hx
            rcases List.mem_append.mp hx with hx | hx
            · rcases (hInv.seen_eq x).mp hx with hx | hx
              · exact Or.inl hx
              · exact Or.inr (List.mem_append_left _ hx)
            · exact Or.inr (List.mem_append_right _ hx)
          · intro hx
            rcases hx with hx | hx
            · exact List.mem_append_left _ ((hInv.seen_eq x).mpr (Or.inl hx))
            · rcases List.mem_append.mp hx with hx | hx
              · exact List.mem_append_left _ ((hInv.seen_eq x).mpr (Or.inr hx))
              · exact List.mem_append_right _ hx
        · intro x hx
          rcases List.mem_append.mp hx with hx | hx
          · exact hInv.grey_not_s x hx
          · rw [List.mem_singleton.mp hx]
            exact fun hc => hseen ((hInv.seen_eq node).mpr (Or.inl hc))
        · intro u hu v hv
          exact List.mem_append_left _ (hInv.clos u hu v hv)
        · intro x hx
          rcases List.mem_append.mp hx with hx | hx
          · exact hInv.snodes x hx
          · rw [List.mem_singleton.mp hx]; exact hnode
      have hfuel1 : unseenCount g (seen ++ [node]) < fuel := by
        have hd := unseenCount_lt hnode hseen
        omega
      -- the fold over the node's edges
      have fold_spec :
          ∀ (l : List (PredicateIndex × Bool)) (s1 seen1 : List PredicateIndex),
            (∀ e ∈ l, e ∈ edgesOf g node) →
            unseenCount g seen1 < fuel →
            Inv g s1 seen1 (G ++ [node]) →
            ∃ s2 seen2,
              l.foldl (fun ss q => visit g fuel q.1 ss) (s1, seen1) = (s2, seen2) ∧
              (∃ t, s2 = s1 ++ t) ∧
              (∃ t, seen2 = seen1 ++ t) ∧
              Inv g s2 seen2 (G ++ [node]) ∧
              (∀ e ∈ l, e.1 ∈ seen2) ∧
              (∀ x ∈ seen2, x ∉ seen1 → Reach g node x) ∧
              (∀ d ∈ seen2, d ∉ seen1 → CallFact g s2 seen2 d) := by
        intro l
        induction l with
        | nil =>
          intro s1 seen1 hl hf hI
          exact ⟨s1, seen1, rfl, ⟨[], by simp⟩, ⟨[], by simp⟩, hI,
            fun e he => absurd he (List.not_mem_nil e),
            fun x hx hx2 => absurd hx hx2,
            fun d hd hd2 => absurd hd hd2⟩
        | cons e l' ihl =>
          intro s1 seen1 hl hf hI
          have hedge : Edge g node e.1 := ⟨e, hl e (List.mem_cons_self _ _), rfl⟩
          have hGe : ∀ x ∈ G ++ [node], Reach g x e.1 := by
            intro x hx
            rcases List.mem_append.mp hx with hx | hx
            · exact Relation.ReflTransGen.tail (hG x hx) hedge
            · rw [List.mem_singleton.mp hx]
              exact reach_of_edge hedge
          obtain ⟨sm, seenm, heqm, ⟨tm, htm⟩, ⟨tm2, htm2⟩, hmark, hIm, hreachm, hcallm⟩ :=
            ih e.1 s1 seen1 (G ++ [node]) hf (edge_tgt_mem_nodesList hedge) hI hGe
          have hfm : unseenCount g seenm < fuel :=
            Nat.lt_of_le_of_lt
              (unseenCount_mono (by intro x hx; rw [htm2]; exact List.mem_append_left _ hx))
              hf
          obtain ⟨s2, seen2, heq2, ⟨t2, ht2⟩, ⟨t22, ht22⟩, hI2, hproc2, hreach2, hcall2⟩ :=
            ihl sm seenm (fun e2 he2 => hl e2 (List.mem_cons_of_mem _ he2)) hfm hIm
          refine ⟨s2, seen2, ?_, ?_, ?_, hI2, ?_, ?_, ?_⟩
          · rw [List.foldl_cons, heqm, heq2]
          · exact ⟨tm ++ t2, by rw [ht2, htm, List.append_assoc]⟩
          · exact ⟨tm2 ++ t22, by rw [ht22, htm2, List.append_assoc]⟩
          · intro e2 he2
            rcases List.mem_cons.mp he2 with he2 | he2
            · rw [he2]
              rw [ht22]
              exact List.mem_append_left _ hmark
            · exact hproc2 e2 he2
          · intro x hx hx1
            by_cases hxm : x ∈ seenm
            · exact Relation.ReflTransGen.trans (reach_of_edge hedge) (hreachm x hxm hx1)
            · exact hreach2 x hx hxm
          · intro d hd hd1
            by_cases hdm : d ∈ seenm
            · exact callFact_lift (hcallm d hdm hd1) ⟨t2, ht2⟩ ⟨t22, ht22⟩
            · exact hcall2 d hd hdm
      obtain ⟨s2, seen2, heqf, ⟨ts, hts⟩, ⟨t2, ht2⟩, hIf, hproc, hreachf, hcallf⟩ :=
        fold_spec (edgesOf g node) s (seen ++ [node]) (fun e he => he) hfuel1 hInv1
      have hvisit : visit g (fuel + 1) node (s, seen) = (s2 ++ [node], seen2) := by
        show (if node ∈ seen then (s, seen)
          else
            let p := (edgesOf g node).foldl (fun ss q => visit g fuel q.1 ss)
              (s, seen ++ [node])
            (p.1 ++ [node], p.2)) = (s2 ++ [node], seen2)
        rw [if_neg hseen, heqf]
      have hnode_not_s2 : node ∉ s2 :=
        hIf.grey_not_s node (List.mem_append_right _ (List.mem_singleton_self _))
      have hsub_seen : ∀ x ∈ seen, x ∈ seen2 := by
        intro x hx
        rw [ht2]
        exact List.mem_append_left _ (List.mem_append_left _ hx)
      have hmarked : node ∈ seen2 := by
        rw [ht2]
        exact List.mem_append_left _ (List.mem_append_right _ (List.mem_singleton_self _))
      have hInvOut : Inv g (s2 ++ [node]) seen2 G := by
        refine ⟨?_, hIf.seen_nodup, ?_, ?_, ?_, hIf.snodes⟩
        · rw [List.nodup_append]
          exact ⟨hIf.nodup, List.nodup_singleton _,
            fun x hx hx2 => (List.mem_singleton.mp hx2 ▸ hnode_not_s2) hx⟩
        · intro x
          constructor
          · intro hx
            rcases (hIf.seen_eq x).mp hx with hx | hx
            · exact Or.inl (List.mem_append_left _ hx)
            · rcases List.mem_append.mp hx with hx | hx
              · exact Or.inr hx
              · exact Or.inl (List.mem_append_right _ hx)
          · intro hx
            rcases hx with hx | hx
            · rcases List.mem_append.mp hx with hx | hx
              · exact (hIf.seen_eq x).mpr (Or.inl hx)
              · exact (hIf.seen_eq x).mpr (Or.inr (List.mem_append_right _ hx))
            · exact (hIf.seen_eq x).mpr (Or.inr (List.mem_append_left _ hx))
        · intro x hx
          have hxn : x ≠ node := by
            intro hc
            exact hnodeG (hc ▸ hx)
          intro hc
          rcases List.mem_append.mp hc with hc | hc
          · exact hIf.grey_not_s x (List.mem_append_left _ hx) hc
          · exact hxn (List.mem_singleton.mp hc)
        · intro u hu v hv
          rcases List.mem_append.mp hu with hu | hu
          · exact hIf.clos u hu v hv
          · rw [List.mem_singleton.mp hu] at hv
            obtain ⟨e, he, heb⟩ := hv
            exact heb ▸ hproc e he
      -- the white-path property of this call
      have hwp : ∀ y, RReach g seen node y → y ∈ seen2 ∧ (y = node ∨ y ∉ seen) := by
        intro y hy
        unfold RReach at hy
        induction hy with
        | refl => exact ⟨hmarked, Or.inl rfl⟩
        | tail hxy hstep ihp =>
          rename_i x y'
          obtain ⟨hx2, hxcase⟩ := ihp
          refine ⟨?_, Or.inr hstep.2⟩
          by_cases hxn : x = node
          · subst hxn
            obtain ⟨e, he, heb⟩ := hstep.1
            exact heb ▸ hproc e he
          · have hxs : x ∉ seen := by
              rcases hxcase with h | h
              · exact absurd h hxn
              · exact h
            have hxs2 : x ∈ s2 := by
              rcases (hIf.seen_eq x).mp hx2 with h | h
              · exact h
              · rcases List.mem_append.mp h with h | h
                · exact absurd ((hInv.seen_eq x).mpr (Or.inr h)) hxs
                · exact absurd (List.mem_singleton.mp h) hxn
            exact hIf.clos x hxs2 y' hstep.1
      -- the set equality between finishes and discoveries of this call
      have hdisj_s2 : ∀ x ∈ ts, x ∈ t2 := by
        intro x hx
        have hxs2 : x ∈ s2 := by rw [hts]; exact List.mem_append_right _ hx
        have hx2 : x ∈ seen2 := (hIf.seen_eq x).mpr (Or.inl hxs2)
        rw [ht2] at hx2
        rcases List.mem_append.mp hx2 with h | h
        · rcases List.mem_append.mp h with h | h
          · -- x ∈ seen: then x ∈ s ∨ x ∈ G, both impossible
            rcases (hInv.seen_eq x).mp h with h2 | h2
            · have := hIf.nodup
              rw [hts] at this
              rcases List.nodup_append.mp this with ⟨_, _, hdisj⟩
              exact absurd hx (hdisj h2)
            · exact absurd hxs2 (hIf.grey_not_s x (List.mem_append_left _ h2))
          · exact absurd hxs2 (List.mem_singleton.mp h ▸ hnode_not_s2)
        · exact h
      have hdisj_t2 : ∀ x ∈ t2, x ∈ ts := by
        intro x hx
        have hx2 : x ∈ seen2 := by
          rw [ht2]; exact List.mem_append_right _ hx
        have hnd := hIf.seen_nodup
        rw [ht2] at hnd
        rcases List.nodup_append.mp hnd with ⟨hnd1, _, hdisj⟩
        have hxnotseen1 : x ∉ seen ++ [node] := fun hc => hdisj hc hx
        rcases (hIf.seen_eq x).mp hx2 with h | h
        · rw [hts] at h
          rcases List.mem_append.mp h with h | h
          · exact absurd
              (List.mem_append_left _ ((hInv.seen_eq x).mpr (Or.inl h))) hxnotseen1
          · exact h
        · rcases List.mem_append.mp h with h | h
          · exact absurd
              (List.mem_append_left _ ((hInv.seen_eq x).mpr (Or.inr h))) hxnotseen1
          · exact absurd (List.mem_append_right _ h) hxnotseen1
      refine ⟨s2 ++ [node], seen2, hvisit, ⟨ts ++ [node], by rw [hts, List.append_assoc]⟩,
        ⟨[node] ++ t2, by rw [ht2, List.append_assoc]⟩, hmarked, hInvOut, ?_, ?_⟩
      · intro x hx hx2
        by_cases hxn : x = node
        · exact hxn ▸ Relation.ReflTransGen.refl
        · refine hreachf x hx ?_
          intro hc
          rcases List.mem_append.mp hc with hc | hc
          · exact hx2 hc
          · exact hxn (List.mem_singleton.mp hc)
      · intro d hd hd2
        by_cases hdn : d = node
        · subst hdn
          refine ⟨s, seen, ts, t2, ⟨[], by rw [hts]; simp⟩,
            ⟨[], by rw [ht2]; simp⟩, hseen, ?_, ?_, ?_, ?_⟩
          · intro x hx
            exact (hInv.seen_eq x).mpr (Or.inl hx)
          · intro x
            exact ⟨hdisj_s2 x, hdisj_t2 x⟩
          · intro y hy
            obtain ⟨hy2, hycase⟩ := hwp y hy
            rcases hycase with h | h
            · exact Or.inl h
            · rw [ht2] at hy2
              rcases List.mem_append.mp hy2 with h2 | h2
              · rcases List.mem_append.mp h2 with h2 | h2
                · exact absurd h2 h
                · exact Or.inl (List.mem_singleton.mp h2)
              · exact Or.inr h2
          · intro y hy
            have hy2 : y ∈ seen2 := by rw [ht2]; exact List.mem_append_right _ hy
            have hynot : y ∉ seen ++ [d] := by
              have hnd := hIf.seen_nodup
              rw [ht2] at hnd
              rcases List.nodup_append.mp hnd with ⟨_, _, hdisj⟩
              exact fun hc => hdisj hc hy
            exact hreachf y hy2 hynot
        · refine callFact_lift (hcallf d ?_ ?_) ⟨[node], rfl⟩ ⟨[], by simp⟩
          · exact hd
          · intro hc
            rcases List.mem_append.mp hc with hc | hc
            · exact hd2 hc
            · exact hdn (List.mem_singleton.mp hc)

/-- The spec of the whole phase-1 pass: the stack `sF` is duplicate
free, contains every key and is closed under edges, the seen set
equals it, and every element carries a `CallFact`. -/
theorem phase1_fold (g : DepGraph) (fuel : Nat) :
    ∀ (l : List (PredicateIndex × EdgeMap)) (s1 seen1 : List PredicateIndex),
      (∀ e ∈ l, e ∈ g) →
      unseenCount g seen1 < fuel →
      Inv g s1 seen1 [] →
      ∃ s2 seen2,
        l.foldl (fun ss e => visit g fuel e.1 ss) (s1, seen1) = (s2, seen2) ∧
        (∃ t, s2 = s1 ++ t) ∧
        (∃ t, seen2 = seen1 ++ t) ∧
        Inv g s2 seen2 [] ∧
        (∀ e ∈ l, e.1 ∈ seen2) ∧
        (∀ d ∈ seen2, d ∉ seen1 → CallFact g s2 seen2 d) := by
  intro l
  induction l with
  | nil =>
    intro s1 seen1 hl hf hI
    exact ⟨s1, seen1, rfl, ⟨[], by simp⟩, ⟨[], by simp⟩, hI,
      fun e he => absurd he (List.not_mem_nil e),
      fun d hd hd2 => absurd hd hd2⟩
  | cons e l' ihl =>
    intro s1 seen1 hl hf hI
    have hkey : e.1 ∈ nodesList g :=
      key_mem_nodesList (alGet_isSome_iff.mpr ⟨e, hl e (List.mem_cons_self _ _), rfl⟩)
    obtain ⟨sm, seenm, heqm, ⟨tm, htm⟩, ⟨tm2, htm2⟩, hmark, hIm, _, hcallm⟩ :=
      visit_spec g fuel e.1 s1 seen1 [] hf hkey hI (by intro x hx; cases hx)
    have hfm : unseenCount g seenm < fuel :=
      Nat.lt_of_le_of_lt
        (unseenCount_mono (by intro x hx; rw [htm2]; exact List.mem_append_left _ hx))
        hf
    obtain ⟨s2, seen2, heq2, ⟨t2, ht2⟩, ⟨t22, ht22⟩, hI2, hproc2, hcall2⟩ :=
      ihl sm seenm (fun e2 he2 => hl e2 (List.mem_cons_of_mem _ he2)) hfm hIm
    refine ⟨s2, seen2, ?_, ?_, ?_, hI2, ?_, ?_⟩
    · rw [List.foldl_cons, heqm, heq2]
    · exact ⟨tm ++ t2, by rw [ht2, htm, List.append_assoc]⟩
    · exact ⟨tm2 ++ t22, by rw [ht22, htm2, List.append_assoc]⟩
    · intro e2 he2
      rcases List.mem_cons.mp he2 with he2 | he2
      · rw [he2, ht22]
        exact List.mem_append_left _ hmark
      · exact hproc2 e2 he2
    · intro d hd hd1
      by_cases hdm : d ∈ seenm
      · exact callFact_lift (hcallm d hdm hd1) ⟨t2, ht2⟩ ⟨t22, ht22⟩
      · exact hcall2 d hd hdm

theorem inv_empty (g : DepGraph) : Inv g [] [] [] := by
  refine ⟨List.nodup_nil, List.nodup_nil, ?_, ?_, ?_, ?_⟩
  · intro x; simp
  · intro x hx; cases hx
  · intro u hu; cases hu
  · intro x hx; cases hx

/-- Edges are exactly the defined edge labels. -/
theorem edge_iff_label (h : DepGraph) (a b : PredicateIndex) :
    Edge h a b ↔ (edgeLabel h a b).isSome = true := by
  unfold Edge edgesOf edgeLabel
  cases hg : alGet h a with
  | none => simp
  | some em => simpa using (alGet_isSome_iff (m := em) (k := b)).symm

theorem reach_transpose_aux {h g : DepGraph}
    (hiff : ∀ a b, Edge h a b ↔ Edge g b a) {a b : PredicateIndex}
    (hr : Reach h a b) : Reach g b a := by
  induction hr with
  | refl => exact Relation.ReflTransGen.refl
  | tail _ hstep ihp =>
    exact Relation.ReflTransGen.head ((hiff _ _).mp hstep) ihp

/-! Key-uniqueness of association lists built by `alInsert`/`alUpdate`
 (the `DepGraph`s produced by `make_dep_graph` and `transpose`). -/

theorem mem_keys_alInsert {K V : Type} [DecidableEq K] :
    ∀ (m : List (K × V)) (k : K) (v : V) (x : K),
      x ∈ (alInsert m k v).map Prod.fst → x ∈ m.map Prod.fst ∨ x = k := by
  intro m
  induction m with
  | nil =>
    intro k v x hx
    simp only [alInsert, List.map_cons, List.map_nil] at hx
    exact Or.inr (by simpa using hx)
  | cons p rest ih =>
    intro k v x hx
    obtain ⟨pk, pv⟩ := p
    unfold alInsert at hx
    by_cases hk : pk = k
    · rw [if_pos hk] at hx
      simp only [List.map_cons] at hx
      rcases List.mem_cons.mp hx with hx | hx
      · exact Or.inl (by simp [hx])
      · exact Or.inl (List.mem_cons_of_mem _ hx)
    · rw [if_neg hk] at hx
      simp only [List.map_cons] at hx
      rcases List.mem_cons.mp hx with hx | hx
      · exact Or.inl (by simp [hx])
      · rcases ih k v x hx with h | h
        · exact Or.inl (List.mem_cons_of_mem _ h)
        · exact Or.inr h

theorem alInsert_keys_nodup {K V : Type} [DecidableEq K] :
    ∀ {m : List (K × V)} {k : K} {v : V},
      (m.map Prod.fst).Nodup → ((alInsert m k v).map Prod.fst).Nodup := by
  intro m
  induction m with
  | nil => intro k v _; simp [alInsert]
  | cons p rest ih =>
    intro k v hnd
    obtain ⟨pk, pv⟩ := p
    simp only [List.map_cons, List.nodup_cons] at hnd
    unfold alInsert
    by_cases hk : pk = k
    · rw [if_pos hk]
      simp only [List.map_cons, List.nodup_cons]
      exact hnd
    · rw [if_neg hk]
      simp only [List.map_cons, List.nodup_cons]
      refine ⟨?_, ih hnd.2⟩
      intro hc
      rcases mem_keys_alInsert rest k v pk hc with h | h
      · exact hnd.1 h
      · exact hk h

theorem mem_keys_alUpdate {K V : Type} [DecidableEq K] :
    ∀ (m : List (K × V)) (k : K) (d : V) (f : V → V) (x : K),
      x ∈ (alUpdate m k d f).map Prod.fst → x ∈ m.map Prod.fst ∨ x = k := by
  intro m
  induction m with
  | nil =>
    intro k d f x hx
    simp only [alUpdate, List.map_cons, List.map_nil] at hx
    exact Or.inr (by simpa using hx)
  | cons p rest ih =>
    intro k d f x hx
    obtain ⟨pk, pv⟩ := p
    unfold alUpdate at hx
    by_cases hk : pk = k
    · rw [if_pos hk] at hx
      simp only [List.map_cons] at hx
      rcases List.mem_cons.mp hx with hx | hx
      · exact Or.inl (by simp [hx])
      · exact Or.inl (List.mem_cons_of_mem _ hx)
    · rw [if_neg hk] at hx
      simp only [List.map_cons] at hx
      rcases List.mem_cons.mp hx with hx | hx
      · exact Or.inl (by simp [hx])
      · rcases ih k d f x hx with h | h
        · exact Or.inl (List.mem_cons_of_mem _ h)
        · exact Or.inr h

theorem alUpdate_keys_nodup {K V : Type} [DecidableEq K] :
    ∀ {m : List (K × V)} {k : K} {d : V} {f : V → V},
      (m.map Prod.fst).Nodup → ((alUpdate m k d f).map Prod.fst).Nodup := by
  intro m
  induction m with
  | nil => intro k d f _; simp [alUpdate]
  | cons p rest ih =>
    intro k d f hnd
    obtain ⟨pk, pv⟩ := p
    simp only [List.map_cons, List.nodup_cons] at hnd
    unfold alUpdate
    by_cases hk : pk = k
    · rw [if_pos hk]
      simp only [List.map_cons, List.nodup_cons]
      exact hnd
    · rw [if_neg hk]
      simp only [List.map_cons, List.nodup_cons]
      refine ⟨?_, ih hnd.2⟩
      intro hc
      rcases mem_keys_alUpdate rest k d f pk hc with h | h
      · exact hnd.1 h
      · exact hk h

theorem alGet_none_not_key {K V : Type} [DecidableEq K] {m : List (K × V)}
    {k : K} (h : alGet m k = none) : k ∉ m.map Prod.fst := by
  intro hc
  obtain ⟨e, he, hek⟩ := List.mem_map.mp hc
  have : (alGet m k).isSome = true := alGet_isSome_iff.mpr ⟨e, he, hek⟩
  rw [h] at this
  cases this

theorem init_node_keys_nodup {g : DepGraph} {src : PredicateIndex}
    (h : (g.map Prod.fst).Nodup) :
    ((init_node g src).map Prod.fst).Nodup := by
  unfold init_node alEntryOrDefault
  cases hg : alGet g src with
  | some _ => exact h
  | none =>
    rw [List.map_append]
    rw [List.nodup_append]
    refine ⟨h, by simp, ?_⟩
    intro x hx hx2
    simp only [List.map_cons, List.map_nil, List.mem_singleton] at hx2
    exact alGet_none_not_key hg (hx2 ▸ hx)

theorem add_edge_keys_nodup {g : DepGraph} {src dest : PredicateIndex}
    {negated : Bool} (h : (g.map Prod.fst).Nodup) :
    ((add_edge g src dest negated).map Prod.fst).Nodup :=
  alUpdate_keys_nodup h

theorem make_dep_graph_keys_nodup (prog : Program) :
    ((make_dep_graph prog).map Prod.fst).Nodup := by
  unfold make_dep_graph
  have hstep : ∀ (prem : List Term) (s : PredicateIndex) (c : Clause)
      (dep : DepGraph), (dep.map Prod.fst).Nodup →
      ((prem.foldl (depEdgesOfPremise prog s c) dep).map Prod.fst).Nodup := by
    intro prem
    induction prem with
    | nil => intro s c dep h; exact h
    | cons t rest ih =>
      intro s c dep h
      rw [List.foldl_cons]
      refine ih s c _ ?_
      unfold depEdgesOfPremise
      cases t with
      | atom a =>
        by_cases hext : a.sym ∈ prog.ext_preds
        · simpa [hext] using h
        · simp only [if_neg hext]
          cases clause0 : c.transform.head? with
          | none => exact add_edge_keys_nodup h
          | some t0 =>
            by_cases hv : t0.var.isSome <;> simp [hv] <;> exact add_edge_keys_nodup h
      | negAtom a =>
        by_cases hext : a.sym ∈ prog.ext_preds
        · simpa [hext] using h
        · simp only [if_neg hext]
          exact add_edge_keys_nodup h
      | eq l r => exact h
      | ineq l r => exact h
  have hclauses : ∀ (cs : List Clause) (s : PredicateIndex) (dep : DepGraph),
      (dep.map Prod.fst).Nodup →
      ((cs.foldl
          (fun dep clause => clause.premises.foldl (depEdgesOfPremise prog s clause) dep)
          dep).map Prod.fst).Nodup := by
    intro cs
    induction cs with
    | nil => intro s dep h; exact h
    | cons c rest ih =>
      intro s dep h
      rw [List.foldl_cons]
      exact ih s _ (hstep c.premises s c dep h)
  have hmain : ∀ (entries : List (PredicateIndex × List Clause)) (dep : DepGraph),
      (dep.map Prod.fst).Nodup →
      ((entries.foldl
          (fun dep p =>
            p.2.foldl
              (fun dep clause =>
                clause.premises.foldl (depEdgesOfPremise prog p.1 clause) dep)
              (init_node dep p.1))
          dep).map Prod.fst).Nodup := by
    intro entries
    induction entries with
    | nil => intro dep h; exact h
    | cons e rest ih =>
      intro dep h
      rw [List.foldl_cons]
      exact ih _ (hclauses e.2 e.1 _ (init_node_keys_nodup h))
  exact hmain prog.rules [] (by simp)

theorem alGet_eq_of_nodup {K V : Type} [DecidableEq K] :
    ∀ {m : List (K × V)}, (m.map Prod.fst).Nodup →
      ∀ {k : K} {v : V}, (k, v) ∈ m → alGet m k = some v := by
  intro m
  induction m with
  | nil => intro _ k v h; cases h
  | cons p rest ih =>
    intro hnd k v h
    obtain ⟨pk, pv⟩ := p
    simp only [List.map_cons, List.nodup_cons] at hnd
    rcases List.mem_cons.mp h with h | h
    · cases h
      unfold alGet
      rw [if_pos rfl]
    · unfold alGet
      by_cases hk : pk = k
      · subst hk
        exact absurd (List.mem_map.mpr ⟨(pk, v), h, rfl⟩) hnd.1
      · rw [if_neg hk]
        exact ih hnd.2 h

/-- The transposed graph's edges, by unwinding its construction. -/
theorem label_isSome_transpose_inner (src a b : PredicateIndex) :
    ∀ (em : EdgeMap) (rev : DepGraph),
      ((edgeLabel
          (em.foldl (fun rev e => add_edge (init_node rev e.1) e.1 src e.2) rev)
          a b).isSome = true) ↔
        ((edgeLabel rev a b).isSome = true ∨ (b = src ∧ ∃ e ∈ em, e.1 = a)) := by
  intro em
  induction em with
  | nil => intro rev; simp
  | cons e rest ih =>
    intro rev
    rw [List.foldl_cons, ih]
    rw [show edgeLabel (add_edge (init_node rev e.1) e.1 src e.2) a b =
        if e.1 = a ∧ src = b then
          some (e.2 || decide (edgeLabel (init_node rev e.1) e.1 src = some true))
        else edgeLabel (init_node rev e.1) a b from edgeLabel_add_edge _ _ _ _ _ _]
    by_cases h : e.1 = a ∧ src = b
    · rw [if_pos h]
      simp only [Option.isSome_some]
      constructor
      · intro _
        exact Or.inr ⟨h.2.symm, e, List.mem_cons_self _ _, h.1⟩
      · intro _
        exact Or.inl trivial
    · rw [if_neg h, edgeLabel_init_node]
      constructor
      · intro hx
        rcases hx with hx | ⟨hb, e2, he2, hea⟩
        · exact Or.inl hx
        · exact Or.inr ⟨hb, e2, List.mem_cons_of_mem _ he2, hea⟩
      · intro hx
        rcases hx with hx | ⟨hb, e2, he2, hea⟩
        · exact Or.inl hx
        · rcases List.mem_cons.mp he2 with he2 | he2
          · exact absurd ⟨he2 ▸ hea, hb.symm⟩ h
          · exact Or.inr ⟨hb, e2, he2, hea⟩

theorem label_isSome_transpose (a b : PredicateIndex) :
    ∀ (l : List (PredicateIndex × EdgeMap)) (rev : DepGraph),
      ((edgeLabel
          (l.foldl
            (fun rev p =>
              p.2.foldl (fun rev e => add_edge (init_node rev e.1) e.1 p.1 e.2) rev)
            rev)
          a b).isSome = true) ↔
        ((edgeLabel rev a b).isSome = true ∨
          ∃ p ∈ l, p.1 = b ∧ ∃ e ∈ p.2, e.1 = a) := by
  intro l
  induction l with
  | nil => intro rev; simp
  | cons p rest ih =>
    intro rev
    rw [List.foldl_cons, ih, label_isSome_transpose_inner]
    constructor
    · intro hx
      rcases hx with (hx | ⟨hb, e2, he2, hea⟩) | ⟨p2, hp2, hpb, hrest⟩
      · exact Or.inl hx
      · exact Or.inr ⟨p, List.mem_cons_self _ _, hb.symm, e2, he2, hea⟩
      · exact Or.inr ⟨p2, List.mem_cons_of_mem _ hp2, hpb, hrest⟩
    · intro hx
      rcases hx with hx | ⟨p2, hp2, hpb, e2, he2, hea⟩
      · exact Or.inl (Or.inl hx)
      · rcases List.mem_cons.mp hp2 with hp2 | hp2
        · exact Or.inl (Or.inr ⟨(hp2 ▸ hpb : p.1 = b).symm, e2, hp2 ▸ he2, hea⟩)
        · exact Or.inr ⟨p2, hp2, hpb, e2, he2, hea⟩

/-- For a graph with duplicate-free keys, the transpose has exactly the
reversed edges. -/
theorem edge_transpose {g : DepGraph} (hkeys : (g.map Prod.fst).Nodup)
    (a b : PredicateIndex) : Edge (transpose g) a b ↔ Edge g b a := by
  rw [edge_iff_label, edge_iff_label]
  unfold transpose
  rw [label_isSome_transpose]
  constructor
  · intro hx
    rcases hx with hx | ⟨p, hp, hpb, e, he, hea⟩
    · simp [edgeLabel, alGet] at hx
    · obtain ⟨pk, em⟩ := p
      cases hpb
      unfold edgeLabel
      rw [alGet_eq_of_nodup hkeys hp]
      simpa using alGet_isSome_iff.mpr ⟨e, he, hea⟩
  · intro hx
    unfold edgeLabel at hx
    cases hg : alGet g b with
    | none => rw [hg] at hx; cases hx
    | some em =>
      rw [hg] at hx
      simp only [Option.some_bind] at hx
      obtain ⟨e, he, hea⟩ := alGet_isSome_iff.mp hx
      exact Or.inr ⟨(b, em), alGet_mem hg, rfl, e, he, hea⟩

theorem reach_transpose {g : DepGraph} (hkeys : (g.map Prod.fst).Nodup)
    {a b : PredicateIndex} :
    Reach (transpose g) a b ↔ Reach g b a := by
  constructor
  · exact reach_transpose_aux (fun x y => edge_transpose hkeys x y)
  · intro h
    refine reach_transpose_aux (fun x y => ?_) h
    rw [edge_transpose hkeys y x]

/-- The spec of the phase-2 collector `rvisit`: it appends the same
block `Δ` of fresh nodes to both the class and the seen set; every
collected node is reverse-reachable from `node`, and the collected
block is closed under reverse edges up to the new seen set. -/
theorem rvisit_spec (g rev : DepGraph)
    (htgt : ∀ a b, Edge rev a b → b ∈ nodesList g) :
    ∀ (fuel : Nat) (node : PredicateIndex) (scc seen : List PredicateIndex),
      unseenCount g seen < fuel →
      node ∈ nodesList g →
      seen.Nodup →
      ∃ Δ, rvisit rev fuel node (scc, seen) = (scc ++ Δ, seen ++ Δ) ∧
        node ∈ seen ++ Δ ∧
        (seen ++ Δ).Nodup ∧
        (∀ x ∈ Δ, x ∈ nodesList g) ∧
        (∀ x ∈ Δ, Reach rev node x) ∧
        (∀ x ∈ Δ, ∀ w, Edge rev x w → w ∈ seen ++ Δ) := by
  intro fuel
  induction fuel with
  | zero =>
    intro node scc seen hf
    exact absurd hf (Nat.not_lt_zero _)
  | succ fuel ih =>
    intro node scc seen hf hnode hnd
    by_cases hseen : node ∈ seen
    · refine ⟨[], by simp [rvisit, hseen], by simpa using hseen, by simpa using hnd,
        ?_, ?_, ?_⟩
      · intro x hx; cases hx
      · intro x hx; cases hx
      · intro x hx; cases hx
    · have fold_spec : ∀ (l : List (PredicateIndex × Bool))
          (scc1 seen1 : List PredicateIndex),
          (∀ e ∈ l, e ∈ edgesOf rev node) →
          unseenCount g seen1 < fuel →
          seen1.Nodup →
          ∃ Δ, l.foldl (fun ss q => rvisit rev fuel q.1 ss) (scc1, seen1) =
              (scc1 ++ Δ, seen1 ++ Δ) ∧
            (seen1 ++ Δ).Nodup ∧
            (∀ x ∈ Δ, x ∈ nodesList g) ∧
            (∀ x ∈ Δ, Reach rev node x) ∧
            (∀ x ∈ Δ, ∀ w, Edge rev x w → w ∈ seen1 ++ Δ) ∧
            (∀ e ∈ l, e.1 ∈ seen1 ++ Δ) := by
        intro l
        induction l with
        | nil =>
          intro scc1 seen1 hl hf1 hnd1
          refine ⟨[], by simp, by simpa using hnd1, ?_, ?_, ?_, ?_⟩
          · intro x hx; cases hx
          · intro x hx; cases hx
          · intro x hx; cases hx
          · intro e he; cases List.not_mem_nil e he
        | cons e l' ihl =>
          intro scc1 seen1 hl hf1 hnd1
          have hedge : Edge rev node e.1 := ⟨e, hl e (List.mem_cons_self _ _), rfl⟩
          obtain ⟨Δ1, heq1, hmark1, hnd2, hnodes1, hreach1, hclos1⟩ :=
            ih e.1 scc1 seen1 hf1 (htgt node e.1 hedge) hnd1
          have hf2 : unseenCount g (seen1 ++ Δ1) < fuel :=
            Nat.lt_of_le_of_lt
              (unseenCount_mono (fun x hx => List.mem_append_left _ hx)) hf1
          obtain ⟨Δ2, heq2, hnd3, hnodes2, hreach2, hclos2, hproc2⟩ :=
            ihl (scc1 ++ Δ1) (seen1 ++ Δ1)
              (fun e2 he2 => hl e2 (List.mem_cons_of_mem _ he2)) hf2 hnd2
          refine ⟨Δ1 ++ Δ2, ?_, ?_, ?_, ?_, ?_, ?_⟩
          · rw [List.foldl_cons, heq1, heq2, List.append_assoc, List.append_assoc]
          · rw [← List.append_assoc]; exact hnd3
          · intro x hx
            rcases List.mem_append.mp hx with hx | hx
            · exact hnodes1 x hx
            · exact hnodes2 x hx
          · intro x hx
            rcases List.mem_append.mp hx with hx | hx
            · exact Relation.ReflTransGen.trans (reach_of_edge hedge) (hreach1 x hx)
            · exact hreach2 x hx
          · intro x hx w hw
            rw [← List.append_assoc]
            rcases List.mem_append.mp hx with hx | hx
            · exact List.mem_append_left _ (hclos1 x hx w hw)
            · exact hclos2 x hx w hw
          · intro e2 he2
            rw [← List.append_assoc]
            rcases List.mem_cons.mp he2 with he2 | he2
            · rw [he2]
              exact List.mem_append_left _ hmark1
            · exact hproc2 e2 he2
      have hnd1 : (seen ++ [node]).Nodup := by
        rw [List.nodup_append]
        exact ⟨hnd, List.nodup_singleton _,
          fun x hx hx2 => hseen (List.mem_singleton.mp hx2 ▸ hx)⟩
      have hf1 : unseenCount g (seen ++ [node]) < fuel := by
        have := unseenCount_lt hnode hseen
        omega
      obtain ⟨Δ', heqf, hndf, hnodesf, hreachf, hclosf, hprocf⟩ :=
        fold_spec (edgesOf rev node) (scc ++ [node]) (seen ++ [node])
          (fun e he => he) hf1 hnd1
      refine ⟨[node] ++ Δ', ?_, ?_, ?_, ?_, ?_, ?_⟩
      · show (if node ∈ seen then (scc, seen)
          else (edgesOf rev node).foldl (fun ss q => rvisit rev fuel q.1 ss)
            (scc ++ [node], seen ++ [node])) = _
        rw [if_neg hseen, heqf, List.append_assoc, List.append_assoc]
      · rw [← List.append_assoc]
        exact List.mem_append_left _ (List.mem_append_right _ (List.mem_singleton_self _))
      · rw [← List.append_assoc]
        exact hndf
      · intro x hx
        rcases List.mem_append.mp hx with hx | hx
        · rw [List.mem_singleton.mp hx]; exact hnode
        · exact hnodesf x hx
      · intro x hx
        rcases List.mem_append.mp hx with hx | hx
        · rw [List.mem_singleton.mp hx]
          exact Relation.ReflTransGen.refl
        · exact hreachf x hx
      · intro x hx w hw
        rw [← List.append_assoc]
        rcases List.mem_append.mp hx with hx | hx
        · obtain ⟨e, he, heb⟩ := hw
          rw [List.mem_singleton.mp hx] at he
          exact heb ▸ hprocf e he
        · exact hclosf x hx w hw

/-! ### Positions in the phase-1 stack, and list splitting helpers -/

/-- Index of the first occurrence (list length when absent). -/
def posIn (l : List PredicateIndex) (x : PredicateIndex) : Nat :=
  l.findIdx (· = x)

theorem posIn_cons (a : PredicateIndex) (l : List PredicateIndex)
    (x : PredicateIndex) :
    posIn (a :: l) x = if a = x then 0 else posIn l x + 1 := by
  unfold posIn
  rw [List.findIdx_cons]
  by_cases h : a = x <;> simp [h]

theorem posIn_lt_length {x : PredicateIndex} :
    ∀ {l : List PredicateIndex}, x ∈ l → posIn l x < l.length := by
  intro l
  induction l with
  | nil => intro h; cases h
  | cons a l ih =>
    intro h
    rw [posIn_cons]
    by_cases ha : a = x
    · simp [ha]
    · rw [if_neg ha]
      have : x ∈ l := by
        rcases List.mem_cons.mp h with h | h
        · exact absurd h.symm ha
        · exact h
      simpa [Nat.succ_lt_succ_iff] using ih this

theorem posIn_append_left {x : PredicateIndex} :
    ∀ {P : List PredicateIndex} (Q : List PredicateIndex), x ∈ P →
      posIn (P ++ Q) x = posIn P x := by
  intro P
  induction P with
  | nil => intro Q h; cases h
  | cons a P ih =>
    intro Q h
    rw [List.cons_append, posIn_cons, posIn_cons]
    by_cases ha : a = x
    · simp [ha]
    · rw [if_neg ha, if_neg ha]
      have : x ∈ P := by
        rcases List.mem_cons.mp h with h | h
        · exact absurd h.symm ha
        · exact h
      rw [ih Q this]

theorem posIn_append_right {x : PredicateIndex} :
    ∀ {P : List PredicateIndex} (Q : List PredicateIndex), x ∉ P →
      posIn (P ++ Q) x = P.length + posIn Q x := by
  intro P
  induction P with
  | nil => intro Q _; simp
  | cons a P ih =>
    intro Q h
    rw [List.cons_append, posIn_cons]
    have ha : a ≠ x := fun hc => h (hc ▸ List.mem_cons_self _ _)
    rw [if_neg ha, ih Q (fun hc => h (List.mem_cons_of_mem _ hc))]
    simp [List.length_cons]
    omega

/-- Extract the first element of a list satisfying `P`. -/
theorem exists_first_split (P : PredicateIndex → Prop) :
    ∀ (l : List PredicateIndex), (∃ x ∈ l, P x) →
      ∃ pre d post, l = pre ++ d :: post ∧ P d ∧ ∀ x ∈ pre, ¬ P x := by
  intro l
  induction l with
  | nil => rintro ⟨x, hx, _⟩; cases hx
  | cons a rest ih =>
    rintro ⟨x, hx, hPx⟩
    by_cases hPa : P a
    · exact ⟨[], a, rest, rfl, hPa, fun y hy => absurd hy (List.not_mem_nil y)⟩
    · have hxr : x ∈ rest := by
        rcases List.mem_cons.mp hx with h | h
        · exact absurd (h ▸ hPx) hPa
        · exact h
      obtain ⟨pre, d, post, heq, hPd, hpre⟩ := ih ⟨x, hxr, hPx⟩
      refine ⟨a :: pre, d, post, by rw [heq, List.cons_append], hPd, ?_⟩
      intro y hy
      rcases List.mem_cons.mp hy with hy | hy
      · exact hy ▸ hPa
      · exact hpre y hy

/-- In a duplicate-free list, a split around an element is unique. -/
theorem nodup_split_eq {d : PredicateIndex} :
    ∀ {a : List PredicateIndex} {l b a' b' : List PredicateIndex},
      l.Nodup → l = a ++ d :: b → l = a' ++ d :: b' → a = a' ∧ b = b' := by
  intro a
  induction a with
  | nil =>
    intro l b a' b' hnd h1 h2
    cases a' with
    | nil =>
      rw [List.nil_append] at h1 h2
      rw [h1] at h2
      exact ⟨rfl, by injection h2⟩
    | cons x a2 =>
      rw [List.nil_append] at h1
      rw [h1, List.cons_append] at h2
      injection h2 with hx hrest
      rw [h1] at hnd
      rcases List.nodup_cons.mp hnd with ⟨hd, _⟩
      exfalso
      apply hd
      rw [hrest]
      exact List.mem_append_right _ (List.mem_cons_self _ _)
  | cons x a2 ih =>
    intro l b a' b' hnd h1 h2
    cases a' with
    | nil =>
      rw [List.nil_append] at h2
      rw [h2, List.cons_append] at h1
      injection h1 with hx hrest
      rw [h2] at hnd
      rcases List.nodup_cons.mp hnd with ⟨hd, _⟩
      exfalso
      apply hd
      rw [hrest]
      exact List.mem_append_right _ (List.mem_cons_self _ _)
    | cons x' a2' =>
      rw [List.cons_append] at h1 h2
      have hl : l = x :: (a2 ++ d :: b) := h1
      rw [hl] at h2
      injection h2 with hx hrest
      rw [hl] at hnd
      obtain ⟨ha, hb⟩ := ih (List.nodup_cons.mp hnd).2 rfl hrest
      exact ⟨by rw [hx, ha], hb⟩

/-! ### Paths inside a strongly connected component -/

theorem rtg_target_prop {R : PredicateIndex → PredicateIndex → Prop}
    {Q : PredicateIndex → Prop} {a x : PredicateIndex}
    (h : Relation.ReflTransGen (fun u v => R u v ∧ Q v) a x) :
    x = a ∨ Q x := by
  induction h with
  | refl => exact Or.inl rfl
  | tail _ hstep _ => exact Or.inr hstep.2

/-- A path between mutually reachable nodes can be taken inside the
component: every step's target is mutually reachable with `a`. -/
theorem reach_within_scc {g : DepGraph} {a b : PredicateIndex}
    (hab : Reach g a b) (hba : Reach g b a) :
    Relation.ReflTransGen (fun x y => Edge g x y ∧ MutReach g a y) a b := by
  induction hab with
  | refl => exact Relation.ReflTransGen.refl
  | tail h1 hstep ihp =>
    rename_i x c
    have hca : Reach g c a := hba
    have hxa : Reach g x a := Relation.ReflTransGen.head hstep hca
    have hax : Reach g a x := h1
    refine Relation.ReflTransGen.tail (ihp hxa) ⟨hstep, ?_⟩
    exact ⟨Relation.ReflTransGen.tail hax hstep, hca⟩

/-- Reversing a target-restricted path into the transposed graph. -/
theorem rtg_reverse_transpose {g : DepGraph}
    (hkeys : (g.map Prod.fst).Nodup) {Q : PredicateIndex → Prop}
    {a b : PredicateIndex} (hQa : Q a)
    (h : Relation.ReflTransGen (fun x y => Edge g x y ∧ Q y) a b) :
    Relation.ReflTransGen
      (fun x y => Edge (transpose g) x y ∧ Q y) b a := by
  induction h with
  | refl => exact Relation.ReflTransGen.refl
  | tail h1 hstep ihp =>
    rename_i x c
    have hQx : Q x := by
      rcases rtg_target_prop h1 with h | h
      · exact h ▸ hQa
      · exact h
    exact Relation.ReflTransGen.head
      ⟨(edge_transpose hkeys c x).mpr hstep.1, hQx⟩ ihp

/-! ### The phase-1 package and the component position lemma -/

/-- Everything phase 1 guarantees about its final stack and seen set. -/
structure Phase1 (g : DepGraph) (sF seenF : List PredicateIndex) : Prop where
  nodup : sF.Nodup
  seen_nodup : seenF.Nodup
  seen_iff : ∀ x, x ∈ seenF ↔ x ∈ sF
  keys_mem : ∀ e ∈ g, e.1 ∈ sF
  clos : ∀ u ∈ sF, ∀ v, Edge g u v → v ∈ sF
  calls : ∀ d ∈ sF, CallFact g sF seenF d
  snodes : ∀ x ∈ sF, x ∈ nodesList g

theorem phase1_package (g : DepGraph) (fuel : Nat)
    (hfuel : (nodesList g).length < fuel) :
    ∃ sF seenF, g.foldl (fun ss e => visit g fuel e.1 ss) ([], []) = (sF, seenF) ∧
      Phase1 g sF seenF := by
  have h0 : unseenCount g [] < fuel := by
    unfold unseenCount
    simpa using hfuel
  obtain ⟨s2, seen2, heq, _, _, hI, hkeys, hcalls⟩ :=
    phase1_fold g fuel g [] [] (fun e he => he) h0 (inv_empty g)
  have hseen_iff : ∀ x, x ∈ seen2 ↔ x ∈ s2 := by
    intro x
    rw [hI.seen_eq x]
    simp
  refine ⟨s2, seen2, heq, hI.nodup, hI.seen_nodup, hseen_iff, ?_, ?_, ?_, ?_⟩
  · intro e he
    exact (hseen_iff e.1).mp (hkeys e he)
  · intro u hu v hv
    exact (hseen_iff v).mp (hI.clos u hu v hv)
  · intro d hd
    exact hcalls d ((hseen_iff d).mpr hd) (List.not_mem_nil d)
  · intro x hx
    exact hI.snodes x ((hseen_iff x).mpr hx)

/-- Every node of the graph ends on the phase-1 stack. -/
theorem nodes_in_sF {g : DepGraph} {sF seenF : List PredicateIndex}
    (hkeys : (g.map Prod.fst).Nodup) (hp : Phase1 g sF seenF) :
    ∀ x ∈ nodesList g, x ∈ sF := by
  intro x hx
  unfold nodesList at hx
  obtain ⟨p, hp2, hx2⟩ := List.mem_flatMap.mp hx
  rcases List.mem_cons.mp hx2 with h | h
  · exact h ▸ hp.keys_mem p hp2
  · obtain ⟨e, he, hex⟩ := List.mem_map.mp h
    obtain ⟨pk, em⟩ := p
    have hedge : Edge g pk x := by
      refine ⟨e, ?_, hex⟩
      unfold edgesOf
      rw [alGet_eq_of_nodup hkeys hp2]
      exact he
    exact hp.clos pk (hp.keys_mem (pk, em) hp2) x hedge

theorem reach_mem_sF {g : DepGraph} {sF seenF : List PredicateIndex}
    (hp : Phase1 g sF seenF) {x y : PredicateIndex} (hx : x ∈ sF)
    (hr : Reach g x y) : y ∈ sF := by
  induction hr with
  | refl => exact hx
  | tail _ hstep ihp => exact hp.clos _ ihp _ hstep

/-- The core Kosaraju ordering fact: across a one-way edge `u → v`
(`v` does not reach back), every member of `v`'s component sits at a
strictly smaller stack position than some member of `u`'s component. -/
theorem scc_pos_lt {g : DepGraph} {sF seenF : List PredicateIndex}
    (hp : Phase1 g sF seenF) {u v : PredicateIndex} (hu : u ∈ sF)
    (hEdge : Edge g u v) (hnr : ¬ Reach g v u) :
    ∀ y2, MutReach g v y2 → ∃ w, MutReach g u w ∧ w ∈ sF ∧
      posIn sF y2 < posIn sF w := by
  intro y2 hvy2
  have hnotboth : ∀ z, MutReach g u z → MutReach g v z → False := by
    intro z h1 h2
    exact hnr (mutReach_trans h2 (mutReach_symm h1)).1
  have husF : u ∈ seenF := (hp.seen_iff u).mpr hu
  obtain ⟨pre, d, post, hsplit, hSd, hpre⟩ :=
    exists_first_split (fun x => MutReach g u x ∨ MutReach g v x) seenF
      ⟨u, husF, Or.inl (mutReach_refl g u)⟩
  have hd_sF : d ∈ sF := by
    apply (hp.seen_iff d).mp
    rw [hsplit]
    exact List.mem_append_right _ (List.mem_cons_self _ _)
  obtain ⟨s0, seen0, t, tseen, ⟨r1, hr1⟩, ⟨r2, hr2⟩, hdns0, hs0seen0, htiff,
    hwpchar, htreach⟩ := hp.calls d hd_sF
  have hr2' : seenF = seen0 ++ d :: (tseen ++ r2) := by
    rw [hr2]
    simp
  obtain ⟨hpre_eq, _⟩ := nodup_split_eq hp.seen_nodup hsplit hr2'
  have hseen0S : ∀ x ∈ seen0, ¬ (MutReach g u x ∨ MutReach g v x) := by
    intro x hx
    exact hpre x (hpre_eq ▸ hx)
  have hr1' : sF = (s0 ++ t) ++ d :: r1 := by
    rw [hr1]
    simp
  have hd_not_s0t : d ∉ s0 ++ t := by
    intro hc
    rcases List.mem_append.mp hc with hc | hc
    · exact hdns0 (hs0seen0 d hc)
    · have : d ∈ tseen := (htiff d).mp hc
      have hnd := hp.seen_nodup
      rw [hr2'] at hnd
      rcases List.nodup_append.mp (by
        rw [show seen0 ++ d :: (tseen ++ r2) = (seen0 ++ [d]) ++ (tseen ++ r2) by simp] at hnd
        exact hnd) with ⟨_, _, hdisj⟩
      exact hdisj (List.mem_append_right _ (List.mem_singleton_self _))
        (List.mem_append_left _ this)
  have hposd : posIn sF d = (s0 ++ t).length := by
    rw [hr1', posIn_append_right (d :: r1) hd_not_s0t, posIn_cons, if_pos rfl]
    omega
  have hpos_t : ∀ y ∈ t, posIn sF y < posIn sF d := by
    intro y hy
    have h1 : posIn sF y = posIn (s0 ++ t) y := by
      rw [hr1']
      exact posIn_append_left (d :: r1) (List.mem_append_right _ hy)
    rw [h1, hposd]
    exact posIn_lt_length (List.mem_append_right _ hy)
  cases hSd with
  | inl hud =>
    -- `d` is in `u`'s component: `y2` was collected inside `d`'s call
    have hpath1 : Relation.ReflTransGen
        (fun x y => Edge g x y ∧ (MutReach g u y ∨ MutReach g v y)) d u := by
      refine Relation.ReflTransGen.mono ?_ (reach_within_scc hud.2 hud.1)
      intro a b hb
      exact ⟨hb.1, Or.inl (mutReach_trans hud hb.2)⟩
    have hpath2 : Relation.ReflTransGen
        (fun x y => Edge g x y ∧ (MutReach g u y ∨ MutReach g v y)) v y2 := by
      refine Relation.ReflTransGen.mono ?_ (reach_within_scc hvy2.1 hvy2.2)
      intro a b hb
      exact ⟨hb.1, Or.inr hb.2⟩
    have hpath : RReach g seen0 d y2 := by
      refine Relation.ReflTransGen.mono ?_
        (Relation.ReflTransGen.trans hpath1
          (Relation.ReflTransGen.head ⟨hEdge, Or.inr (mutReach_refl g v)⟩ hpath2))
      intro a b hb
      exact ⟨hb.1, fun hc => hseen0S b hc hb.2⟩
    rcases hwpchar y2 hpath with h | h
    · exact absurd hvy2 (fun hc => hnotboth y2 (h ▸ hud) hc)
    · refine ⟨d, hud, hd_sF, ?_⟩
      exact hpos_t y2 ((htiff y2).mpr h)
  | inr hvd =>
    -- `d` is in `v`'s component: `u` finishes after `d`
    have hdy2 : MutReach g d y2 := mutReach_trans (mutReach_symm hvd) hvy2
    have hpath : RReach g seen0 d y2 := by
      refine Relation.ReflTransGen.mono ?_ (reach_within_scc hdy2.1 hdy2.2)
      intro a b hb
      refine ⟨hb.1, fun hc => hseen0S b hc ?_⟩
      exact Or.inr (mutReach_trans hvd hb.2)
    have hposy2 : posIn sF y2 ≤ posIn sF d := by
      rcases hwpchar y2 hpath with h | h
      · rw [h]
      · exact Nat.le_of_lt (hpos_t y2 ((htiff y2).mpr h))
    have hu_not : u ∉ s0 ++ t := by
      intro hc
      rcases List.mem_append.mp hc with hc | hc
      · exact hseen0S u (hs0seen0 u hc) (Or.inl (mutReach_refl g u))
      · have hru : Reach g d u := htreach u ((htiff u).mp hc)
        exact hnr (Relation.ReflTransGen.trans hvd.1 hru)
    have hune : u ≠ d := by
      intro hc
      exact hnotboth u (mutReach_refl g u) (hc ▸ mutReach_symm (mutReach_symm hvd))
    have hu_r1 : u ∈ r1 := by
      have := hu
      rw [hr1'] at this
      rcases List.mem_append.mp this with h | h
      · exact absurd h hu_not
      · rcases List.mem_cons.mp h with h | h
        · exact absurd h hune
        · exact h
    have hposu : posIn sF d < posIn sF u := by
      have h2 : posIn sF u = (s0 ++ t).length + (posIn r1 u + 1) := by
        rw [hr1', posIn_append_right (d :: r1) hu_not, posIn_cons,
          if_neg (fun hc => hune hc.symm)]
      rw [hposd, h2]
      omega
    refine ⟨u, mutReach_refl g u, hu, ?_⟩
    omega

/-- Climbing a path towards the stack maximum: from any path `m ⇝ top`
there is a member of `m`'s component at position at least `top`'s. -/
theorem climb {g : DepGraph} {sF seenF : List PredicateIndex}
    (hp : Phase1 g sF seenF) {m top : PredicateIndex} (h : Reach g m top) :
    m ∈ sF → ∃ w, MutReach g m w ∧ w ∈ sF ∧ posIn sF top ≤ posIn sF w := by
  induction h using Relation.ReflTransGen.head_induction_on with
  | refl =>
    intro hm
    exact ⟨top, mutReach_refl g top, hm, Nat.le_refl _⟩
  | head hstep hrest ihp =>
    rename_i a c
    intro ha
    have hc : c ∈ sF := hp.clos a ha c hstep
    obtain ⟨w, hcw, hwsF, hposw⟩ := ihp hc
    by_cases hback : Reach g c a
    · exact ⟨w, mutReach_trans ⟨reach_of_edge hstep, hback⟩ hcw, hwsF, hposw⟩
    · obtain ⟨w1, haw1, hw1sF, hlt⟩ := scc_pos_lt hp ha hstep hback w hcw
      exact ⟨w1, haw1, hw1sF, by omega⟩

/-- Everything restricted-reachable from the popped top is collected. -/
theorem rvisit_complete {rev : DepGraph} {node : PredicateIndex}
    {seen Δ : List PredicateIndex} (hmarkΔ : node ∈ Δ)
    (hclos : ∀ x ∈ Δ, ∀ w, Edge rev x w → w ∈ seen ++ Δ) :
    ∀ y, RReach rev seen node y → y ∈ seen ++ Δ ∧ (y = node ∨ y ∉ seen) := by
  intro y hy
  induction hy with
  | refl => exact ⟨List.mem_append_right _ hmarkΔ, Or.inl rfl⟩
  | tail h1 hstep ihp =>
    rename_i x c
    obtain ⟨hx, hxc⟩ := ihp
    have hxΔ : x ∈ Δ := by
      rcases hxc with h | h
      · exact h ▸ hmarkΔ
      · rcases List.mem_append.mp hx with h2 | h2
        · exact absurd h2 h
        · exact h2
    exact ⟨hclos x hxΔ c hstep.1, Or.inr hstep.2⟩

/-- The spec of the pop loop: the returned classes are exactly the
strongly connected components (restricted to the stack), they cover
every unseen stack element, and they are pairwise disjoint. -/
theorem popLoop_spec {g : DepGraph} {sF seenF : List PredicateIndex}
    (hp : Phase1 g sF seenF) (hkeys : (g.map Prod.fst).Nodup)
    (fuel : Nat) (hfuel : (nodesList g).length < fuel) :
    ∀ (stack done seen : List PredicateIndex),
      sF = stack.reverse ++ done →
      (∀ x ∈ done, x ∈ seen) →
      (∀ x ∈ seen, x ∈ sF) →
      seen.Nodup →
      (∀ x ∈ seen, ∀ y, MutReach g x y → y ∈ sF → y ∈ seen) →
      (∀ c ∈ popLoop (transpose g) fuel stack seen, ∀ x ∈ c, ∀ y,
          y ∈ c ↔ (MutReach g x y ∧ y ∈ sF)) ∧
      (∀ c ∈ popLoop (transpose g) fuel stack seen, ∀ x ∈ c,
          x ∈ sF ∧ x ∉ seen) ∧
      (∀ x ∈ sF, x ∉ seen → ∃ c ∈ popLoop (transpose g) fuel stack seen, x ∈ c) ∧
      (popLoop (transpose g) fuel stack seen).flatten.Nodup := by
  have htgt : ∀ a b, Edge (transpose g) a b → b ∈ nodesList g := by
    intro a b h
    exact key_mem_nodesList (edge_src_isSome ((edge_transpose hkeys a b).mp h))
  intro stack
  induction stack with
  | nil =>
    intro done seen hsplit hdone hseensub hnd hsccclosed
    simp only [popLoop]
    refine ⟨?_, ?_, ?_, ?_⟩
    · intro c hc; cases hc
    · intro c hc; cases hc
    · intro x hx hx2
      rw [hsplit, List.reverse_nil, List.nil_append] at hx
      exact absurd (hdone x hx) hx2
    · simp
  | cons top rest ihs =>
    intro done seen hsplit hdone hseensub hnd hsccclosed
    have hsplit' : sF = rest.reverse ++ (top :: done) := by
      rw [hsplit, List.reverse_cons, List.append_assoc]
      rfl
    by_cases htop : top ∈ seen
    · have heq : popLoop (transpose g) fuel (top :: rest) seen =
          popLoop (transpose g) fuel rest seen := by
        simp [popLoop, htop]
      rw [heq]
      refine ihs (top :: done) seen hsplit' ?_ hseensub hnd hsccclosed
      intro x hx
      rcases List.mem_cons.mp hx with hx | hx
      · exact hx ▸ htop
      · exact hdone x hx
    · have htopsF : top ∈ sF := by
        rw [hsplit']
        exact List.mem_append_right _ (List.mem_cons_self _ _)
      have hfseen : unseenCount g seen < fuel := by
        have h1 : unseenCount g seen ≤ unseenCount g [] :=
          unseenCount_mono (fun x hx => absurd hx (List.not_mem_nil x))
        have h2 : unseenCount g [] = (nodesList g).length := by
          unfold unseenCount
          simp
        omega
      obtain ⟨Δ, heqv, hmarkv, hndv, hnodesv, hreachv, hclosv⟩ :=
        rvisit_spec g (transpose g) htgt fuel top [] seen hfseen
          (hp.snodes top htopsF) hnd
      have htopΔ : top ∈ Δ := by
        rcases List.mem_append.mp hmarkv with h | h
        · exact absurd h htop
        · exact h
      have hΔfresh : ∀ x ∈ Δ, x ∉ seen := by
        intro x hx
        rcases List.nodup_append.mp hndv with ⟨_, _, hdisj⟩
        exact fun hc => hdisj hc hx
      have hΔsub : ∀ x ∈ Δ, x ∈ sF := by
        intro x hx
        exact nodes_in_sF hkeys hp x (hnodesv x hx)
      -- position of `top` dominates every non-`done` element
      have htop_nface : top ∉ rest.reverse := by
        have hnodup := hp.nodup
        rw [hsplit'] at hnodup
        rcases List.nodup_append.mp hnodup with ⟨_, _, hdisj⟩
        exact fun hc => hdisj hc (List.mem_cons_self _ _)
      have hpos_max : ∀ w ∈ sF, posIn sF top ≤ posIn sF w → w = top ∨ w ∈ done := by
        intro w hw hpw
        have hptop : posIn sF top = rest.reverse.length := by
          rw [hsplit', posIn_append_right (top :: done) htop_nface, posIn_cons,
            if_pos rfl]
          omega
        by_cases hwr : w ∈ rest.reverse
        · have : posIn sF w < rest.reverse.length := by
            have h1 : posIn sF w = posIn rest.reverse w := by
              rw [hsplit']
              exact posIn_append_left (top :: done) hwr
            rw [h1]
            exact posIn_lt_length hwr
          omega
        · have hw2 := hw
          rw [hsplit'] at hw2
          rcases List.mem_append.mp hw2 with h | h
          · exact absurd h hwr
          · rcases List.mem_cons.mp h with h | h
            · exact Or.inl h
            · exact Or.inr h
      -- every collected node is in `top`'s component
      have hΔscc1 : ∀ x ∈ Δ, MutReach g top x := by
        intro x hx
        have hxt : Reach g x top := (reach_transpose hkeys).mp (hreachv x hx)
        obtain ⟨w, hxw, hwsF, hposw⟩ := climb hp hxt (hΔsub x hx)
        rcases hpos_max w hwsF hposw with h | h
        · exact mutReach_symm (h ▸ hxw)
        · exfalso
          exact hΔfresh x hx
            (hsccclosed w (hdone w h) x (mutReach_symm hxw) (hΔsub x hx))
      -- and conversely the whole component is collected
      have hΔscc2 : ∀ y, MutReach g top y → y ∈ sF → y ∈ Δ := by
        intro y hty hysF
        have hfreshscc : ∀ z, MutReach g top z → z ∉ seen := by
          intro z hz hc
          exact htop (hsccclosed z hc top (mutReach_symm hz) htopsF)
        have hpathg : Relation.ReflTransGen
            (fun a b => Edge g a b ∧ MutReach g y b) y top :=
          reach_within_scc hty.2 hty.1
        have hpathrev : Relation.ReflTransGen
            (fun a b => Edge (transpose g) a b ∧ MutReach g y b) top y :=
          rtg_reverse_transpose hkeys (mutReach_refl g y) hpathg
        have hrres : RReach (transpose g) seen top y := by
          refine Relation.ReflTransGen.mono ?_ hpathrev
          intro a b hb
          exact ⟨hb.1, hfreshscc b (mutReach_trans hty hb.2)⟩
        obtain ⟨hy2, _⟩ := rvisit_complete htopΔ hclosv y hrres
        rcases List.mem_append.mp hy2 with h | h
        · exact absurd h (hfreshscc y hty)
        · exact h
      -- the loop step
      have hne : Δ.isEmpty = false := by
        cases Δ with
        | nil => cases htopΔ
        | cons a l => rfl
      have heq : popLoop (transpose g) fuel (top :: rest) seen =
          Δ :: popLoop (transpose g) fuel rest (seen ++ Δ) := by
        show (if top ∈ seen then popLoop (transpose g) fuel rest seen
          else
            let p := rvisit (transpose g) fuel top ([], seen)
            if p.1.isEmpty then popLoop (transpose g) fuel rest p.2
            else p.1 :: popLoop (transpose g) fuel rest p.2) = _
        rw [if_neg htop]
        simp only [heqv, List.nil_append]
        rw [if_neg (by rw [hne]; exact Bool.false_ne_true)]
      rw [heq]
      -- invariants for the recursive call
      have hsub' : ∀ x ∈ seen ++ Δ, x ∈ sF := by
        intro x hx
        rcases List.mem_append.mp hx with h | h
        · exact hseensub x h
        · exact hΔsub x h
      have hscc' : ∀ x ∈ seen ++ Δ, ∀ y, MutReach g x y → y ∈ sF → y ∈ seen ++ Δ := by
        intro x hx y hxy hysF
        rcases List.mem_append.mp hx with h | h
        · exact List.mem_append_left _ (hsccclosed x h y hxy hysF)
        · exact List.mem_append_right _
            (hΔscc2 y (mutReach_trans (hΔscc1 x h) hxy) hysF)
      have hdone' : ∀ x ∈ (top :: done), x ∈ seen ++ Δ := by
        intro x hx
        rcases List.mem_cons.mp hx with hx | hx
        · exact hx ▸ List.mem_append_right _ htopΔ
        · exact List.mem_append_left _ (hdone x hx)
      obtain ⟨hexact', hfresh', hcover', hflat'⟩ :=
        ihs (top :: done) (seen ++ Δ) hsplit' hdone' hsub' hndv hscc'
      refine ⟨?_, ?_, ?_, ?_⟩
      · intro c hc x hx y
        rcases List.mem_cons.mp hc with hc | hc
        · subst hc
          constructor
          · intro hy
            exact ⟨mutReach_trans (mutReach_symm (hΔscc1 x hx)) (hΔscc1 y hy),
              hΔsub y hy⟩
          · intro ⟨hxy, hysF⟩
            exact hΔscc2 y (mutReach_trans (hΔscc1 x hx) hxy) hysF
        · exact hexact' c hc x hx y
      · intro c hc x hx
        rcases List.mem_cons.mp hc with hc | hc
        · subst hc
          exact ⟨hΔsub x hx, hΔfresh x hx⟩
        · obtain ⟨h1, h2⟩ := hfresh' c hc x hx
          exact ⟨h1, fun hc2 => h2 (List.mem_append_left _ hc2)⟩
      · intro x hx hx2
        by_cases hxΔ : x ∈ Δ
        · exact ⟨Δ, List.mem_cons_self _ _, hxΔ⟩
        · have hx3 : x ∉ seen ++ Δ := by
            intro hc
            rcases List.mem_append.mp hc with h | h
            · exact hx2 h
            · exact hxΔ h
          obtain ⟨c, hc, hxc⟩ := hcover' x hx hx3
          exact ⟨c, List.mem_cons_of_mem _ hc, hxc⟩
      · rw [List.flatten_cons, List.nodup_append]
        refine ⟨?_, hflat', ?_⟩
        · rcases List.nodup_append.mp hndv with ⟨_, h, _⟩
          exact h
        · intro x hx hx2
          obtain ⟨c, hc, hxc⟩ := List.mem_flatten.mp hx2
          exact (hfresh' c hc x hxc).2 (List.mem_append_right _ hx)

/-- `graphFuel` strictly exceeds the node count. -/
theorem graphFuel_eq (g : DepGraph) : graphFuel g = (nodesList g).length + 1 := by
  have main : ∀ (l : DepGraph) (n : Nat),
      l.foldl (fun n p => n + 1 + p.2.length) n = n + (nodesList l).length := by
    intro l
    induction l with
    | nil => intro n; simp [nodesList]
    | cons p t ih =>
      intro n
      rw [List.foldl_cons, ih]
      unfold nodesList
      rw [List.flatMap_cons]
      simp only [List.length_append, List.length_cons, List.length_map]
      omega
  unfold graphFuel
  rw [main]
  omega

/-- The Kosaraju SCC computation, packaged: each returned class is
exactly one strongly connected component, the classes cover all nodes,
and they are pairwise disjoint. -/
theorem sccs_spec (g : DepGraph) (hkeys : (g.map Prod.fst).Nodup) :
    (∀ c ∈ sccs g (graphFuel g), ∀ x ∈ c, ∀ y,
        y ∈ c ↔ (MutReach g x y ∧ y ∈ nodesList g)) ∧
    (∀ x ∈ nodesList g, ∃ c ∈ sccs g (graphFuel g), x ∈ c) ∧
    (sccs g (graphFuel g)).flatten.Nodup := by
  have hfuel : (nodesList g).length < graphFuel g := by
    rw [graphFuel_eq]
    omega
  obtain ⟨sF, seenF, heq, hp⟩ := phase1_package g (graphFuel g) hfuel
  have hsccseq : sccs g (graphFuel g) =
      popLoop (transpose g) (graphFuel g) sF.reverse [] := by
    unfold sccs
    rw [heq]
  obtain ⟨hex, hfr, hcov, hflat⟩ :=
    popLoop_spec hp hkeys (graphFuel g) hfuel sF.reverse [] []
      (by simp) (by simp) (by simp) List.nodup_nil (by simp)
  have hsFnodes : ∀ x, x ∈ sF ↔ x ∈ nodesList g := by
    intro x
    exact ⟨hp.snodes x, nodes_in_sF hkeys hp x⟩
  rw [hsccseq]
  refine ⟨?_, ?_, hflat⟩
  · intro c hc x hx y
    rw [hex c hc x hx y, hsFnodes y]
  · intro x hx
    exact hcov x ((hsFnodes x).mpr hx) (List.not_mem_nil x)

/-! ### The stratum check and Claim C2 -/

/-- The `pred_to_stratum` fold of `stratify`: inserting every member of
a class with index `i`. -/
theorem alGet_foldl_insert (i : Nat) :
    ∀ (c : List PredicateIndex) (pmap : List (PredicateIndex × Nat))
      (q : PredicateIndex),
      alGet (c.foldl (fun m sym => alInsert m sym i) pmap) q =
        if q ∈ c then some i else alGet pmap q := by
  intro c
  induction c with
  | nil => intro pmap q; simp
  | cons s rest ih =>
    intro pmap q
    rw [List.foldl_cons, ih]
    by_cases hq : q ∈ rest
    · rw [if_pos hq, if_pos (List.mem_cons_of_mem _ hq)]
    · rw [if_neg hq, alGet_alInsert]
      by_cases hs : s = q
      · rw [if_pos hs, if_pos (hs ▸ List.mem_cons_self _ _)]
      · rw [if_neg hs, if_neg (by
          intro hc
          rcases List.mem_cons.mp hc with hc | hc
          · exact hs hc.symm
          · exact hq hc)]

/-- `stratifyCheck` only ever produces the unstratifiable error. -/
theorem stratifyCheck_error_eq {dep : DepGraph} :
    ∀ (L : List (Nat × List PredicateIndex))
      (pmap : List (PredicateIndex × Nat)) {e : String},
      stratifyCheck dep L pmap = Except.error e →
      e = "program cannot be stratified" := by
  intro L
  induction L with
  | nil =>
    intro pmap e h
    cases h
  | cons p rest ih =>
    intro pmap e h
    obtain ⟨i, c⟩ := p
    unfold stratifyCheck at h
    dsimp only [] at h
    split at h
    · cases h
      rfl
    · exact ih _ h

/-- If `stratifyCheck` errors, some class holds both endpoints of a
negatively labelled edge entry. -/
theorem stratifyCheck_found {dep : DepGraph}
    {strata : List (List PredicateIndex)} :
    ∀ (L : List (Nat × List PredicateIndex))
      (pmap : List (PredicateIndex × Nat)),
      (∀ p ∈ L, strata.get? p.1 = some p.2) →
      (∀ x j, alGet pmap x = some j → ∃ c, strata.get? j = some c ∧ x ∈ c) →
      ∀ {e : String}, stratifyCheck dep L pmap = Except.error e →
      ∃ i c sym q, strata.get? i = some c ∧ sym ∈ c ∧ q ∈ c ∧
        (q, true) ∈ edgesOf dep sym := by
  intro L
  induction L with
  | nil =>
    intro pmap _ _ e h
    cases h
  | cons p rest ih =>
    intro pmap hL hpm e h
    obtain ⟨i, c⟩ := p
    have hLi : strata.get? i = some c := hL (i, c) (List.mem_cons_self _ _)
    unfold stratifyCheck at h
    have hpm' : ∀ x j,
        alGet (c.foldl (fun m sym => alInsert m sym i) pmap) x = some j →
        ∃ c0, strata.get? j = some c0 ∧ x ∈ c0 := by
      intro x j hx
      rw [alGet_foldl_insert] at hx
      by_cases hxc : x ∈ c
      · rw [if_pos hxc] at hx
        cases hx
        exact ⟨c, hLi, hxc⟩
      · rw [if_neg hxc] at hx
        exact hpm x j hx
    dsimp only [] at h
    split at h
    · rename_i hany
      obtain ⟨sym, hsym, hany2⟩ := List.any_eq_true.mp hany
      obtain ⟨ed, hed, hed2⟩ := List.any_eq_true.mp hany2
      rw [Bool.and_eq_true] at hed2
      obtain ⟨hneg, hgot⟩ := hed2
      have hgot2 : alGet (c.foldl (fun m sym => alInsert m sym i) pmap) ed.1 =
          some i := by
        exact eq_of_beq hgot
      obtain ⟨qk, qb⟩ := ed
      have hqb : qb = true := hneg
      subst hqb
      have hqc : qk ∈ c := by
        obtain ⟨c0, hc0, hq0⟩ := hpm' qk i hgot2
        rw [hLi] at hc0
        cases hc0
        exact hq0
      exact ⟨i, c, sym, qk, hLi, hsym, hqc, hed⟩
    · exact ih _ (fun p hp => hL p (List.mem_cons_of_mem _ hp)) hpm' h

/-- If some class holds both endpoints of a negatively labelled edge
entry, `stratifyCheck` errors. -/
theorem stratifyCheck_error_of {dep : DepGraph} :
    ∀ (L : List (Nat × List PredicateIndex))
      (pmap : List (PredicateIndex × Nat)) (i : Nat)
      (c : List PredicateIndex) (sym q : PredicateIndex),
      (i, c) ∈ L → sym ∈ c → q ∈ c → (q, true) ∈ edgesOf dep sym →
      stratifyCheck dep L pmap =
        Except.error "program cannot be stratified" := by
  intro L
  induction L with
  | nil =>
    intro pmap i c sym q hmem
    cases hmem
  | cons p rest ih =>
    intro pmap i c sym q hmem hsym hq hedge
    obtain ⟨j, c'⟩ := p
    unfold stratifyCheck
    dsimp only []
    split
    · rfl
    · rename_i hfails
      rcases List.mem_cons.mp hmem with hmem | hmem
      · exfalso
        obtain ⟨hji, hcc⟩ := Prod.mk.injEq .. ▸ hmem
        subst hji
        subst hcc
        apply hfails
        refine List.any_eq_true.mpr ⟨sym, hsym, ?_⟩
        refine List.any_eq_true.mpr ⟨(q, true), hedge, ?_⟩
        rw [Bool.and_eq_true]
        refine ⟨rfl, ?_⟩
        have : alGet (c.foldl (fun m sym => alInsert m sym i) pmap) q =
            some i := by
          rw [alGet_foldl_insert, if_pos hq]
        rw [this]
        exact beq_self_eq_true _
      · exact ih _ i c sym q hmem hsym hq hedge

/-- Inner edge maps of `addEdgeEm` keep duplicate-free keys. -/
theorem addEdgeEm_keys_nodup {dest : PredicateIndex} {negated : Bool}
    {em : EdgeMap} (h : (em.map Prod.fst).Nodup) :
    ((addEdgeEm dest negated em).map Prod.fst).Nodup := by
  unfold addEdgeEm
  by_cases hn : negated
  · rw [if_pos hn]
    exact alInsert_keys_nodup h
  · rw [if_neg hn]
    cases halg : alGet em dest with
    | none => exact alInsert_keys_nodup h
    | some b =>
      cases b
      · simpa using alInsert_keys_nodup h
      · simpa using h

/-- Members of `alUpdate` come from the map or from the update. -/
theorem mem_alUpdate {K V : Type} [DecidableEq K] :
    ∀ {m : List (K × V)} {k : K} {d : V} {f : V → V} {p : K × V},
      p ∈ alUpdate m k d f →
      p ∈ m ∨ p.2 = f d ∨ ∃ v0, (k, v0) ∈ m ∧ p.2 = f v0 := by
  intro m
  induction m with
  | nil =>
    intro k d f p h
    simp only [alUpdate, List.mem_singleton] at h
    right; left
    rw [h]
  | cons e rest ih =>
    intro k d f p h
    obtain ⟨ek, ev⟩ := e
    unfold alUpdate at h
    by_cases hk : ek = k
    · rw [if_pos hk] at h
      rcases List.mem_cons.mp h with h | h
      · right; right
        exact ⟨ev, by rw [hk]; exact List.mem_cons_self _ _, by rw [h]⟩
      · exact Or.inl (List.mem_cons_of_mem _ h)
    · rw [if_neg hk] at h
      rcases List.mem_cons.mp h with h | h
      · exact Or.inl (by rw [h]; exact List.mem_cons_self _ _)
      · rcases ih h with h | h | ⟨v0, hv0, hp⟩
        · exact Or.inl (List.mem_cons_of_mem _ h)
        · exact Or.inr (Or.inl h)
        · exact Or.inr (Or.inr ⟨v0, List.mem_cons_of_mem _ hv0, hp⟩)

/-- All inner edge maps of `make_dep_graph` have duplicate-free keys. -/
theorem make_dep_graph_inner_nodup (prog : Program) :
    ∀ p ∈ make_dep_graph prog, ((p.2.map Prod.fst).Nodup) := by
  have hinit : ∀ (g : DepGraph) (src : PredicateIndex),
      (∀ p ∈ g, ((p.2.map Prod.fst).Nodup)) →
      ∀ p ∈ init_node g src, ((p.2.map Prod.fst).Nodup) := by
    intro g src hg p hp
    unfold init_node alEntryOrDefault at hp
    cases halg : alGet g src with
    | some em =>
      rw [halg] at hp
      exact hg p hp
    | none =>
      rw [halg] at hp
      rcases List.mem_append.mp hp with h | h
      · exact hg p h
      · rw [List.mem_singleton.mp h]
        simp
  have hadd : ∀ (g : DepGraph) (src dest : PredicateIndex) (negated : Bool),
      (∀ p ∈ g, ((p.2.map Prod.fst).Nodup)) →
      ∀ p ∈ add_edge g src dest negated, ((p.2.map Prod.fst).Nodup) := by
    intro g src dest negated hg p hp
    unfold add_edge at hp
    rcases mem_alUpdate hp with h | h | ⟨v0, hv0, hp2⟩
    · exact hg p h
    · rw [h]
      exact addEdgeEm_keys_nodup (by simp)
    · rw [hp2]
      exact addEdgeEm_keys_nodup (hg (src, v0) hv0)
  have hstep : ∀ (prem : List Term) (s : PredicateIndex) (c : Clause)
      (dep : DepGraph), (∀ p ∈ dep, ((p.2.map Prod.fst).Nodup)) →
      ∀ p ∈ prem.foldl (depEdgesOfPremise prog s c) dep,
        ((p.2.map Prod.fst).Nodup) := by
    intro prem
    induction prem with
    | nil => intro s c dep h; exact h
    | cons t rest ih =>
      intro s c dep h
      rw [List.foldl_cons]
      refine ih s c _ ?_
      unfold depEdgesOfPremise
      cases t with
      | atom a =>
        by_cases hext : a.sym ∈ prog.ext_preds
        · simpa [hext] using h
        · simp only [if_neg hext]
          cases clause0 : c.transform.head? with
          | none => exact hadd dep s a.sym false h
          | some t0 =>
            by_cases hv : t0.var.isSome <;> simp only [hv, if_pos, if_neg,
              Bool.false_eq_true, if_false, if_true]
            · exact hadd dep s a.sym false h
            · exact hadd dep s a.sym true h
      | negAtom a =>
        by_cases hext : a.sym ∈ prog.ext_preds
        · simpa [hext] using h
        · simp only [if_neg hext]
          exact hadd dep s a.sym true h
      | eq l r => exact h
      | ineq l r => exact h
  have hclauses : ∀ (cs : List Clause) (s : PredicateIndex) (dep : DepGraph),
      (∀ p ∈ dep, ((p.2.map Prod.fst).Nodup)) →
      ∀ p ∈ cs.foldl
          (fun dep clause =>
            clause.premises.foldl (depEdgesOfPremise prog s clause) dep)
          dep,
        ((p.2.map Prod.fst).Nodup) := by
    intro cs
    induction cs with
    | nil => intro s dep h; exact h
    | cons c rest ih =>
      intro s dep h
      rw [List.foldl_cons]
      exact ih s _ (hstep c.premises s c dep h)
  have hmain : ∀ (entries : List (PredicateIndex × List Clause)) (dep : DepGraph),
      (∀ p ∈ dep, ((p.2.map Prod.fst).Nodup)) →
      ∀ p ∈ entries.foldl
          (fun dep p =>
            p.2.foldl
              (fun dep clause =>
                clause.premises.foldl (depEdgesOfPremise prog p.1 clause) dep)
              (init_node dep p.1))
          dep,
        ((p.2.map Prod.fst).Nodup) := by
    intro entries
    induction entries with
    | nil => intro dep h; exact h
    | cons e rest ih =>
      intro dep h
      rw [List.foldl_cons]
      exact ih _ (hclauses e.2 e.1 _ (hinit dep e.1 h))
  exact hmain prog.rules [] (by intro p hp; cases hp)

/-- With duplicate-free inner keys, an edge-map entry `(q, true)` means
the edge label really is negative. -/
theorem negEdge_of_entry {g : DepGraph}
    (hinner : ∀ p ∈ g, ((p.2.map Prod.fst).Nodup)) {sym q : PredicateIndex}
    (h : (q, true) ∈ edgesOf g sym) : NegEdge g sym q := by
  unfold edgesOf at h
  cases hg : alGet g sym with
  | none =>
    rw [hg] at h
    cases h
  | some em =>
    rw [hg] at h
    have hnd := hinner (sym, em) (alGet_mem hg)
    unfold NegEdge edgeLabel
    rw [hg]
    exact alGet_eq_of_nodup hnd h

/-- A negative edge label yields the edge-map entry `(q, true)`. -/
theorem entry_of_negEdge {g : DepGraph} {sym q : PredicateIndex}
    (h : NegEdge g sym q) : (q, true) ∈ edgesOf g sym := by
  unfold NegEdge edgeLabel at h
  cases hg : alGet g sym with
  | none =>
    rw [hg] at h
    cases h
  | some em =>
    rw [hg] at h
    have h2 : alGet em q = some true := h
    unfold edgesOf
    rw [hg]
    exact alGet_mem h2

/-- **C2.** `Program::stratify` reports the error
"program cannot be stratified" exactly when the dependency graph has a
cycle through a negative edge — a negative edge `p → q` with a path
from `q` back to `p` (the two endpoints share a strongly connected
component) — and succeeds exactly when no such cycle exists. -/
theorem stratify_rejects_negative_cycle (prog : Program) :
    (stratify prog = Except.error "program cannot be stratified" ↔
      ∃ p q, NegEdge (make_dep_graph prog) p q ∧
        Reach (make_dep_graph prog) q p) ∧
    ((∃ r, stratify prog = Except.ok r) ↔
      ¬ ∃ p q, NegEdge (make_dep_graph prog) p q ∧
        Reach (make_dep_graph prog) q p) := by
  have hkeys := make_dep_graph_keys_nodup prog
  have hinner := make_dep_graph_inner_nodup prog
  obtain ⟨hex, hcov, hflat⟩ := sccs_spec (make_dep_graph prog) hkeys
  have hL : ∀ pr ∈ (sccs (make_dep_graph prog)
        (graphFuel (make_dep_graph prog))).enum,
      (sccs (make_dep_graph prog) (graphFuel (make_dep_graph prog))).get? pr.1 =
        some pr.2 := by
    intro pr hpr
    rw [List.get?_eq_getElem?]
    exact List.mem_enum_iff_getElem?.mp hpr
  have hiff : stratifyCheck (make_dep_graph prog)
      ((sccs (make_dep_graph prog) (graphFuel (make_dep_graph prog))).enum) [] =
        Except.error "program cannot be stratified" ↔
      ∃ p q, NegEdge (make_dep_graph prog) p q ∧
        Reach (make_dep_graph prog) q p := by
    constructor
    · intro h
      obtain ⟨i, c, sym, q, hget, hsym, hq, hmem⟩ :=
        stratifyCheck_found _ [] hL (fun x j hx => by cases hx) h
      have hc : c ∈ sccs (make_dep_graph prog)
          (graphFuel (make_dep_graph prog)) := List.get?_mem hget
      refine ⟨sym, q, negEdge_of_entry hinner hmem, ?_⟩
      exact ((hex c hc sym hsym q).mp hq).1.2
    · rintro ⟨p, q, hneg, hreach⟩
      have hedge : Edge (make_dep_graph prog) p q :=
        ⟨(q, true), entry_of_negEdge hneg, rfl⟩
      have hpnodes : p ∈ nodesList (make_dep_graph prog) :=
        key_mem_nodesList (edge_src_isSome hedge)
      obtain ⟨c, hc, hpc⟩ := hcov p hpnodes
      have hqc : q ∈ c := (hex c hc p hpc q).mpr
        ⟨⟨reach_of_edge hedge, hreach⟩, edge_tgt_mem_nodesList hedge⟩
      obtain ⟨i, hi⟩ := List.mem_iff_get?.mp hc
      have henum : (i, c) ∈ (sccs (make_dep_graph prog)
          (graphFuel (make_dep_graph prog))).enum := by
        apply List.mem_enum_iff_getElem?.mpr
        rw [← List.get?_eq_getElem?]
        exact hi
      exact stratifyCheck_error_of _ [] i c p q henum hpc hqc
        (entry_of_negEdge hneg)
  cases hsc : stratifyCheck (make_dep_graph prog)
      ((sccs (make_dep_graph prog) (graphFuel (make_dep_graph prog))).enum) []
      with
  | error e =>
    have he := stratifyCheck_error_eq _ [] hsc
    subst he
    have hstr : stratify prog = Except.error "program cannot be stratified" := by
      unfold stratify
      dsimp only []
      rw [hsc]
    refine ⟨⟨fun _ => hiff.mp hsc, fun _ => hstr⟩, ?_, ?_⟩
    · rintro ⟨r, hr⟩
      rw [hstr] at hr
      cases hr
    · intro hn
      exact absurd (hiff.mp hsc) hn
  | ok pmap =>
    have hstr : stratify prog = Except.ok (prog,
        sort_result (make_dep_graph prog)
          (sccs (make_dep_graph prog) (graphFuel (make_dep_graph prog)))
          pmap) := by
      unfold stratify
      dsimp only []
      rw [hsc]
    have hnex : ¬ ∃ p q, NegEdge (make_dep_graph prog) p q ∧
        Reach (make_dep_graph prog) q p := by
      intro hex2
      have := hiff.mpr hex2
      rw [hsc] at this
      cases this
    refine ⟨⟨?_, ?_⟩, fun _ => hnex, fun _ => ⟨_, hstr⟩⟩
    · intro h
      rw [hstr] at h
      cases h
    · intro hex2
      exact absurd hex2 hnex

/-! ### The topological sort of `sort_result` and Claim C3 -/

/-- Unfolding one non-failing step of the stratum check. -/
theorem stratifyCheck_ok_step {dep : DepGraph} {i : Nat}
    {c : List PredicateIndex} {rest : List (Nat × List PredicateIndex)}
    {pmap pmapF : List (PredicateIndex × Nat)}
    (h : stratifyCheck dep ((i, c) :: rest) pmap = Except.ok pmapF) :
    stratifyCheck dep rest (c.foldl (fun m sym => alInsert m sym i) pmap) =
      Except.ok pmapF := by
  unfold stratifyCheck at h
  dsimp only [] at h
  split at h
  · cases h
  · exact h

/-- A binding not touched by the remaining classes survives to the
final predicate map. -/
theorem stratifyCheck_ok_preserve {dep : DepGraph} :
    ∀ (L : List (Nat × List PredicateIndex))
      (pmap pmapF : List (PredicateIndex × Nat)),
      stratifyCheck dep L pmap = Except.ok pmapF →
      ∀ (q : PredicateIndex) (i : Nat), alGet pmap q = some i →
        (∀ pr ∈ L, q ∈ pr.2 → pr.1 = i) →
        alGet pmapF q = some i := by
  intro L
  induction L with
  | nil =>
    intro pmap pmapF h q i hq _
    unfold stratifyCheck at h
    cases h
    exact hq
  | cons p rest ih =>
    intro pmap pmapF h q i hq hL
    obtain ⟨j, c⟩ := p
    have h2 := stratifyCheck_ok_step h
    refine ih _ pmapF h2 q i ?_ (fun pr hpr => hL pr (List.mem_cons_of_mem _ hpr))
    rw [alGet_foldl_insert]
    by_cases hqc : q ∈ c
    · rw [if_pos hqc]
      exact congrArg some (hL (j, c) (List.mem_cons_self _ _) hqc)
    · rw [if_neg hqc]
      exact hq

/-- When the check succeeds, the final predicate map sends each class
member to its class index. -/
theorem stratifyCheck_ok_pmap {dep : DepGraph} :
    ∀ (L : List (Nat × List PredicateIndex))
      (pmap pmapF : List (PredicateIndex × Nat))
      (i : Nat) (c : List PredicateIndex) (q : PredicateIndex),
      stratifyCheck dep L pmap = Except.ok pmapF →
      (i, c) ∈ L → q ∈ c →
      (∀ pr ∈ L, q ∈ pr.2 → pr.1 = i) →
      alGet pmapF q = some i := by
  intro L
  induction L with
  | nil =>
    intro pmap pmapF i c q _ hmem
    cases hmem
  | cons p rest ih =>
    intro pmap pmapF i c q h hmem hq hL
    obtain ⟨j, c'⟩ := p
    have h2 := stratifyCheck_ok_step h
    by_cases hqc : q ∈ c'
    · have hji : j = i := hL (j, c') (List.mem_cons_self _ _) hqc
      refine stratifyCheck_ok_preserve rest _ pmapF h2 q i ?_
        (fun pr hpr => hL pr (List.mem_cons_of_mem _ hpr))
      rw [alGet_foldl_insert, if_pos hqc, hji]
    · have hmem' : (i, c) ∈ rest := by
        rcases List.mem_cons.mp hmem with hh | hh
        · exfalso
          obtain ⟨h1, h2'⟩ := Prod.mk.injEq .. ▸ hh
          exact hqc (h2' ▸ hq)
        · exact hh
      exact ih _ pmapF i c q h2 hmem' hq
        (fun pr hpr => hL pr (List.mem_cons_of_mem _ hpr))

/-- And conversely, the final map only records class memberships. -/
theorem stratifyCheck_ok_pmap_sound {dep : DepGraph}
    {strata : List (List PredicateIndex)} :
    ∀ (L : List (Nat × List PredicateIndex))
      (pmap pmapF : List (PredicateIndex × Nat)),
      stratifyCheck dep L pmap = Except.ok pmapF →
      (∀ pr ∈ L, strata.get? pr.1 = some pr.2) →
      (∀ x j, alGet pmap x = some j → ∃ c, strata.get? j = some c ∧ x ∈ c) →
      ∀ x j, alGet pmapF x = some j → ∃ c, strata.get? j = some c ∧ x ∈ c := by
  intro L
  induction L with
  | nil =>
    intro pmap pmapF h _ hpm x j hx
    unfold stratifyCheck at h
    cases h
    exact hpm x j hx
  | cons p rest ih =>
    intro pmap pmapF h hL hpm x j hx
    obtain ⟨i, c⟩ := p
    have h2 := stratifyCheck_ok_step h
    refine ih _ pmapF h2 (fun pr hpr => hL pr (List.mem_cons_of_mem _ hpr))
      ?_ x j hx
    intro x' j' hx'
    rw [alGet_foldl_insert] at hx'
    by_cases hxc : x' ∈ c
    · rw [if_pos hxc] at hx'
      cases hx'
      exact ⟨c, hL (i, c) (List.mem_cons_self _ _), hxc⟩
    · rw [if_neg hxc] at hx'
      exact hpm x' j' hx'

/-- Disjoint classes: an element determines its class index. -/
theorem strata_class_unique :
    ∀ (strata : List (List PredicateIndex)), strata.flatten.Nodup →
      ∀ (i1 i2 : Nat) (c1 c2 : List PredicateIndex) (q : PredicateIndex),
        strata.get? i1 = some c1 → strata.get? i2 = some c2 →
        q ∈ c1 → q ∈ c2 → i1 = i2 := by
  intro strata
  induction strata with
  | nil =>
    intro _ i1 i2 c1 c2 q h1
    cases i1 <;> cases h1
  | cons c0 rest ih =>
    intro hnd i1 i2 c1 c2 q h1 h2 hq1 hq2
    rw [List.flatten_cons, List.nodup_append] at hnd
    obtain ⟨hc0, hrest, hdisj⟩ := hnd
    cases i1 with
    | zero =>
      cases i2 with
      | zero => rfl
      | succ i2' =>
        exfalso
        rw [List.get?_cons_zero] at h1
        cases h1
        rw [List.get?_cons_succ] at h2
        exact hdisj hq1 (List.mem_flatten.mpr ⟨c2, List.get?_mem h2, hq2⟩)
    | succ i1' =>
      cases i2 with
      | zero =>
        exfalso
        rw [List.get?_cons_zero] at h2
        cases h2
        rw [List.get?_cons_succ] at h1
        exact hdisj hq2 (List.mem_flatten.mpr ⟨c1, List.get?_mem h1, hq1⟩)
      | succ i2' =>
        rw [List.get?_cons_succ] at h1 h2
        rw [ih hrest i1' i2' c1 c2 q h1 h2 hq1 hq2]

/-- The quotient edge relation that `visit_stratum` traverses: stratum
`i` holds a member with an edge whose target is mapped to stratum `j`
by the predicate map. -/
def QEdge (dep : DepGraph) (strata : List (List PredicateIndex))
    (pmap : List (PredicateIndex × Nat)) (i j : Nat) : Prop :=
  ∃ c, strata.get? i = some c ∧ ∃ sym ∈ c, ∃ e ∈ edgesOf dep sym,
    alGet pmap e.1 = some j

/-- A quotient edge connects any members of the two classes. -/
theorem qedge_reach {dep : DepGraph} {strata : List (List PredicateIndex)}
    {pmap : List (PredicateIndex × Nat)}
    (hexact : ∀ c ∈ strata, ∀ x ∈ c, ∀ y,
      y ∈ c ↔ (MutReach dep x y ∧ y ∈ nodesList dep))
    (hpmap : ∀ x j, alGet pmap x = some j →
      ∃ c, strata.get? j = some c ∧ x ∈ c)
    {i j : Nat} (h : QEdge dep strata pmap i j) :
    ∀ a, (∃ ca, strata.get? i = some ca ∧ a ∈ ca) →
    ∀ b, (∃ cb, strata.get? j = some cb ∧ b ∈ cb) → Reach dep a b := by
  obtain ⟨c, hc, sym, hsym, e, he, hpe⟩ := h
  rintro a ⟨ca, hca, ha⟩ b ⟨cb, hcb, hb⟩
  rw [hc] at hca
  cases hca
  obtain ⟨cb', hcb', he1⟩ := hpmap e.1 j hpe
  rw [hcb] at hcb'
  cases hcb'
  have h1 : Reach dep a sym := ((hexact c (List.get?_mem hc) sym hsym a).mp ha).1.2
  have h2 : Reach dep sym e.1 := reach_of_edge ⟨e, he, rfl⟩
  have h3 : Reach dep e.1 b :=
    ((hexact cb (List.get?_mem hcb) e.1 he1 b).mp hb).1.1
  exact reach_trans (reach_trans h1 h2) h3

/-- Quotient reachability projects to reachability between members. -/
theorem qreach_reach {dep : DepGraph} {strata : List (List PredicateIndex)}
    {pmap : List (PredicateIndex × Nat)}
    (hexact : ∀ c ∈ strata, ∀ x ∈ c, ∀ y,
      y ∈ c ↔ (MutReach dep x y ∧ y ∈ nodesList dep))
    (hpmap : ∀ x j, alGet pmap x = some j →
      ∃ c, strata.get? j = some c ∧ x ∈ c) :
    ∀ {i j : Nat}, Relation.ReflTransGen (QEdge dep strata pmap) i j →
    ∀ a, (∃ ca, strata.get? i = some ca ∧ a ∈ ca) →
    ∀ b, (∃ cb, strata.get? j = some cb ∧ b ∈ cb) → Reach dep a b := by
  intro i j h
  induction h using Relation.ReflTransGen.head_induction_on with
  | refl =>
    rintro a ⟨ca, hca, ha⟩ b ⟨cb, hcb, hb⟩
    rw [hca] at hcb
    cases hcb
    exact ((hexact ca (List.get?_mem hca) a ha b).mp hb).1.1
  | head hstep hrest ihp =>
    rename_i x y
    intro a hca b hcb
    obtain ⟨c, hc, sym, hsym, e, he, hpe⟩ := hstep
    obtain ⟨cy, hcy, he1⟩ := hpmap e.1 y hpe
    have h1 : Reach dep a e.1 :=
      qedge_reach hexact hpmap ⟨c, hc, sym, hsym, e, he, hpe⟩ a hca e.1
        ⟨cy, hcy, he1⟩
    exact reach_trans h1 (ihp e.1 ⟨cy, hcy, he1⟩ b hcb)

/-- The quotient graph over exact SCC classes is acyclic. -/
theorem qedge_acyclic {dep : DepGraph} {strata : List (List PredicateIndex)}
    {pmap : List (PredicateIndex × Nat)}
    (hexact : ∀ c ∈ strata, ∀ x ∈ c, ∀ y,
      y ∈ c ↔ (MutReach dep x y ∧ y ∈ nodesList dep))
    (hflat : strata.flatten.Nodup)
    (hpmap : ∀ x j, alGet pmap x = some j →
      ∃ c, strata.get? j = some c ∧ x ∈ c) :
    ∀ i j, QEdge dep strata pmap i j → i = j ∨
      ¬ Relation.ReflTransGen (QEdge dep strata pmap) j i := by
  intro i j hQ
  by_cases hij : i = j
  · exact Or.inl hij
  refine Or.inr fun hQR => ?_
  obtain ⟨c, hc, sym, hsym, e, he, hpe⟩ := hQ
  obtain ⟨cj, hcj, he1⟩ := hpmap e.1 j hpe
  have h1 : Reach dep sym e.1 := reach_of_edge ⟨e, he, rfl⟩
  have h2 : Reach dep e.1 sym :=
    qreach_reach hexact hpmap hQR e.1 ⟨cj, hcj, he1⟩ sym ⟨c, hc, hsym⟩
  have hmem : e.1 ∈ c := (hexact c (List.get?_mem hc) sym hsym e.1).mpr
    ⟨⟨h1, h2⟩, edge_tgt_mem_nodesList ⟨e, he, rfl⟩⟩
  exact hij (strata_class_unique strata hflat i j c cj e.1 hc hcj hmem he1)

/-- Stratum indices of `[0, n)` not yet seen by the DFS. -/
def unseenIdx (n : Nat) (seen : List Nat) : Nat :=
  ((List.range n).filter (fun x => x ∉ seen)).length

theorem unseenIdx_mono {n : Nat} {seen seen' : List Nat}
    (h : ∀ x ∈ seen, x ∈ seen') : unseenIdx n seen' ≤ unseenIdx n seen := by
  unfold unseenIdx
  induction List.range n with
  | nil => simp
  | cons a l ih =>
    simp only [List.filter_cons]
    by_cases ha' : a ∈ seen'
    · have ha : (decide (a ∉ seen') : Bool) = false := by simp [ha']
      rw [ha]
      by_cases hb : a ∈ seen
      · have : (decide (a ∉ seen) : Bool) = false := by simp [hb]
        rw [this]
        exact ih
      · have : (decide (a ∉ seen) : Bool) = true := by simp [hb]
        rw [this]
        exact Nat.le_succ_of_le ih
    · have ha : (decide (a ∉ seen') : Bool) = true := by simp [ha']
      have hb : a ∉ seen := fun hc => ha' (h a hc)
      have hb' : (decide (a ∉ seen) : Bool) = true := by simp [hb]
      rw [ha, hb']
      simpa using ih

theorem unseenIdx_lt {n : Nat} {seen : List Nat} {index : Nat}
    (hmem : index < n) (hnew : index ∉ seen) :
    unseenIdx n (seen ++ [index]) < unseenIdx n seen := by
  unfold unseenIdx
  have main : ∀ l : List Nat, index ∈ l →
      (l.filter (fun x => x ∉ seen ++ [index])).length <
        (l.filter (fun x => x ∉ seen)).length := by
    intro l
    induction l with
    | nil => intro h; cases h
    | cons a l ih =>
      intro hmem2
      simp only [List.filter_cons]
      rcases List.mem_cons.mp hmem2 with ha | ha
      · have h1 : (decide (a ∉ seen ++ [index]) : Bool) = false := by
          simp [← ha]
        have h2 : (decide (a ∉ seen) : Bool) = true := by
          rw [← ha]; simp [hnew]
        rw [h1, h2]
        exact Nat.lt_succ_of_le (filter_notmem_append_le seen index l)
      · by_cases hc : a ∈ seen
        · have h1 : (decide (a ∉ seen ++ [index]) : Bool) = false := by
            simp [List.mem_append_left _ hc]
          have h2 : (decide (a ∉ seen) : Bool) = false := by simp [hc]
          rw [h1, h2]
          exact ih ha
        · by_cases hd : a = index
          · have h1 : (decide (a ∉ seen ++ [index]) : Bool) = false := by
              simp [hd]
            have h2 : (decide (a ∉ seen) : Bool) = true := by simp [hc]
            rw [h1, h2]
            exact Nat.lt_succ_of_le (Nat.le_of_lt (ih ha))
          · have h1 : (decide (a ∉ seen ++ [index]) : Bool) = true := by
              simp [hc, hd]
            have h2 : (decide (a ∉ seen) : Bool) = true := by simp [hc]
            rw [h1, h2]
            simpa using ih ha
  exact main (List.range n) (List.mem_range.mpr hmem)

/-- The invariant of the `visit_stratum` DFS: `grey` are the indices
on the call stack; `sorted` is closed under quotient edges and lists a
target before its (distinct) source. -/
structure SortInv (dep : DepGraph) (strata : List (List PredicateIndex))
    (pmap : List (PredicateIndex × Nat)) (grey seen sorted : List Nat) :
    Prop where
  nodup : sorted.Nodup
  seen_iff : ∀ x, x ∈ seen ↔ x ∈ sorted ∨ x ∈ grey
  gdisj : ∀ x ∈ grey, x ∉ sorted
  bound : ∀ x ∈ sorted, x < strata.length
  order : ∀ i ∈ sorted, ∀ j, QEdge dep strata pmap i j → i ≠ j →
    j ∈ sorted ∧ posIn sorted j < posIn sorted i

/-- The specification of `visit_stratum`: a postorder DFS over the
acyclic quotient graph preserves `SortInv` and marks its index. -/
theorem visit_stratum_spec {dep : DepGraph}
    {strata : List (List PredicateIndex)}
    {pmap : List (PredicateIndex × Nat)}
    (hQlt : ∀ x j, alGet pmap x = some j → j < strata.length)
    (hacyc : ∀ i j, QEdge dep strata pmap i j → i = j ∨
      ¬ Relation.ReflTransGen (QEdge dep strata pmap) j i) :
    ∀ (fuel index : Nat) (seen sorted grey : List Nat),
      unseenIdx strata.length seen < fuel →
      index < strata.length →
      SortInv dep strata pmap grey seen sorted →
      (∀ g2 ∈ grey, Relation.ReflTransGen (QEdge dep strata pmap) g2 index) →
      ∃ seen' sorted',
        visit_stratum dep strata pmap fuel index (seen, sorted) =
          (seen', sorted') ∧
        (∃ ext, seen' = seen ++ ext) ∧
        (∃ ext, sorted' = sorted ++ ext) ∧
        index ∈ seen' ∧
        (index ∈ grey ∨ index ∈ sorted') ∧
        SortInv dep strata pmap grey seen' sorted' := by
  intro fuel
  induction fuel with
  | zero =>
    intro index seen sorted grey hfuel
    exact absurd hfuel (Nat.not_lt_zero _)
  | succ fuel ihf =>
    intro index seen sorted grey hfuel hidx hInv hG
    by_cases hseen : index ∈ seen
    · refine ⟨seen, sorted, by simp [visit_stratum, hseen], ⟨[], by simp⟩,
        ⟨[], by simp⟩, hseen, ?_, hInv⟩
      rcases (hInv.seen_iff index).mp hseen with h | h
      · exact Or.inr h
      · exact Or.inl h
    · have hidxnG : index ∉ grey := fun hc =>
        hseen ((hInv.seen_iff index).mpr (Or.inr hc))
      have hidxnS : index ∉ sorted := fun hc =>
        hseen ((hInv.seen_iff index).mpr (Or.inl hc))
      have hfuel1 : unseenIdx strata.length (seen ++ [index]) < fuel := by
        have := unseenIdx_lt hidx hseen
        omega
      have hInv1 : SortInv dep strata pmap (grey ++ [index])
          (seen ++ [index]) sorted := by
        refine ⟨hInv.nodup, ?_, ?_, hInv.bound, hInv.order⟩
        · intro x
          constructor
          · intro hx
            rcases List.mem_append.mp hx with hx | hx
            · rcases (hInv.seen_iff x).mp hx with hx | hx
              · exact Or.inl hx
              · exact Or.inr (List.mem_append_left _ hx)
            · exact Or.inr (List.mem_append_right _ hx)
          · intro hx
            rcases hx with hx | hx
            · exact List.mem_append_left _ ((hInv.seen_iff x).mpr (Or.inl hx))
            · rcases List.mem_append.mp hx with hx | hx
              · exact List.mem_append_left _
                  ((hInv.seen_iff x).mpr (Or.inr hx))
              · exact List.mem_append_right _ hx
        · intro x hx
          rcases List.mem_append.mp hx with hx | hx
          · exact hInv.gdisj x hx
          · rw [List.mem_singleton.mp hx]
            exact hidxnS
      cases hgetc : strata.get? index with
      | none =>
        have hstep : visit_stratum dep strata pmap (fuel + 1) index
            (seen, sorted) = (seen ++ [index], sorted ++ [index]) := by
          rw [visit_stratum, if_neg hseen, hgetc]
        refine ⟨seen ++ [index], sorted ++ [index], hstep, ⟨[index], rfl⟩,
          ⟨[index], rfl⟩,
          List.mem_append_right _ (List.mem_singleton_self _),
          Or.inr (List.mem_append_right _ (List.mem_singleton_self _)), ?_⟩
        refine ⟨?_, ?_, ?_, ?_, ?_⟩
        · rw [List.nodup_append]
          exact ⟨hInv.nodup, List.nodup_singleton _,
            fun x hx hx2 => hidxnS (List.mem_singleton.mp hx2 ▸ hx)⟩
        · intro x
          constructor
          · intro hx
            rcases List.mem_append.mp hx with hx | hx
            · rcases (hInv.seen_iff x).mp hx with hx | hx
              · exact Or.inl (List.mem_append_left _ hx)
              · exact Or.inr hx
            · exact Or.inl (List.mem_append_right _ hx)
          · intro hx
            rcases hx with hx | hx
            · rcases List.mem_append.mp hx with hx | hx
              · exact List.mem_append_left _
                  ((hInv.seen_iff x).mpr (Or.inl hx))
              · exact List.mem_append_right _ hx
            · exact List.mem_append_left _ ((hInv.seen_iff x).mpr (Or.inr hx))
        · intro x hx hc
          rcases List.mem_append.mp hc with hc | hc
          · exact hInv.gdisj x hx hc
          · have : x ∈ seen := (hInv.seen_iff x).mpr (Or.inr hx)
            exact hseen (List.mem_singleton.mp hc ▸ this)
        · intro x hx
          rcases List.mem_append.mp hx with hx | hx
          · exact hInv.bound x hx
          · exact List.mem_singleton.mp hx ▸ hidx
        · intro i hi j hQ hij
          rcases List.mem_append.mp hi with hi | hi
          · obtain ⟨hj, hpos⟩ := hInv.order i hi j hQ hij
            refine ⟨List.mem_append_left _ hj, ?_⟩
            rw [posIn_append_left _ hj, posIn_append_left _ hi]
            exact hpos
          · exfalso
            obtain ⟨c', hc', _⟩ := hQ
            rw [List.mem_singleton.mp hi, hgetc] at hc'
            cases hc'
      | some c =>
        have hstep : visit_stratum dep strata pmap (fuel + 1) index
            (seen, sorted) =
            ((c.foldl
                (fun ss sym =>
                  (edgesOf dep sym).foldl
                    (fun ss (d : PredicateIndex × Bool) =>
                      match alGet pmap d.1 with
                      | some ds => visit_stratum dep strata pmap fuel ds ss
                      | none => ss)
                    ss)
                (seen ++ [index], sorted)).1,
             (c.foldl
                (fun ss sym =>
                  (edgesOf dep sym).foldl
                    (fun ss (d : PredicateIndex × Bool) =>
                      match alGet pmap d.1 with
                      | some ds => visit_stratum dep strata pmap fuel ds ss
                      | none => ss)
                    ss)
                (seen ++ [index], sorted)).2 ++ [index]) := by
          rw [visit_stratum, if_neg hseen, hgetc]
        have edges_fold_spec : ∀ (eds : List (PredicateIndex × Bool))
            (s01 s02 : List Nat),
            (∀ e ∈ eds, ∀ ds, alGet pmap e.1 = some ds →
              QEdge dep strata pmap index ds) →
            unseenIdx strata.length s01 < fuel →
            SortInv dep strata pmap (grey ++ [index]) s01 s02 →
            ∃ seen1 sorted1,
              eds.foldl
                (fun ss (d : PredicateIndex × Bool) =>
                  match alGet pmap d.1 with
                  | some ds => visit_stratum dep strata pmap fuel ds ss
                  | none => ss)
                (s01, s02) = (seen1, sorted1) ∧
              (∃ ext, seen1 = s01 ++ ext) ∧
              (∃ ext, sorted1 = s02 ++ ext) ∧
              SortInv dep strata pmap (grey ++ [index]) seen1 sorted1 ∧
              (∀ e ∈ eds, ∀ ds, alGet pmap e.1 = some ds → ds ∈ seen1) := by
          intro eds
          induction eds with
          | nil =>
            intro s01 s02 _ _ hI
            exact ⟨s01, s02, rfl, ⟨[], by simp⟩, ⟨[], by simp⟩, hI,
              fun e he => absurd he (List.not_mem_nil e)⟩
          | cons e eds' ihe =>
            intro s01 s02 hQ hf hI
            rw [List.foldl_cons]
            cases hpe : alGet pmap e.1 with
            | none =>
              obtain ⟨seen1, sorted1, heq1, hx1, hx2, hI1, hproc⟩ :=
                ihe s01 s02 (fun e2 he2 => hQ e2 (List.mem_cons_of_mem _ he2))
                  hf hI
              refine ⟨seen1, sorted1, ?_, hx1, hx2, hI1, ?_⟩
              · exact heq1
              · intro e2 he2 ds2 hds2
                rcases List.mem_cons.mp he2 with he2 | he2
                · rw [he2, hpe] at hds2
                  cases hds2
                · exact hproc e2 he2 ds2 hds2
            | some ds =>
              have hQe : QEdge dep strata pmap index ds :=
                hQ e (List.mem_cons_self _ _) ds hpe
              have hG' : ∀ g2 ∈ grey ++ [index],
                  Relation.ReflTransGen (QEdge dep strata pmap) g2 ds := by
                intro g2 hg2
                rcases List.mem_append.mp hg2 with hg2 | hg2
                · exact Relation.ReflTransGen.tail (hG g2 hg2) hQe
                · rw [List.mem_singleton.mp hg2]
                  exact Relation.ReflTransGen.single hQe
              obtain ⟨seen', sorted', heq, ⟨ext1, hext1⟩, ⟨ext2, hext2⟩,
                hmark, _, hI'⟩ :=
                ihf ds s01 s02 (grey ++ [index]) hf (hQlt e.1 ds hpe) hI hG'
              have hf' : unseenIdx strata.length seen' < fuel := by
                have := @unseenIdx_mono strata.length s01 seen'
                  (by intro x hx; rw [hext1]; exact List.mem_append_left _ hx)
                omega
              obtain ⟨seen1, sorted1, heq1, ⟨ext3, hext3⟩, ⟨ext4, hext4⟩,
                hI1, hproc⟩ :=
                ihe seen' sorted'
                  (fun e2 he2 => hQ e2 (List.mem_cons_of_mem _ he2)) hf' hI'
              refine ⟨seen1, sorted1, ?_, ?_, ?_, hI1, ?_⟩
              · show List.foldl _
                  (visit_stratum dep strata pmap fuel ds (s01, s02)) eds' =
                    (seen1, sorted1)
                rw [heq]
                exact heq1
              · exact ⟨ext1 ++ ext3, by rw [hext3, hext1, List.append_assoc]⟩
              · exact ⟨ext2 ++ ext4, by rw [hext4, hext2, List.append_assoc]⟩
              · intro e2 he2 ds2 hds2
                rcases List.mem_cons.mp he2 with he2 | he2
                · rw [he2, hpe] at hds2
                  cases hds2
                  rw [hext3]
                  exact List.mem_append_left _ hmark
                · exact hproc e2 he2 ds2 hds2
        have syms_fold_spec : ∀ (syms : List PredicateIndex)
            (s01 s02 : List Nat),
            (∀ sym ∈ syms, sym ∈ c) →
            unseenIdx strata.length s01 < fuel →
            SortInv dep strata pmap (grey ++ [index]) s01 s02 →
            ∃ seen1 sorted1,
              syms.foldl
                (fun ss sym =>
                  (edgesOf dep sym).foldl
                    (fun ss (d : PredicateIndex × Bool) =>
                      match alGet pmap d.1 with
                      | some ds => visit_stratum dep strata pmap fuel ds ss
                      | none => ss)
                    ss)
                (s01, s02) = (seen1, sorted1) ∧
              (∃ ext, seen1 = s01 ++ ext) ∧
              (∃ ext, sorted1 = s02 ++ ext) ∧
              SortInv dep strata pmap (grey ++ [index]) seen1 sorted1 ∧
              (∀ sym ∈ syms, ∀ e ∈ edgesOf dep sym, ∀ ds,
                alGet pmap e.1 = some ds → ds ∈ seen1) := by
          intro syms
          induction syms with
          | nil =>
            intro s01 s02 _ _ hI
            exact ⟨s01, s02, rfl, ⟨[], by simp⟩, ⟨[], by simp⟩, hI,
              fun sym hsym => absurd hsym (List.not_mem_nil sym)⟩
          | cons sym syms' ihs =>
            intro s01 s02 hsub hf hI
            have hQs : ∀ e ∈ edgesOf dep sym, ∀ ds, alGet pmap e.1 = some ds →
                QEdge dep strata pmap index ds :=
              fun e he ds hds =>
                ⟨c, hgetc, sym, hsub sym (List.mem_cons_self _ _), e, he, hds⟩
            obtain ⟨seen', sorted', heq, ⟨ext1, hext1⟩, ⟨ext2, hext2⟩, hI',
              hproc'⟩ := edges_fold_spec (edgesOf dep sym) s01 s02 hQs hf hI
            have hf' : unseenIdx strata.length seen' < fuel := by
              have := @unseenIdx_mono strata.length s01 seen'
                (by intro x hx; rw [hext1]; exact List.mem_append_left _ hx)
              omega
            obtain ⟨seen1, sorted1, heq1, ⟨ext3, hext3⟩, ⟨ext4, hext4⟩, hI1,
              hproc1⟩ :=
              ihs seen' sorted'
                (fun s hs => hsub s (List.mem_cons_of_mem _ hs)) hf' hI'
            refine ⟨seen1, sorted1, ?_, ?_, ?_, hI1, ?_⟩
            · rw [List.foldl_cons]
              show List.foldl _ (List.foldl _ (s01, s02) (edgesOf dep sym))
                syms' = (seen1, sorted1)
              rw [heq]
              exact heq1
            · exact ⟨ext1 ++ ext3, by rw [hext3, hext1, List.append_assoc]⟩
            · exact ⟨ext2 ++ ext4, by rw [hext4, hext2, List.append_assoc]⟩
            · intro sym2 hsym2 e he ds hds
              rcases List.mem_cons.mp hsym2 with hsym2 | hsym2
              · rw [hext3]
                exact List.mem_append_left _ (hproc' e (hsym2 ▸ he) ds hds)
              · exact hproc1 sym2 hsym2 e he ds hds
        obtain ⟨seen1, sorted1, heqf, ⟨ext1, hext1⟩, ⟨ext2, hext2⟩, hIf,
          hprocf⟩ :=
          syms_fold_spec c (seen ++ [index]) sorted (fun s hs => hs)
            hfuel1 hInv1
        have hidx1 : index ∉ sorted1 :=
          hIf.gdisj index (List.mem_append_right _ (List.mem_singleton_self _))
        refine ⟨seen1, sorted1 ++ [index], by rw [hstep, heqf], ?_, ?_, ?_,
          Or.inr (List.mem_append_right _ (List.mem_singleton_self _)), ?_⟩
        · exact ⟨[index] ++ ext1, by rw [hext1, List.append_assoc]⟩
        · exact ⟨ext2 ++ [index], by rw [hext2, List.append_assoc]⟩
        · rw [hext1]
          exact List.mem_append_left _
            (List.mem_append_right _ (List.mem_singleton_self _))
        · refine ⟨?_, ?_, ?_, ?_, ?_⟩
          · rw [List.nodup_append]
            exact ⟨hIf.nodup, List.nodup_singleton _,
              fun x hx hx2 => hidx1 (List.mem_singleton.mp hx2 ▸ hx)⟩
          · intro x
            constructor
            · intro hx
              rcases (hIf.seen_iff x).mp hx with hx | hx
              · exact Or.inl (List.mem_append_left _ hx)
              · rcases List.mem_append.mp hx with hx | hx
                · exact Or.inr hx
                · exact Or.inl (List.mem_append_right _ hx)
            · intro hx
              rcases hx with hx | hx
              · rcases List.mem_append.mp hx with hx | hx
                · exact (hIf.seen_iff x).mpr (Or.inl hx)
                · exact (hIf.seen_iff x).mpr
                    (Or.inr (List.mem_append_right _ hx))
              · exact (hIf.seen_iff x).mpr (Or.inr (List.mem_append_left _ hx))
          · intro x hx hc
            rcases List.mem_append.mp hc with hc | hc
            · exact hIf.gdisj x (List.mem_append_left _ hx) hc
            · have : x ∈ seen := (hInv.seen_iff x).mpr (Or.inr hx)
              exact hseen (List.mem_singleton.mp hc ▸ this)
          · intro x hx
            rcases List.mem_append.mp hx with hx | hx
            · exact hIf.bound x hx
            · exact List.mem_singleton.mp hx ▸ hidx
          · intro i hi j hQ hij
            rcases List.mem_append.mp hi with hi | hi
            · obtain ⟨hj, hpos⟩ := hIf.order i hi j hQ hij
              refine ⟨List.mem_append_left _ hj, ?_⟩
              rw [posIn_append_left _ hj, posIn_append_left _ hi]
              exact hpos
            · have hieq : i = index := List.mem_singleton.mp hi
              subst hieq
              obtain ⟨c', hc', sym, hsym, e, he, hpe⟩ := hQ
              rw [hgetc] at hc'
              cases hc'
              have hjseen : j ∈ seen1 := hprocf sym hsym e he j hpe
              have hjs : j ∈ sorted1 := by
                rcases (hIf.seen_iff j).mp hjseen with hj | hj
                · exact hj
                · exfalso
                  rcases List.mem_append.mp hj with hj | hj
                  · rcases hacyc i j ⟨c, hgetc, sym, hsym, e, he, hpe⟩ with
                      h | h
                    · exact hij h
                    · exact h (hG j hj)
                  · exact hij (List.mem_singleton.mp hj).symm
              refine ⟨List.mem_append_left _ hjs, ?_⟩
              rw [posIn_append_left _ hjs,
                posIn_append_right _ hidx1, posIn_cons, if_pos rfl]
              have := posIn_lt_length hjs
              omega

theorem posIn_get? {x : PredicateIndex} :
    ∀ {l : List PredicateIndex}, x ∈ l → l.get? (posIn l x) = some x := by
  intro l
  induction l with
  | nil => intro h; cases h
  | cons a l ih =>
    intro h
    rw [posIn_cons]
    by_cases ha : a = x
    · rw [if_pos ha, List.get?_cons_zero, ha]
    · rw [if_neg ha, List.get?_cons_succ]
      have hx : x ∈ l := by
        rcases List.mem_cons.mp h with h | h
        · exact absurd h.symm ha
        · exact h
      exact ih hx

theorem unseenIdx_le (n : Nat) (seen : List Nat) : unseenIdx n seen ≤ n := by
  unfold unseenIdx
  calc ((List.range n).filter (fun x => x ∉ seen)).length
      ≤ (List.range n).length := List.length_filter_le ..
    _ = n := List.length_range n

theorem sortInv_nil (dep : DepGraph) (strata : List (List PredicateIndex))
    (pmap : List (PredicateIndex × Nat)) : SortInv dep strata pmap [] [] [] := by
  refine ⟨List.nodup_nil, by simp, by simp, by simp, by simp⟩

/-- The driving loop of `sort_result` produces a full postorder. -/
theorem sort_fold_spec {dep : DepGraph} {strata : List (List PredicateIndex)}
    {pmap : List (PredicateIndex × Nat)}
    (hQlt : ∀ x j, alGet pmap x = some j → j < strata.length)
    (hacyc : ∀ i j, QEdge dep strata pmap i j → i = j ∨
      ¬ Relation.ReflTransGen (QEdge dep strata pmap) j i) :
    ∀ (idxs : List Nat) (seen sorted : List Nat),
      (∀ i ∈ idxs, i < strata.length) →
      SortInv dep strata pmap [] seen sorted →
      ∃ seenF sortedF,
        idxs.foldl
          (fun ss i => visit_stratum dep strata pmap (strata.length + 1) i ss)
          (seen, sorted) = (seenF, sortedF) ∧
        (∃ ext, sortedF = sorted ++ ext) ∧
        (∀ i ∈ idxs, i ∈ sortedF) ∧
        SortInv dep strata pmap [] seenF sortedF := by
  intro idxs
  induction idxs with
  | nil =>
    intro seen sorted _ hI
    exact ⟨seen, sorted, rfl, ⟨[], by simp⟩,
      fun i hi => absurd hi (List.not_mem_nil i), hI⟩
  | cons i0 idxs' ih =>
    intro seen sorted hb hI
    have hfuel : unseenIdx strata.length seen < strata.length + 1 :=
      Nat.lt_succ_of_le (unseenIdx_le ..)
    obtain ⟨seen', sorted', heq, _, ⟨ext1, hext1⟩, _, hmem, hI'⟩ :=
      visit_stratum_spec hQlt hacyc (strata.length + 1) i0 seen sorted []
        hfuel (hb i0 (List.mem_cons_self _ _)) hI
        (by intro g2 hg2; cases hg2)
    have hmem' : i0 ∈ sorted' := by
      rcases hmem with h | h
      · cases h
      · exact h
    obtain ⟨seenF, sortedF, heqF, ⟨ext2, hext2⟩, hcov, hIF⟩ :=
      ih seen' sorted' (fun i hi => hb i (List.mem_cons_of_mem _ hi)) hI'
    refine ⟨seenF, sortedF, ?_, ?_, ?_, hIF⟩
    · rw [List.foldl_cons]
      show List.foldl _
        (visit_stratum dep strata pmap (strata.length + 1) i0 (seen, sorted))
        idxs' = _
      rw [heq]
      exact heqF
    · exact ⟨ext1 ++ ext2, by rw [hext2, hext1, List.append_assoc]⟩
    · intro i hi
      rcases List.mem_cons.mp hi with hi | hi
      · rw [hext2]
        exact List.mem_append_left _ (hi ▸ hmem')
      · exact hcov i hi

/-- The permutation-building fold of `sort_result`: slots not named by
any processed position keep their value. -/
theorem perm_fold_untouched (sortedF : List Nat) :
    ∀ (idxs : List Nat) (acc : List Nat) (o : Nat),
      (∀ new ∈ idxs, sortedF.get? new ≠ some o) →
      (idxs.foldl
        (fun perm new_idx =>
          match sortedF.get? new_idx with
          | some old_idx => perm.set old_idx new_idx
          | none => perm)
        acc).get? o = acc.get? o := by
  intro idxs
  induction idxs with
  | nil => intro acc o _; rfl
  | cons new idxs' ih =>
    intro acc o hne
    rw [List.foldl_cons]
    cases hg : sortedF.get? new with
    | none =>
      exact ih acc o (fun n2 h2 => hne n2 (List.mem_cons_of_mem _ h2))
    | some old =>
      have hne0 : old ≠ o := fun hc =>
        hne new (List.mem_cons_self _ _) (by rw [hg, hc])
      exact (ih (acc.set old new) o
        (fun n2 h2 => hne n2 (List.mem_cons_of_mem _ h2))).trans
        (List.get?_set_ne new acc hne0)

/-- The slot of an element of `sortedF` receives its position. -/
theorem perm_fold_touched (sortedF : List Nat) :
    ∀ (idxs : List Nat) (acc : List Nat) (o new0 : Nat),
      idxs.Nodup →
      new0 ∈ idxs →
      sortedF.get? new0 = some o →
      (∀ n1 ∈ idxs, sortedF.get? n1 = some o → n1 = new0) →
      o < acc.length →
      (idxs.foldl
        (fun perm new_idx =>
          match sortedF.get? new_idx with
          | some old_idx => perm.set old_idx new_idx
          | none => perm)
        acc).get? o = some new0 := by
  intro idxs
  induction idxs with
  | nil =>
    intro acc o new0 _ hmem
    cases hmem
  | cons new idxs' ih =>
    intro acc o new0 hnd hmem hg0 huniq holt
    rw [List.foldl_cons]
    rw [List.nodup_cons] at hnd
    cases hg : sortedF.get? new with
    | none =>
      have hne : new0 ≠ new := fun hc => by
        rw [hc, hg] at hg0
        cases hg0
      have hmem' : new0 ∈ idxs' := by
        rcases List.mem_cons.mp hmem with h | h
        · exact absurd h hne
        · exact h
      exact ih acc o new0 hnd.2 hmem' hg0
        (fun n1 h1 => huniq n1 (List.mem_cons_of_mem _ h1)) holt
    | some old =>
      by_cases ho : old = o
      · subst ho
        have hne0 : new = new0 := huniq new (List.mem_cons_self _ _) hg
        subst hne0
        have huntouched : ∀ n2 ∈ idxs', sortedF.get? n2 ≠ some old := by
          intro n2 h2 hc
          have hn2 : n2 = new := huniq n2 (List.mem_cons_of_mem _ h2) hc
          exact hnd.1 (hn2 ▸ h2)
        exact (perm_fold_untouched sortedF idxs' (acc.set old new) old
          huntouched).trans (List.get?_set_eq_of_lt new holt)
      · have hne : new ≠ new0 := fun hc => by
          rw [hc, hg0] at hg
          cases hg
          exact ho rfl
        have hmem' : new0 ∈ idxs' := by
          rcases List.mem_cons.mp hmem with h | h
          · exact absurd h.symm hne
          · exact h
        have holt' : o < (acc.set old new).length := by
          rw [List.length_set]
          exact holt
        exact ih (acc.set old new) o new0 hnd.2 hmem' hg0
          (fun n1 h1 => huniq n1 (List.mem_cons_of_mem _ h1)) holt'

theorem perm_fold_length (sortedF : List Nat) :
    ∀ (idxs : List Nat) (acc : List Nat),
      (idxs.foldl
        (fun perm new_idx =>
          match sortedF.get? new_idx with
          | some old_idx => perm.set old_idx new_idx
          | none => perm)
        acc).length = acc.length := by
  intro idxs
  induction idxs with
  | nil => intro acc; rfl
  | cons new idxs' ih =>
    intro acc
    rw [List.foldl_cons]
    cases hg : sortedF.get? new with
    | none => exact ih acc
    | some old => exact (ih (acc.set old new)).trans (List.length_set ..)

/-! #### Cycle structure of the permutation applied by
`apply_permutation_cycle_rotate` -/

theorem pf_iter_lt (n : Nat) (pf : Nat → Nat) (hvals : ∀ i < n, pf i < n) :
    ∀ (t i : Nat), i < n → pf^[t] i < n := by
  intro t
  induction t with
  | zero => intro i hi; simpa using hi
  | succ t ih =>
    intro i hi
    rw [Function.iterate_succ_apply']
    exact hvals _ (ih i hi)

theorem pf_iter_inj (n : Nat) (pf : Nat → Nat) (hvals : ∀ i < n, pf i < n)
    (hinj : ∀ a b, a < n → b < n → pf a = pf b → a = b) :
    ∀ (t x y : Nat), x < n → y < n → pf^[t] x = pf^[t] y → x = y := by
  intro t
  induction t with
  | zero => intro x y _ _ h; simpa using h
  | succ t ih =>
    intro x y hx hy h
    rw [Function.iterate_succ_apply', Function.iterate_succ_apply'] at h
    exact ih x y hx hy
      (hinj _ _ (pf_iter_lt n pf hvals t x hx) (pf_iter_lt n pf hvals t y hy) h)

theorem pf_period (n : Nat) (pf : Nat → Nat) (hvals : ∀ i < n, pf i < n)
    (hinj : ∀ a b, a < n → b < n → pf a = pf b → a = b)
    (i : Nat) (hi : i < n) : ∃ k, 0 < k ∧ pf^[k] i = i := by
  have hc : (Finset.range n).card < (Finset.range (n + 1)).card := by simp
  have hm : ∀ a ∈ Finset.range (n + 1), pf^[a] i ∈ Finset.range n := by
    intro a _
    exact Finset.mem_range.mpr (pf_iter_lt n pf hvals a i hi)
  obtain ⟨x, hx, y, hy, hne, heq⟩ :=
    Finset.exists_ne_map_eq_of_card_lt_of_maps_to hc hm
  have main : ∀ a b : Nat, a < b → pf^[a] i = pf^[b] i →
      ∃ k, 0 < k ∧ pf^[k] i = i := by
    intro a b hab hab2
    refine ⟨b - a, by omega, ?_⟩
    have h2 : pf^[a] (pf^[b - a] i) = pf^[a] i := by
      rw [← Function.iterate_add_apply,
        show a + (b - a) = b from by omega]
      exact hab2.symm
    exact pf_iter_inj n pf hvals hinj a _ i
      (pf_iter_lt n pf hvals (b - a) i hi) hi h2
  rcases Nat.lt_or_ge x y with hlt | hge
  · exact main x y hlt heq
  · have hlt : y < x := by omega
    exact main y x hlt heq.symm

/-- The orbit of `i` under an injective self-map of `[0, n)`: the cycle
that `apply_permutation_cycle_rotate` rotates. -/
theorem cycle_orbit (n : Nat) (pf : Nat → Nat)
    (hvals : ∀ i < n, pf i < n)
    (hinj : ∀ a b, a < n → b < n → pf a = pf b → a = b)
    (i : Nat) (hi : i < n) :
    ∃ R : List Nat,
      (∃ r0, R = i :: r0) ∧
      R.Nodup ∧
      (∀ x ∈ R, x < n) ∧
      List.Chain' (fun a b => pf a = b) R ∧
      (∀ x, R.getLast? = some x → pf x = i) ∧
      (∀ a ∈ R, pf a ∈ R) ∧
      (∀ a ∈ R, ∃ b ∈ R, pf b = a) ∧
      (∀ a ∈ R, ∃ s, pf^[s] a = i) ∧
      R.length ≤ n := by
  have hex : ∃ k, 0 < k ∧ pf^[k] i = i := pf_period n pf hvals hinj i hi
  obtain ⟨hkpos, hkfix⟩ := Nat.find_spec hex
  have hkmin : ∀ m, m < Nat.find hex → ¬(0 < m ∧ pf^[m] i = i) :=
    fun m hm => Nat.find_min hex hm
  have hcancel : ∀ t1 t2, t1 < t2 → t2 < Nat.find hex →
      pf^[t1] i = pf^[t2] i → False := by
    intro t1 t2 h12 h2k he
    have h3 : pf^[t1] (pf^[t2 - t1] i) = pf^[t1] i := by
      rw [← Function.iterate_add_apply,
        show t1 + (t2 - t1) = t2 from by omega]
      exact he.symm
    have h4 : pf^[t2 - t1] i = i :=
      pf_iter_inj n pf hvals hinj t1 _ i
        (pf_iter_lt n pf hvals (t2 - t1) i hi) hi h3
    exact hkmin (t2 - t1) (by omega) ⟨by omega, h4⟩
  refine ⟨(List.range (Nat.find hex)).map (fun t => pf^[t] i),
    ?_, ?_, ?_, ?_, ?_, ?_, ?_, ?_, ?_⟩
  · cases hk : Nat.find hex with
    | zero => omega
    | succ kk =>
      refine ⟨((List.range kk).map Nat.succ).map (fun t => pf^[t] i), ?_⟩
      rw [List.range_succ_eq_map, List.map_cons]
      simp only [Function.iterate_zero_apply]
  · refine List.Nodup.map_on ?_ (List.nodup_range _)
    intro t1 ht1 t2 ht2 he
    rw [List.mem_range] at ht1 ht2
    rcases Nat.lt_trichotomy t1 t2 with h | h | h
    · exact absurd he (fun hc => hcancel t1 t2 h ht2 hc)
    · exact h
    · exact absurd he.symm (fun hc => hcancel t2 t1 h ht1 hc)
  · intro x hx
    obtain ⟨t, _, ht⟩ := List.mem_map.mp hx
    exact ht ▸ pf_iter_lt n pf hvals t i hi
  · rw [List.chain'_map]
    cases hk : Nat.find hex with
    | zero => exact List.chain'_nil
    | succ kk =>
      refine (List.chain'_range_succ _ kk).mpr ?_
      intro m _
      rw [Function.iterate_succ_apply']
  · intro x hx
    cases hk : Nat.find hex with
    | zero => omega
    | succ kk =>
      rw [hk, List.getLast?_map] at hx
      have hlast : (List.range (kk + 1)).getLast? = some kk := by
        rw [List.range_succ]
        exact List.getLast?_concat _
      rw [hlast] at hx
      have hxe : x = pf^[kk] i := by
        cases hx
        rfl
      rw [hk] at hkfix
      rw [hxe, ← Function.iterate_succ_apply' pf kk i]
      exact hkfix
  · intro a ha
    obtain ⟨t, ht, hta⟩ := List.mem_map.mp ha
    rw [List.mem_range] at ht
    rw [← hta, ← Function.iterate_succ_apply' pf t i]
    by_cases hsucc : t + 1 < Nat.find hex
    · exact List.mem_map.mpr ⟨t + 1, List.mem_range.mpr hsucc, rfl⟩
    · have hteq : t + 1 = Nat.find hex := by omega
      rw [Nat.succ_eq_add_one, hteq, hkfix]
      exact List.mem_map.mpr ⟨0, List.mem_range.mpr (by omega),
        by simp⟩
  · intro a ha
    obtain ⟨t, ht, hta⟩ := List.mem_map.mp ha
    rw [List.mem_range] at ht
    cases t with
    | zero =>
      refine ⟨pf^[Nat.find hex - 1] i,
        List.mem_map.mpr ⟨Nat.find hex - 1, List.mem_range.mpr (by omega),
          rfl⟩, ?_⟩
      rw [← Function.iterate_succ_apply' pf (Nat.find hex - 1) i,
        Nat.succ_eq_add_one,
        show Nat.find hex - 1 + 1 = Nat.find hex from by omega, hkfix]
      rw [← hta]
      simp
    | succ t' =>
      refine ⟨pf^[t'] i,
        List.mem_map.mpr ⟨t', List.mem_range.mpr (by omega), rfl⟩, ?_⟩
      rw [← Function.iterate_succ_apply' pf t' i]
      exact hta
  · intro a ha
    obtain ⟨t, ht, hta⟩ := List.mem_map.mp ha
    rw [List.mem_range] at ht
    refine ⟨Nat.find hex - t, ?_⟩
    rw [← hta, ← Function.iterate_add_apply,
      show Nat.find hex - t + t = Nat.find hex from by omega]
    exact hkfix
  · have hsub : (List.range (Nat.find hex)).map (fun t => pf^[t] i) ⊆
        List.range n := by
      intro x hx
      obtain ⟨t, _, ht⟩ := List.mem_map.mp hx
      exact List.mem_range.mpr (ht ▸ pf_iter_lt n pf hvals t i hi)
    have hnd : ((List.range (Nat.find hex)).map (fun t => pf^[t] i)).Nodup := by
      refine List.Nodup.map_on ?_ (List.nodup_range _)
      intro t1 ht1 t2 ht2 he
      rw [List.mem_range] at ht1 ht2
      rcases Nat.lt_trichotomy t1 t2 with h | h | h
      · exact absurd he (fun hc => hcancel t1 t2 h ht2 hc)
      · exact h
      · exact absurd he.symm (fun hc => hcancel t2 t1 h ht1 hc)
    have := List.Subperm.length_le (List.Nodup.subperm hnd hsub)
    simpa using this

/-- The inner rotation loop moves every cycle member's value to its
image slot, leaves other slots alone, and marks the whole cycle
visited. -/
theorem cycleInner_spec (perm : List Nat) (n i : Nat) (R : List Nat)
    (arrS : List (List PredicateIndex)) (visS : List Bool)
    (hinj : ∀ a b, a < n → b < n → perm.getD a 0 = perm.getD b 0 → a = b)
    (hRlt : ∀ x ∈ R, x < n)
    (hRnodup : R.Nodup)
    (hRhead : ∃ r0, R = i :: r0)
    (hRlastp : ∀ x, R.getLast? = some x → perm.getD x 0 = i)
    (hRchain : List.Chain' (fun a b => perm.getD a 0 = b) R) :
    ∀ (suf done : List Nat) (cur : Nat) (val : List PredicateIndex)
      (arr : List (List PredicateIndex)) (vis : List Bool) (fuel : Nat),
      R = done ++ cur :: suf →
      suf.length < fuel →
      arr.length = n → vis.length = n → arrS.length = n →
      arrS.get? cur = some val →
      (∀ a ∈ done, arr.get? (perm.getD a 0) = arrS.get? a) →
      (∀ p, (∀ a ∈ done, perm.getD a 0 ≠ p) →
        arr.get? p = (arrS.set i []).get? p) →
      (∀ p ∈ done, vis.get? p = some true) →
      (∀ p, p ∉ done → vis.get? p = visS.get? p) →
      ∃ arrF visF,
        cycleInner perm fuel cur val i (arr, vis) = (arrF, visF) ∧
        arrF.length = n ∧ visF.length = n ∧
        (∀ a ∈ R, arrF.get? (perm.getD a 0) = arrS.get? a) ∧
        (∀ p, (∀ a ∈ R, perm.getD a 0 ≠ p) →
          arrF.get? p = (arrS.set i []).get? p) ∧
        (∀ p ∈ R, visF.get? p = some true) ∧
        (∀ p, p ∉ R → visF.get? p = visS.get? p) := by
  have hin : i < n := by
    obtain ⟨r0, hr0⟩ := hRhead
    exact hRlt i (by rw [hr0]; exact List.mem_cons_self _ _)
  intro suf
  induction suf with
  | nil =>
    intro done cur val arr vis fuel hR hfuel hlA hlV hlAS hval hdoneA hunA
      hdoneV hunV
    cases fuel with
    | zero => exact absurd hfuel (Nat.not_lt_zero _)
    | succ fl =>
      have hcurR : cur ∈ R := by
        rw [hR]
        exact List.mem_append_right _ (List.mem_cons_self _ _)
      have hcurn : cur < n := hRlt cur hcurR
      have hcurdone : cur ∉ done := by
        have hnd := hRnodup
        rw [hR, List.nodup_append] at hnd
        exact fun hc => hnd.2.2 hc (List.mem_cons_self _ _)
      have hlast : perm.getD cur 0 = i :=
        hRlastp cur (by rw [hR]; exact List.getLast?_concat done)
      have heq : cycleInner perm (fl + 1) cur val i (arr, vis) =
          (arr.set i val, vis.set cur true) := by
        rw [cycleInner]
        rw [hlast, if_pos rfl]
      refine ⟨arr.set i val, vis.set cur true, heq,
        by rw [List.length_set]; exact hlA,
        by rw [List.length_set]; exact hlV, ?_, ?_, ?_, ?_⟩
      · intro a ha
        rw [hR] at ha
        rcases List.mem_append.mp ha with ha | ha
        · have han : a < n := hRlt a (by rw [hR]; exact List.mem_append_left _ ha)
          have hne : perm.getD a 0 ≠ i := by
            intro hc
            have hac : a = cur := hinj a cur han hcurn (by rw [hc, hlast])
            exact hcurdone (hac ▸ ha)
          rw [List.get?_set_ne val arr (fun hc => hne hc.symm)]
          exact hdoneA a ha
        · rw [List.mem_singleton.mp ha, hlast]
          rw [List.get?_set_eq_of_lt val (by rw [hlA]; exact hin)]
          exact hval.symm
      · intro p hp
        have hpi : p ≠ i := by
          have h2 := hp cur hcurR
          rw [hlast] at h2
          exact fun hc => h2 hc.symm
        rw [List.get?_set_ne val arr (fun hc => hpi hc.symm)]
        refine hunA p ?_
        intro a ha
        exact hp a (by rw [hR]; exact List.mem_append_left _ ha)
      · intro p hp
        rw [hR] at hp
        rcases List.mem_append.mp hp with hp | hp
        · have hpc : p ≠ cur := fun hc => hcurdone (hc ▸ hp)
          rw [List.get?_set_ne true vis (fun hc => hpc hc.symm)]
          exact hdoneV p hp
        · rw [List.mem_singleton.mp hp]
          exact List.get?_set_eq_of_lt true (by rw [hlV]; exact hcurn)
      · intro p hp
        rw [hR] at hp
        have hpc : p ≠ cur := fun hc =>
          hp (hc ▸ List.mem_append_right _ (List.mem_singleton_self _))
        have hpd : p ∉ done := fun hc => hp (List.mem_append_left _ hc)
        rw [List.get?_set_ne true vis (fun hc => hpc hc.symm)]
        exact hunV p hpd
  | cons nx suf' ih =>
    intro done cur val arr vis fuel hR hfuel hlA hlV hlAS hval hdoneA hunA
      hdoneV hunV
    cases fuel with
    | zero => exact absurd hfuel (Nat.not_lt_zero _)
    | succ fl =>
      have hcurR : cur ∈ R := by
        rw [hR]
        exact List.mem_append_right _ (List.mem_cons_self _ _)
      have hnxR : nx ∈ R := by
        rw [hR]
        exact List.mem_append_right _
          (List.mem_cons_of_mem _ (List.mem_cons_self _ _))
      have hcurn : cur < n := hRlt cur hcurR
      have hnxn : nx < n := hRlt nx hnxR
      have hnd := hRnodup
      rw [hR, List.nodup_append] at hnd
      obtain ⟨hnd_done, hnd_right, hnd_disj⟩ := hnd
      have hcurdone : cur ∉ done := fun hc =>
        hnd_disj hc (List.mem_cons_self _ _)
      have hnxdone : nx ∉ done := fun hc =>
        hnd_disj hc (List.mem_cons_of_mem _ (List.mem_cons_self _ _))
      have hnx_ne_cur : nx ≠ cur := by
        rw [List.nodup_cons] at hnd_right
        exact fun hc => hnd_right.1 (hc ▸ List.mem_cons_self _ _)
      have hnx : perm.getD cur 0 = nx := by
        have hch := hRchain
        rw [hR] at hch
        obtain ⟨_, hch2, _⟩ := List.chain'_append.mp hch
        exact (List.chain'_cons.mp hch2).1
      have hiloc : i = cur ∨ i ∈ done := by
        obtain ⟨r0, hr0⟩ := hRhead
        cases done with
        | nil =>
          have h2 : cur :: nx :: suf' = i :: r0 := by
            rw [← hr0, hR]
            rfl
          exact Or.inl (List.cons.injEq .. ▸ h2).1.symm
        | cons d0 done' =>
          have h2 : d0 :: (done' ++ cur :: nx :: suf') = i :: r0 := by
            rw [← hr0, hR]
            rfl
          have hd0 : d0 = i := (List.cons.injEq .. ▸ h2).1
          exact Or.inr (hd0 ▸ List.mem_cons_self _ _)
      have hinxne : nx ≠ i := by
        rcases hiloc with h | h
        · exact fun hc => hnx_ne_cur (hc.trans h)
        · exact fun hc => hnxdone (hc ▸ h)
      have hnx_untouched : arr.get? nx = (arrS.set i []).get? nx := by
        refine hunA nx ?_
        intro a ha hc
        have han : a < n := hRlt a (by rw [hR]; exact List.mem_append_left _ ha)
        have hac : a = cur := hinj a cur han hcurn (by rw [hc, hnx])
        exact hcurdone (hac ▸ ha)
      have hnx_val : arr.get? nx = arrS.get? nx := by
        rw [hnx_untouched]
        exact List.get?_set_ne [] arrS (fun hc => hinxne hc.symm)
      obtain ⟨v, hv⟩ : ∃ v, arrS.get? nx = some v := by
        cases hg : arrS.get? nx with
        | none =>
          rw [List.get?_eq_none] at hg
          omega
        | some v => exact ⟨v, rfl⟩
      have hgetD : arr.getD nx [] = v := by
        rw [List.getD_eq_getD_get?, hnx_val, hv]
        rfl
      have heq : cycleInner perm (fl + 1) cur val i (arr, vis) =
          cycleInner perm fl nx v i (arr.set nx val, vis.set cur true) := by
        rw [cycleInner]
        rw [hnx, if_neg hinxne, hgetD]
      have hR' : R = (done ++ [cur]) ++ nx :: suf' := by
        rw [hR, List.append_assoc]
        rfl
      have hfuel' : suf'.length < fl := by
        rw [List.length_cons] at hfuel
        omega
      have hdoneA' : ∀ a ∈ done ++ [cur],
          (arr.set nx val).get? (perm.getD a 0) = arrS.get? a := by
        intro a ha
        rcases List.mem_append.mp ha with ha | ha
        · have han : a < n := hRlt a (by rw [hR]; exact List.mem_append_left _ ha)
          have hne : perm.getD a 0 ≠ nx := by
            intro hc
            have hac : a = cur := hinj a cur han hcurn (by rw [hc, hnx])
            exact hcurdone (hac ▸ ha)
          rw [List.get?_set_ne val arr (fun hc => hne hc.symm)]
          exact hdoneA a ha
        · rw [List.mem_singleton.mp ha, hnx]
          rw [List.get?_set_eq_of_lt val (by rw [hlA]; exact hnxn)]
          exact hval.symm
      have hunA' : ∀ p, (∀ a ∈ done ++ [cur], perm.getD a 0 ≠ p) →
          (arr.set nx val).get? p = (arrS.set i []).get? p := by
        intro p hp
        have hpnx : p ≠ nx := by
          have h2 := hp cur (List.mem_append_right _ (List.mem_singleton_self _))
          rw [hnx] at h2
          exact fun hc => h2 hc.symm
        rw [List.get?_set_ne val arr (fun hc => hpnx hc.symm)]
        exact hunA p (fun a ha => hp a (List.mem_append_left _ ha))
      have hdoneV' : ∀ p ∈ done ++ [cur],
          (vis.set cur true).get? p = some true := by
        intro p hp
        rcases List.mem_append.mp hp with hp | hp
        · have hpc : p ≠ cur := fun hc => hcurdone (hc ▸ hp)
          rw [List.get?_set_ne true vis (fun hc => hpc hc.symm)]
          exact hdoneV p hp
        · rw [List.mem_singleton.mp hp]
          exact List.get?_set_eq_of_lt true (by rw [hlV]; exact hcurn)
      have hunV' : ∀ p, p ∉ done ++ [cur] →
          (vis.set cur true).get? p = visS.get? p := by
        intro p hp
        have hpc : p ≠ cur := fun hc =>
          hp (hc ▸ List.mem_append_right _ (List.mem_singleton_self _))
        have hpd : p ∉ done := fun hc => hp (List.mem_append_left _ hc)
        rw [List.get?_set_ne true vis (fun hc => hpc hc.symm)]
        exact hunV p hpd
      obtain ⟨arrF, visF, heqF, hF1, hF2, hF3, hF4, hF5, hF6⟩ :=
        ih (done ++ [cur]) nx v (arr.set nx val) (vis.set cur true) fl
          hR' hfuel' (by rw [List.length_set]; exact hlA)
          (by rw [List.length_set]; exact hlV) hlAS hv
          hdoneA' hunA' hdoneV' hunV'
      exact ⟨arrF, visF, heq.trans heqF, hF1, hF2, hF3, hF4, hF5, hF6⟩

/-- The invariant of the outer loop of `apply_permutation_cycle_rotate`:
every visited slot's value has been moved to its image, everything else
is untouched, and the visited set is closed under the permutation. -/
structure RotInv (n : Nat) (perm : List Nat)
    (arr0 arr : List (List PredicateIndex)) (vis : List Bool) : Prop where
  lenA : arr.length = n
  lenV : vis.length = n
  moved : ∀ j < n, vis.get? j = some true →
    arr.get? (perm.getD j 0) = arr0.get? j
  untouched : ∀ p, (∀ j < n, vis.get? j = some true → perm.getD j 0 ≠ p) →
    arr.get? p = arr0.get? p
  closed : ∀ j < n, vis.get? j = some true →
    vis.get? (perm.getD j 0) = some true

theorem rotate_fold_spec (perm : List Nat)
    (arr0 : List (List PredicateIndex))
    (hvals : ∀ a < arr0.length, perm.getD a 0 < arr0.length)
    (hinj : ∀ a b, a < arr0.length → b < arr0.length →
      perm.getD a 0 = perm.getD b 0 → a = b) :
    ∀ (idxs : List Nat) (arr : List (List PredicateIndex)) (vis : List Bool),
      (∀ i ∈ idxs, i < arr0.length) →
      RotInv arr0.length perm arr0 arr vis →
      ∃ arrF visF,
        idxs.foldl
          (fun st i =>
            if st.2.getD i false then st
            else if perm.getD i 0 = i then (st.1, st.2.set i true)
            else
              let current_val := st.1.getD i []
              cycleInner perm arr0.length i current_val i
                (st.1.set i [], st.2))
          (arr, vis) = (arrF, visF) ∧
        RotInv arr0.length perm arr0 arrF visF ∧
        (∀ i ∈ idxs, visF.get? i = some true) ∧
        (∀ j, vis.get? j = some true → visF.get? j = some true) := by
  intro idxs
  induction idxs with
  | nil =>
    intro arr vis _ hInv
    exact ⟨arr, vis, rfl, hInv, fun i hi => absurd hi (List.not_mem_nil i),
      fun j hj => hj⟩
  | cons i0 idxs' ih =>
    intro arr vis hbnd hInv
    have hi0n : i0 < arr0.length := hbnd i0 (List.mem_cons_self _ _)
    obtain ⟨b0, hb⟩ : ∃ b0, vis.get? i0 = some b0 := by
      cases hg : vis.get? i0 with
      | none =>
        rw [List.get?_eq_none] at hg
        rw [hInv.lenV] at hg
        omega
      | some b0 => exact ⟨b0, rfl⟩
    cases b0 with
    | true =>
      have hcond : vis.getD i0 false = true := by
        rw [List.getD_eq_getD_get?, hb]
        rfl
      obtain ⟨arrF, visF, heqF, hInvF, hcovF, hmonoF⟩ :=
        ih arr vis (fun i hi => hbnd i (List.mem_cons_of_mem _ hi)) hInv
      refine ⟨arrF, visF, ?_, hInvF, ?_, hmonoF⟩
      · rw [List.foldl_cons, hcond, if_pos rfl]
        exact heqF
      · intro i hi
        rcases List.mem_cons.mp hi with hi | hi
        · exact hi ▸ hmonoF i0 hb
        · exact hcovF i hi
    | false =>
      have hcond : vis.getD i0 false = false := by
        rw [List.getD_eq_getD_get?, hb]
        rfl
      by_cases hfix : perm.getD i0 0 = i0
      · -- a fixed point is only marked
        have hInv' : RotInv arr0.length perm arr0 arr (vis.set i0 true) := by
          refine ⟨hInv.lenA, by rw [List.length_set]; exact hInv.lenV,
            ?_, ?_, ?_⟩
          · intro j hjn hj
            by_cases hji : j = i0
            · subst hji
              rw [hfix]
              refine hInv.untouched j ?_
              intro j2 hj2n hj2 hc
              have hj2j : j2 = j := hinj j2 j hj2n hjn (by rw [hc, hfix])
              rw [hj2j] at hj2
              rw [hb] at hj2
              cases hj2
            · rw [List.get?_set_ne true vis (fun hc => hji hc.symm)] at hj
              exact hInv.moved j hjn hj
          · intro p hp
            refine hInv.untouched p ?_
            intro j hjn hj
            refine hp j hjn ?_
            by_cases hji : j = i0
            · subst hji
              rw [hb] at hj
              cases hj
            · rw [List.get?_set_ne true vis (fun hc => hji hc.symm)]
              exact hj
          · intro j hjn hj
            by_cases hji : j = i0
            · subst hji
              rw [hfix]
              exact List.get?_set_eq_of_lt true (by rw [hInv.lenV]; exact hjn)
            · rw [List.get?_set_ne true vis (fun hc => hji hc.symm)] at hj
              have h2 := hInv.closed j hjn hj
              by_cases hpj : perm.getD j 0 = i0
              · rw [hpj]
                exact List.get?_set_eq_of_lt true
                  (by rw [hInv.lenV]; exact hi0n)
              · rw [List.get?_set_ne true vis (fun hc => hpj hc.symm)]
                exact h2
        obtain ⟨arrF, visF, heqF, hInvF, hcovF, hmonoF⟩ :=
          ih arr (vis.set i0 true)
            (fun i hi => hbnd i (List.mem_cons_of_mem _ hi)) hInv'
        have hmono0 : ∀ j, vis.get? j = some true →
            (vis.set i0 true).get? j = some true := by
          intro j hj
          by_cases hji : j = i0
          · subst hji
            exact List.get?_set_eq_of_lt true (by rw [hInv.lenV]; exact hi0n)
          · rw [List.get?_set_ne true vis (fun hc => hji hc.symm)]
            exact hj
        refine ⟨arrF, visF, ?_, hInvF, ?_, fun j hj => hmonoF j (hmono0 j hj)⟩
        · rw [List.foldl_cons, hcond, if_neg Bool.false_ne_true, if_pos hfix]
          exact heqF
        · intro i hi
          rcases List.mem_cons.mp hi with hi | hi
          · refine hi ▸ hmonoF i0 ?_
            exact List.get?_set_eq_of_lt true (by rw [hInv.lenV]; exact hi0n)
          · exact hcovF i hi
      · -- rotate the whole cycle of i0
        obtain ⟨R, hRhead, hRnodup, hRlt, hRchain, hRlastp, hRclosed,
          hRpred, hRiter, hRlen⟩ :=
          cycle_orbit arr0.length (fun a => perm.getD a 0) hvals hinj i0 hi0n
        obtain ⟨r0, hr0⟩ := hRhead
        have hi0R : i0 ∈ R := by
          rw [hr0]
          exact List.mem_cons_self _ _
        have hprop : ∀ s x, x < arr0.length → vis.get? x = some true →
            vis.get? ((fun a => perm.getD a 0)^[s] x) = some true := by
          intro s
          induction s with
          | zero => intro x _ hx; simpa using hx
          | succ s ihs =>
            intro x hxn hx
            rw [Function.iterate_succ_apply']
            exact hInv.closed _
              (pf_iter_lt arr0.length _ hvals s x hxn) (ihs x hxn hx)
        have hRfresh : ∀ a ∈ R, vis.get? a = some false := by
          intro a ha
          have han := hRlt a ha
          cases hva : vis.get? a with
          | none =>
            rw [List.get?_eq_none] at hva
            rw [hInv.lenV] at hva
            omega
          | some b =>
            cases b with
            | true =>
              exfalso
              obtain ⟨s, hs⟩ := hRiter a ha
              have h2 := hprop s a han hva
              rw [hs, hb] at h2
              cases h2
            | false => rfl
        have hRorig : ∀ a ∈ R, arr.get? a = arr0.get? a := by
          intro a ha
          refine hInv.untouched a ?_
          intro j hjn hj hc
          obtain ⟨b, hbR, hbp⟩ := hRpred a ha
          have hjb : j = b := hinj j b hjn (hRlt b hbR) (by rw [hc, ← hbp])
          rw [hjb, hRfresh b hbR] at hj
          cases hj
        obtain ⟨v0, hv0⟩ : ∃ v0, arr.get? i0 = some v0 := by
          cases hg : arr.get? i0 with
          | none =>
            rw [List.get?_eq_none] at hg
            rw [hInv.lenA] at hg
            omega
          | some v0 => exact ⟨v0, rfl⟩
        have hgetD : arr.getD i0 [] = v0 := by
          rw [List.getD_eq_getD_get?, hv0]
          rfl
        have hfuelc : r0.length < arr0.length := by
          rw [hr0, List.length_cons] at hRlen
          omega
        obtain ⟨arrC, visC, heqC, hlC1, hlC2, hg, hh, hvt, hvu⟩ :=
          cycleInner_spec perm arr0.length i0 R arr vis hinj hRlt hRnodup
            ⟨r0, hr0⟩ hRlastp hRchain r0 [] i0 v0 (arr.set i0 []) vis
            arr0.length (by rw [hr0]; rfl) hfuelc
            (by rw [List.length_set]; exact hInv.lenA) hInv.lenV hInv.lenA
            hv0 (fun a ha => absurd ha (List.not_mem_nil a))
            (fun p _ => rfl) (fun p hp => absurd hp (List.not_mem_nil p))
            (fun p _ => rfl)
        have hInvC : RotInv arr0.length perm arr0 arrC visC := by
          refine ⟨hlC1, hlC2, ?_, ?_, ?_⟩
          · intro j hjn hj
            by_cases hjR : j ∈ R
            · rw [hg j hjR]
              exact hRorig j hjR
            · have hjold : vis.get? j = some true := by
                rw [← hvu j hjR]
                exact hj
              have h1 := hInv.moved j hjn hjold
              have h2 : arrC.get? (perm.getD j 0) = arr.get? (perm.getD j 0) := by
                refine (hh (perm.getD j 0) ?_).trans ?_
                · intro a ha hc
                  exact hjR (hinj a j (hRlt a ha) hjn hc ▸ ha)
                · refine List.get?_set_ne [] arr ?_
                  intro hc
                  obtain ⟨b, hbR, hbp⟩ := hRpred i0 hi0R
                  have hjb : j = b :=
                    hinj j b hjn (hRlt b hbR) (by rw [← hc, ← hbp])
                  exact hjR (hjb ▸ hbR)
              rw [h2]
              exact h1
          · intro p hp
            have hforR : ∀ a ∈ R, perm.getD a 0 ≠ p := fun a ha =>
              hp a (hRlt a ha) (hvt a ha)
            have hpi0 : i0 ≠ p := by
              obtain ⟨b, hbR, hbp⟩ := hRpred i0 hi0R
              intro hc
              exact hforR b hbR (by rw [hbp, hc])
            rw [hh p hforR, List.get?_set_ne [] arr hpi0]
            refine hInv.untouched p ?_
            intro j hjn hj hc
            have hjR : j ∉ R := fun hcR => by
              rw [hRfresh j hcR] at hj
              cases hj
            have hjC : visC.get? j = some true := by
              rw [hvu j hjR]
              exact hj
            exact hp j hjn hjC hc
          · intro j hjn hj
            by_cases hjR : j ∈ R
            · exact hvt _ (hRclosed j hjR)
            · have hjold : vis.get? j = some true := by
                rw [← hvu j hjR]
                exact hj
              have h2 := hInv.closed j hjn hjold
              have hpjR : perm.getD j 0 ∉ R := fun hcR => by
                rw [hRfresh _ hcR] at h2
                cases h2
              rw [hvu _ hpjR]
              exact h2
        have hmonoC : ∀ j, vis.get? j = some true →
            visC.get? j = some true := by
          intro j hj
          have hjR : j ∉ R := fun hcR => by
            rw [hRfresh j hcR] at hj
            cases hj
          rw [hvu j hjR]
          exact hj
        obtain ⟨arrF, visF, heqF, hInvF, hcovF, hmonoF⟩ :=
          ih arrC visC (fun i hi => hbnd i (List.mem_cons_of_mem _ hi)) hInvC
        refine ⟨arrF, visF, ?_, hInvF, ?_, fun j hj => hmonoF j (hmonoC j hj)⟩
        · rw [List.foldl_cons, hcond, if_neg Bool.false_ne_true, if_neg hfix]
          show List.foldl _
            (cycleInner perm arr0.length i0 (arr.getD i0 []) i0
              (arr.set i0 [], vis)) idxs' = _
          rw [hgetD, heqC]
          exact heqF
        · intro i hi
          rcases List.mem_cons.mp hi with hi | hi
          · exact hi ▸ hmonoF i0 (hvt i0 hi0R)
          · exact hcovF i hi

/-- `apply_permutation_cycle_rotate` places slot `i`'s value at slot
`perm[i]`, for any injective index permutation. -/
theorem apply_permutation_cycle_rotate_spec
    (arr0 : List (List PredicateIndex)) (perm : List Nat)
    (hvals : ∀ a < arr0.length, perm.getD a 0 < arr0.length)
    (hinj : ∀ a b, a < arr0.length → b < arr0.length →
      perm.getD a 0 = perm.getD b 0 → a = b) :
    (apply_permutation_cycle_rotate arr0 perm).length = arr0.length ∧
    ∀ i < arr0.length,
      (apply_permutation_cycle_rotate arr0 perm).get? (perm.getD i 0) =
        arr0.get? i := by
  by_cases hn : arr0.length = 0
  · have heq : apply_permutation_cycle_rotate arr0 perm = arr0 := by
      unfold apply_permutation_cycle_rotate
      rw [if_pos hn]
    rw [heq]
    exact ⟨rfl, fun i hi => absurd hi (by omega)⟩
  · have hInv0 : RotInv arr0.length perm arr0 arr0
        (List.replicate arr0.length false) := by
      refine ⟨rfl, List.length_replicate .., ?_, fun p _ => rfl, ?_⟩
      · intro j hjn hj
        rw [List.get?_eq_getElem?, List.getElem?_replicate, if_pos hjn] at hj
        cases hj
      · intro j hjn hj
        rw [List.get?_eq_getElem?, List.getElem?_replicate, if_pos hjn] at hj
        cases hj
    obtain ⟨arrF, visF, heqF, hInvF, hcovF, _⟩ :=
      rotate_fold_spec perm arr0 hvals hinj (List.range arr0.length) arr0
        (List.replicate arr0.length false)
        (fun i hi => List.mem_range.mp hi) hInv0
    have heq : apply_permutation_cycle_rotate arr0 perm = arrF := by
      unfold apply_permutation_cycle_rotate
      dsimp only []
      rw [if_neg hn, heqF]
    rw [heq]
    refine ⟨hInvF.lenA, ?_⟩
    intro i hi
    exact hInvF.moved i hi (hcovF i (List.mem_range.mpr hi))

theorem get?_some_lt {α : Type} {l : List α} {j : Nat} {c : α}
    (h : l.get? j = some c) : j < l.length := by
  by_contra hc
  rw [List.get?_eq_none.mpr (by omega)] at h
  cases h

/-- `sort_result` permutes the strata into a topological order: a
stratum with a (distinct-stratum) quotient edge lands strictly after
its target. -/
theorem sort_result_spec {dep : DepGraph} {strata : List (List PredicateIndex)}
    {pmap : List (PredicateIndex × Nat)}
    (hQlt : ∀ x j, alGet pmap x = some j → j < strata.length)
    (hacyc : ∀ i j, QEdge dep strata pmap i j → i = j ∨
      ¬ Relation.ReflTransGen (QEdge dep strata pmap) j i) :
    ∃ sortedF : List Nat,
      sortedF.Nodup ∧
      sortedF.length = strata.length ∧
      (∀ x ∈ sortedF, x < strata.length) ∧
      (∀ i < strata.length, i ∈ sortedF) ∧
      (∀ i ∈ sortedF, ∀ j, QEdge dep strata pmap i j → i ≠ j →
        j ∈ sortedF ∧ posIn sortedF j < posIn sortedF i) ∧
      (sort_result dep strata pmap).length = strata.length ∧
      (∀ o < strata.length,
        (sort_result dep strata pmap).get? (posIn sortedF o) =
          strata.get? o) := by
  obtain ⟨seenF, sortedF, heq, _, hcov0, hIF⟩ :=
    sort_fold_spec hQlt hacyc (List.range strata.length) [] []
      (fun i hi => List.mem_range.mp hi)
      (sortInv_nil dep strata pmap)
  have hcov : ∀ i < strata.length, i ∈ sortedF := fun i hi =>
    hcov0 i (List.mem_range.mpr hi)
  have hlen : sortedF.length = strata.length := by
    have hperm : sortedF.Perm (List.range strata.length) :=
      (List.perm_ext_iff_of_nodup hIF.nodup (List.nodup_range _)).mpr
        (fun a => ⟨fun h => List.mem_range.mpr (hIF.bound a h),
          fun h => hcov a (List.mem_range.mp h)⟩)
    rw [hperm.length_eq, List.length_range]
  have huniqpos : ∀ n1 o, sortedF.get? n1 = some o →
      n1 = posIn sortedF o := by
    intro n1 o h1
    have hn1 : n1 < sortedF.length := get?_some_lt h1
    have hoF : o ∈ sortedF := List.get?_mem h1
    refine List.get?_inj hn1 hIF.nodup ?_
    rw [h1, posIn_get? hoF]
  have hpermval : ∀ o, o ∈ sortedF →
      ((List.range strata.length).foldl
        (fun perm new_idx =>
          match sortedF.get? new_idx with
          | some old_idx => perm.set old_idx new_idx
          | none => perm)
        (List.replicate strata.length 0)).get? o = some (posIn sortedF o) := by
    intro o hoF
    refine perm_fold_touched sortedF (List.range strata.length)
      (List.replicate strata.length 0) o (posIn sortedF o)
      (List.nodup_range _) ?_ (posIn_get? hoF) ?_ ?_
    · refine List.mem_range.mpr ?_
      rw [← hlen]
      exact posIn_lt_length hoF
    · intro n1 _ h1
      exact huniqpos n1 o h1
    · rw [List.length_replicate]
      exact hIF.bound o hoF
  have hpermvalD : ∀ o, o ∈ sortedF →
      ((List.range strata.length).foldl
        (fun perm new_idx =>
          match sortedF.get? new_idx with
          | some old_idx => perm.set old_idx new_idx
          | none => perm)
        (List.replicate strata.length 0)).getD o 0 = posIn sortedF o := by
    intro o hoF
    rw [List.getD_eq_getD_get?, hpermval o hoF]
    rfl
  have hrvals : ∀ a < strata.length,
      ((List.range strata.length).foldl
        (fun perm new_idx =>
          match sortedF.get? new_idx with
          | some old_idx => perm.set old_idx new_idx
          | none => perm)
        (List.replicate strata.length 0)).getD a 0 < strata.length := by
    intro a ha
    rw [hpermvalD a (hcov a ha), ← hlen]
    exact posIn_lt_length (hcov a ha)
  have hrinj : ∀ a b, a < strata.length → b < strata.length →
      ((List.range strata.length).foldl
        (fun perm new_idx =>
          match sortedF.get? new_idx with
          | some old_idx => perm.set old_idx new_idx
          | none => perm)
        (List.replicate strata.length 0)).getD a 0 =
      ((List.range strata.length).foldl
        (fun perm new_idx =>
          match sortedF.get? new_idx with
          | some old_idx => perm.set old_idx new_idx
          | none => perm)
        (List.replicate strata.length 0)).getD b 0 → a = b := by
    intro a b ha hb hab
    rw [hpermvalD a (hcov a ha), hpermvalD b (hcov b hb)] at hab
    have h1 := posIn_get? (hcov a ha)
    rw [hab, posIn_get? (hcov b hb)] at h1
    cases h1
    rfl
  obtain ⟨hrlen, hrget⟩ :=
    apply_permutation_cycle_rotate_spec strata
      ((List.range strata.length).foldl
        (fun perm new_idx =>
          match sortedF.get? new_idx with
          | some old_idx => perm.set old_idx new_idx
          | none => perm)
        (List.replicate strata.length 0)) hrvals hrinj
  have hsr : sort_result dep strata pmap =
      apply_permutation_cycle_rotate strata
        ((List.range strata.length).foldl
          (fun perm new_idx =>
            match sortedF.get? new_idx with
            | some old_idx => perm.set old_idx new_idx
            | none => perm)
          (List.replicate strata.length 0)) := by
    unfold sort_result
    dsimp only []
    rw [heq]
  refine ⟨sortedF, hIF.nodup, hlen, hIF.bound, hcov, hIF.order, ?_, ?_⟩
  · rw [hsr]
    exact hrlen
  · intro o ho
    rw [hsr, ← hpermvalD o (hcov o ho)]
    exact hrget o ho

/-- `List.findIdx?` with its accumulator: the first index satisfying
the predicate. -/
theorem findIdx?_acc_eq (p : List PredicateIndex → Bool) :
    ∀ (l : List (List PredicateIndex)) (base k0 : Nat),
      k0 < l.length →
      (∀ c, l.get? k0 = some c → p c = true) →
      (∀ k, k < k0 → ∀ c, l.get? k = some c → p c = false) →
      List.findIdx? p l base = some (base + k0) := by
  intro l
  induction l with
  | nil =>
    intro base k0 hk0
    exact absurd hk0 (by simp)
  | cons c0 rest ih =>
    intro base k0 hk0 hyes hno
    rw [List.findIdx?_cons]
    cases k0 with
    | zero =>
      rw [if_pos (hyes c0 rfl)]
      rfl
    | succ k =>
      have hc0 : p c0 = false := hno 0 (by omega) c0 rfl
      rw [if_neg (by rw [hc0]; exact Bool.false_ne_true)]
      have hrec := ih (base + 1) k (by simpa using Nat.lt_of_succ_lt_succ hk0)
        (fun c hc => hyes c hc)
        (fun k2 hk2 c hc => hno (k2 + 1) (by omega) c hc)
      rw [hrec,
        show base + 1 + k = base + (k + 1) from by omega]

/-- `pred_to_index` finds the unique stratum containing a predicate. -/
theorem pred_to_index_eq (strata' : List (List PredicateIndex))
    (sym : PredicateIndex) (k0 : Nat)
    (hk0 : k0 < strata'.length)
    (hmem : ∀ c, strata'.get? k0 = some c → sym ∈ c)
    (hnot : ∀ k, k < k0 → ∀ c, strata'.get? k = some c → sym ∉ c) :
    pred_to_index strata' sym = some k0 := by
  unfold pred_to_index
  have h := findIdx?_acc_eq (fun x => decide (sym ∈ x)) strata' 0 k0 hk0
    (fun c hc => decide_eq_true (hmem c hc))
    (fun k hk c hc => decide_eq_false (hnot k hk c hc))
  rw [h, Nat.zero_add]

/-- The contribution fold only appends. -/
theorem foldl_contrib_mono (prog : Program) (s : PredicateIndex) :
    ∀ (entries : List (PredicateIndex × List Clause))
      (acc : List (PredicateIndex × Bool)) (x : PredicateIndex × Bool),
      x ∈ acc →
      x ∈ entries.foldl
        (fun acc p =>
          if p.1 = s then acc ++ p.2.flatMap (clauseContribs prog) else acc)
        acc := by
  intro entries
  induction entries with
  | nil => intro acc x hx; exact hx
  | cons e rest ih =>
    intro acc x hx
    rw [List.foldl_cons]
    by_cases he : e.1 = s
    · rw [if_pos he]
      exact ih _ x (List.mem_append_left _ hx)
    · rw [if_neg he]
      exact ih _ x hx

/-- Every clause contribution of a rule appears among the program's
edge contributions for that rule head. -/
theorem mem_progContribs {prog : Program} {s : PredicateIndex}
    {cls : List Clause} {cl : Clause} {c : PredicateIndex × Bool}
    (hrule : (s, cls) ∈ prog.rules) (hcl : cl ∈ cls)
    (hc : c ∈ clauseContribs prog cl) :
    c ∈ progContribs prog s := by
  unfold progContribs
  have main : ∀ (entries : List (PredicateIndex × List Clause))
      (acc : List (PredicateIndex × Bool)),
      (s, cls) ∈ entries →
      c ∈ entries.foldl
        (fun acc p =>
          if p.1 = s then acc ++ p.2.flatMap (clauseContribs prog) else acc)
        acc := by
    intro entries
    induction entries with
    | nil => intro acc h; cases h
    | cons e rest ih =>
      intro acc hmem
      rw [List.foldl_cons]
      rcases List.mem_cons.mp hmem with h | h
      · rw [← h, if_pos rfl]
        refine foldl_contrib_mono prog s rest _ c ?_
        exact List.mem_append_right _
          (List.mem_flatMap.mpr ⟨cl, hcl, hc⟩)
      · by_cases he : e.1 = s
        · rw [if_pos he]
          exact ih _ h
        · rw [if_neg he]
          exact ih _ h
  exact main prog.rules [] hrule

/-- A `(q, true)` contribution makes the edge label negative. -/
theorem negEdge_of_contrib {prog : Program} {s q : PredicateIndex}
    (h : (q, true) ∈ progContribs prog s) :
    NegEdge (make_dep_graph prog) s q := by
  unfold NegEdge
  rw [edgeLabel_make_dep_graph]
  dsimp only []
  have htrue : true ∈
      ((progContribs prog s).filter (fun p => p.1 = q)).map Prod.snd := by
    refine List.mem_map.mpr ⟨(q, true), ?_, rfl⟩
    refine List.mem_filter.mpr ⟨h, ?_⟩
    simp
  have hne : (((progContribs prog s).filter
      (fun p => p.1 = q)).map Prod.snd).isEmpty = false := by
    cases hl : ((progContribs prog s).filter
        (fun p => p.1 = q)).map Prod.snd with
    | nil =>
      rw [hl] at htrue
      cases htrue
    | cons a l => rfl
  rw [hne, if_neg Bool.false_ne_true]
  rw [List.any_eq_true.mpr ⟨true, htrue, rfl⟩]

/-- **C3.** For every program accepted by `stratify`, and every rule of
head `p` with a negated non-extensional premise over `q`, or with a
positive non-extensional premise over `q` in a clause whose FIRST
transform is a `do` (absent variable), the stratum index that the
returned stratification assigns to `q` is strictly less than the one
assigned to `p`.  (The code inspects only `transform[0]`: a `do` that
is not the first transform of its clause does not force the
ordering.) -/
theorem stratify_orders_negative_deps (prog prog' : Program)
    (strata' : List (List PredicateIndex))
    (hok : stratify prog = Except.ok (prog', strata'))
    (p q : PredicateIndex) (cls : List Clause) (cl : Clause)
    (hrule : (p, cls) ∈ prog.rules) (hcl : cl ∈ cls)
    (hprem : (∃ a, Term.negAtom a ∈ cl.premises ∧ a.sym = q) ∨
      ((∃ a, Term.atom a ∈ cl.premises ∧ a.sym = q) ∧
        ∃ t0, cl.transform.head? = some t0 ∧ t0.var = none))
    (hq : q ∉ prog.ext_preds) :
    ∃ i j, pred_to_index strata' p = some i ∧
      pred_to_index strata' q = some j ∧ j < i := by
  have hkeys := make_dep_graph_keys_nodup prog
  obtain ⟨hex, hcov, hflat⟩ := sccs_spec (make_dep_graph prog) hkeys
  have hL : ∀ pr ∈ (sccs (make_dep_graph prog)
        (graphFuel (make_dep_graph prog))).enum,
      (sccs (make_dep_graph prog) (graphFuel (make_dep_graph prog))).get? pr.1 =
        some pr.2 := by
    intro pr hpr
    rw [List.get?_eq_getElem?]
    exact List.mem_enum_iff_getElem?.mp hpr
  -- the premise contributes a negative edge
  have hcontrib : (q, true) ∈ clauseContribs prog cl := by
    rcases hprem with ⟨a, hmem, hsym⟩ | ⟨⟨a, hmem, hsym⟩, t0, ht0, hvar⟩
    · refine List.mem_filterMap.mpr ⟨Term.negAtom a, hmem, ?_⟩
      show (if a.sym ∈ prog.ext_preds then none
        else some (a.sym, true)) = some (q, true)
      rw [hsym, if_neg hq]
    · refine List.mem_filterMap.mpr ⟨Term.atom a, hmem, ?_⟩
      show (if a.sym ∈ prog.ext_preds then none
        else
          match cl.transform.head? with
          | none => some (a.sym, false)
          | some t0 =>
            if t0.var.isSome then some (a.sym, false)
            else some (a.sym, true)) = some (q, true)
      rw [hsym, if_neg hq, ht0]
      show (if t0.var.isSome then some (q, false)
        else some (q, true)) = some (q, true)
      rw [hvar]
      rfl
  have hneg : NegEdge (make_dep_graph prog) p q :=
    negEdge_of_contrib (mem_progContribs hrule hcl hcontrib)
  have hedge : Edge (make_dep_graph prog) p q :=
    ⟨(q, true), entry_of_negEdge hneg, rfl⟩
  have hpnodes : p ∈ nodesList (make_dep_graph prog) :=
    key_mem_nodesList (edge_src_isSome hedge)
  have hqnodes : q ∈ nodesList (make_dep_graph prog) :=
    edge_tgt_mem_nodesList hedge
  cases hsc : stratifyCheck (make_dep_graph prog)
      ((sccs (make_dep_graph prog) (graphFuel (make_dep_graph prog))).enum) []
      with
  | error e =>
    exfalso
    have hstr : stratify prog = Except.error e := by
      unfold stratify
      dsimp only []
      rw [hsc]
    rw [hstr] at hok
    cases hok
  | ok pmapF =>
    have hstr : stratify prog = Except.ok (prog,
        sort_result (make_dep_graph prog)
          (sccs (make_dep_graph prog) (graphFuel (make_dep_graph prog)))
          pmapF) := by
      unfold stratify
      dsimp only []
      rw [hsc]
    rw [hstr] at hok
    cases hok
    -- no negative cycle, so p and q lie in different classes
    have hnreach : ¬ Reach (make_dep_graph prog) q p := by
      intro hr
      obtain ⟨c, hcs, hpc⟩ := hcov p hpnodes
      have hqc : q ∈ c := (hex c hcs p hpc q).mpr
        ⟨⟨reach_of_edge hedge, hr⟩, hqnodes⟩
      obtain ⟨iC, hiC⟩ := List.mem_iff_get?.mp hcs
      have henum : (iC, c) ∈ (sccs (make_dep_graph prog)
          (graphFuel (make_dep_graph prog))).enum := by
        apply List.mem_enum_iff_getElem?.mpr
        rw [← List.get?_eq_getElem?]
        exact hiC
      have h2 := stratifyCheck_error_of _ [] iC c p q henum hpc hqc
        (entry_of_negEdge hneg)
      rw [hsc] at h2
      cases h2
    obtain ⟨cp, hcpS, hpcp⟩ := hcov p hpnodes
    obtain ⟨cq, hcqS, hqcq⟩ := hcov q hqnodes
    obtain ⟨ip, hip⟩ := List.mem_iff_get?.mp hcpS
    obtain ⟨iq, hiq⟩ := List.mem_iff_get?.mp hcqS
    have hipn : ip < (sccs (make_dep_graph prog)
        (graphFuel (make_dep_graph prog))).length := get?_some_lt hip
    have hiqn : iq < (sccs (make_dep_graph prog)
        (graphFuel (make_dep_graph prog))).length := get?_some_lt hiq
    have hipne : ip ≠ iq := by
      intro hc
      rw [hc, hiq] at hip
      have hcqcp : cq = cp := Option.some.inj hip
      rw [← hcqcp] at hpcp
      exact hnreach ((hex cq hcqS p hpcp q).mp hqcq).1.2
    have hpmapsound : ∀ x j, alGet pmapF x = some j →
        ∃ c, (sccs (make_dep_graph prog)
          (graphFuel (make_dep_graph prog))).get? j = some c ∧ x ∈ c :=
      stratifyCheck_ok_pmap_sound _ [] pmapF hsc hL
        (fun x j hx => by cases hx)
    have hQlt : ∀ x j, alGet pmapF x = some j →
        j < (sccs (make_dep_graph prog)
          (graphFuel (make_dep_graph prog))).length := by
      intro x j hx
      obtain ⟨c, hc, _⟩ := hpmapsound x j hx
      exact get?_some_lt hc
    have hacyc := qedge_acyclic hex hflat hpmapsound
    have hqmap : alGet pmapF q = some iq := by
      refine stratifyCheck_ok_pmap _ [] pmapF iq cq q hsc ?_ hqcq ?_
      · apply List.mem_enum_iff_getElem?.mpr
        rw [← List.get?_eq_getElem?]
        exact hiq
      · intro pr hpr hqpr
        exact strata_class_unique _ hflat pr.1 iq pr.2 cq q (hL pr hpr) hiq
          hqpr hqcq
    have hQedge : QEdge (make_dep_graph prog)
        (sccs (make_dep_graph prog) (graphFuel (make_dep_graph prog)))
        pmapF ip iq :=
      ⟨cp, hip, p, hpcp, (q, true), entry_of_negEdge hneg, hqmap⟩
    obtain ⟨sortedF, hnodupF, hlenF, hboundF, hcovF, horderF, hsrlen,
      hsrget⟩ := sort_result_spec hQlt hacyc
    have hipF : ip ∈ sortedF := hcovF ip hipn
    obtain ⟨hiqF, hposlt⟩ := horderF ip hipF iq hQedge hipne
    have hpti : ∀ o cO sym2,
        o < (sccs (make_dep_graph prog)
          (graphFuel (make_dep_graph prog))).length →
        (sccs (make_dep_graph prog)
          (graphFuel (make_dep_graph prog))).get? o = some cO →
        sym2 ∈ cO →
        pred_to_index (sort_result (make_dep_graph prog)
          (sccs (make_dep_graph prog) (graphFuel (make_dep_graph prog)))
          pmapF) sym2 = some (posIn sortedF o) := by
      intro o cO sym2 hon hgo hsym2
      refine pred_to_index_eq _ sym2 (posIn sortedF o) ?_ ?_ ?_
      · rw [hsrlen, ← hlenF]
        exact posIn_lt_length (hcovF o hon)
      · intro c hc
        rw [hsrget o hon, hgo] at hc
        cases hc
        exact hsym2
      · intro k hk c hc hsym2c
        have hkn : k < (sccs (make_dep_graph prog)
            (graphFuel (make_dep_graph prog))).length := by
          have h2 := get?_some_lt hc
          rw [hsrlen] at h2
          exact h2
        obtain ⟨o2, ho2⟩ : ∃ o2, sortedF.get? k = some o2 := by
          cases hg : sortedF.get? k with
          | none =>
            rw [List.get?_eq_none, hlenF] at hg
            omega
          | some o2 => exact ⟨o2, rfl⟩
        have ho2F : o2 ∈ sortedF := List.get?_mem ho2
        have hko2 : k = posIn sortedF o2 := by
          refine List.get?_inj (get?_some_lt ho2) hnodupF ?_
          rw [ho2, posIn_get? ho2F]
        have ho2n : o2 < (sccs (make_dep_graph prog)
            (graphFuel (make_dep_graph prog))).length := hboundF o2 ho2F
        have hc2 := hsrget o2 ho2n
        rw [← hko2, hc] at hc2
        have ho2o : o2 = o :=
          strata_class_unique _ hflat o2 o c cO sym2 hc2.symm hgo hsym2c hsym2
        rw [ho2o] at hko2
        omega
    refine ⟨posIn sortedF ip, posIn sortedF iq,
      hpti ip cp p hipn hip hpcp, hpti iq cq q hiqn hiq hqcq, hposlt⟩

/-- A two-predicate program `0 :- !1.  1.` -/
def c3WitProg : Program :=
  { ext_preds := [],
    rules := [
      (0, [{ head := ⟨0, []⟩, premises := [Term.negAtom ⟨1, []⟩],
             transform := [] }]),
      (1, [{ head := ⟨1, []⟩, premises := [], transform := [] }])] }

theorem stratify_orders_negative_deps_witness :
    ∃ i j, pred_to_index [[1], [0]] 0 = some i ∧
      pred_to_index [[1], [0]] 1 = some j ∧ j < i :=
  stratify_orders_negative_deps c3WitProg c3WitProg [[1], [0]] rfl 0 1
    [{ head := ⟨0, []⟩, premises := [Term.negAtom ⟨1, []⟩], transform := [] }]
    { head := ⟨0, []⟩, premises := [Term.negAtom ⟨1, []⟩], transform := [] }
    (List.mem_cons_self _ _) (List.mem_cons_self _ _)
    (Or.inl ⟨⟨1, []⟩, List.mem_cons_self _ _, rfl⟩)
    (List.not_mem_nil 1)

/-- Mutually recursive predicates `0 :- 1 |> let Y = ..., do ... .`
and `1 :- 0.`: the clause of `0` has a `do` transform (its second
transform has an absent variable) and a positive premise over the
non-extensional predicate `1`. -/
def c3CEProg : Program :=
  { ext_preds := [],
    rules := [
      (0, [{ head := ⟨0, []⟩, premises := [Term.atom ⟨1, []⟩],
             transform := [⟨some "Y", BaseTerm.var 2⟩,
               ⟨none, BaseTerm.var 3⟩] }]),
      (1, [{ head := ⟨1, []⟩, premises := [Term.atom ⟨0, []⟩],
             transform := [] }])] }

def c3Observed : Option (List (List PredicateIndex) × Option Nat × Option Nat) :=
  match stratify c3CEProg with
  | Except.ok (_, strata') =>
    some (strata', pred_to_index strata' 0, pred_to_index strata' 1)
  | Except.error _ => none

/-- `stratify` accepts `c3CEProg` — whose `do` transform is not the
clause's first transform — and assigns predicates 0 and 1 the SAME
stratum index, so the dependency is not ordered strictly below. -/
theorem c3Counterexample : c3Observed = some ([[0, 1]], some 0, some 0) := rfl

end Mangle
